import Mathlib

/-!
AT24CXX: a bit-banged two-wire master for a serial EEPROM.

A shallow embedding of `at24cxx.c` / `at24cxx.h`.

* The master owns two output latches (Clock = `PBout(10)`, Data = `PBout(11)`) and the
  direction of the Data pin.  Every pin access of the C code is one function below, and it
  appends one `Event` to the trace of the `World`.
* The slave is a parameter: a `Slave σ` reacts to every physical event and decides what
  `READ_SDA` samples.  Theorems quantified over `Slave σ` hold for every slave behaviour.
* `at24 ee` is one particular slave: a fault-free simulated EEPROM of capacity `ee + 1` bytes.
* `sys.h` and `delay.h` are not part of the sources: the bit-band accessors `PBout` / `PBin`
  and the delay functions are modelled as events on the latches and the trace.
-/

namespace AT24

/-! ## Constants of `at24cxx.h` -/

def AT24C01 : Nat := 127
def AT24C02 : Nat := 255
def AT24C04 : Nat := 511
def AT24C08 : Nat := 1023
def AT24C16 : Nat := 2047
def AT24C32 : Nat := 4095
def AT24C64 : Nat := 8191
def AT24C128 : Nat := 16383
def AT24C256 : Nat := 32767

/-- The capacity selected in `at24cxx.h`: `#define EE_TYPE AT24C02`. -/
def EE_TYPE : Nat := AT24C02

/-! ## Events, slave interface and the state of the world -/

/-- Mode of the Data pin, as set by `C04_SDA_IN()` / `C04_SDA_OUT()`. -/
inductive Dir where
  | input
  | output
  deriving DecidableEq, Repr

/-- The functions of `at24cxx.c` whose entry and exit are recorded in the trace. -/
inductive Prim where
  | start
  | stop
  | waitAck
  | ack
  | nack
  | send (txd : Nat)
  | recv (ack : Nat)
  | readOne (addr : Nat)
  | writeOne (addr : Nat) (data : Nat)
  deriving DecidableEq, Repr

/-- One entry of the trace.  `call` and `ret` are bookkeeping (function entry and exit); the
other constructors are the physical actions of the master. -/
inductive Event where
  | call (p : Prim)
  | ret (p : Prim)
  | sdaIn
  | sdaOut
  | scl (level : Bool)
  | sda (level : Bool)
  | readSda (level : Bool)
  | delayUs (n : Nat)
  | delayMs (n : Nat)
  deriving DecidableEq, Repr

/-- A slave device: it observes every physical event of the master (`react`) and determines
the level that `READ_SDA` samples (`level`). -/
structure Slave (σ : Type) where
  react : σ → Event → σ
  level : σ → Bool

/-- Master latches, Data direction, the trace so far and the state of the slave. -/
structure World (σ : Type) where
  scl : Bool
  sda : Bool
  dir : Dir
  trace : List Event
  slave : σ

variable {σ : Type}

/-- Idle bus: both latches high, Data configured as output (the state `C04_IIC_Init` and
`C04_IIC_Stop` leave behind). -/
def idleWorld (s : σ) : World σ :=
  { scl := true, sda := true, dir := Dir.output, trace := [], slave := s }

/-- Record a bookkeeping event. -/
def mark (e : Event) (w : World σ) : World σ :=
  { w with trace := w.trace ++ [e] }

/-- Record a physical event and let the slave react to it. -/
def emit (sl : Slave σ) (e : Event) (w : World σ) : World σ :=
  { w with trace := w.trace ++ [e], slave := sl.react w.slave e }

/-! ## Pin access (`at24cxx.h` macros) and delays -/

/-- Pin macro `C04_SDA_IN()`: the write to `GPIOB->CRH` puts pin 11 in input mode. -/
def C04_SDA_IN (sl : Slave σ) (w : World σ) : World σ :=
  emit sl Event.sdaIn { w with dir := Dir.input }

/-- Pin macro `C04_SDA_OUT()`: the write to `GPIOB->CRH` puts pin 11 in output mode. -/
def C04_SDA_OUT (sl : Slave σ) (w : World σ) : World σ :=
  emit sl Event.sdaOut { w with dir := Dir.output }

/-- Modelled from the spec: `PBout(10)` of the absent `sys.h` ("set Clock level").  The
assignment `C04_IIC_SCL = level` sets the Clock latch. -/
def C04_IIC_SCL (sl : Slave σ) (level : Bool) (w : World σ) : World σ :=
  emit sl (Event.scl level) { w with scl := level }

/-- Modelled from the spec: `PBout(11)` of the absent `sys.h` ("set Data level").  The
assignment `C04_IIC_SDA = level` sets the Data latch. -/
def C04_IIC_SDA (sl : Slave σ) (level : Bool) (w : World σ) : World σ :=
  emit sl (Event.sda level) { w with sda := level }

/-- Modelled from the spec: `PBin(11)` of the absent `sys.h` ("read Data level").  One
evaluation of `READ_SDA` samples the level the slave presents. -/
def READ_SDA (sl : Slave σ) (w : World σ) : Bool × World σ :=
  (sl.level w.slave, emit sl (Event.readSda (sl.level w.slave)) w)

/-- Modelled from the spec: `delay_us` of the absent `delay.h` ("busy-wait for N
microseconds"); the wait is recorded in the trace and shown to the slave. -/
def delay_us (sl : Slave σ) (n : Nat) (w : World σ) : World σ :=
  emit sl (Event.delayUs n) w

/-- Modelled from the spec: `delay_ms` of the absent `delay.h` ("busy-wait for N
milliseconds"). -/
def delay_ms (sl : Slave σ) (n : Nat) (w : World σ) : World σ :=
  emit sl (Event.delayMs n) w

/-! ## Bus primitives -/

def C04_IIC_Start (sl : Slave σ) (w : World σ) : World σ :=
  w |> mark (Event.call Prim.start)
    |> C04_SDA_OUT sl
    |> C04_IIC_SDA sl true
    |> C04_IIC_SCL sl true
    |> delay_us sl 4
    |> C04_IIC_SDA sl false
    |> delay_us sl 4
    |> C04_IIC_SCL sl false
    |> mark (Event.ret Prim.start)

def C04_IIC_Stop (sl : Slave σ) (w : World σ) : World σ :=
  w |> mark (Event.call Prim.stop)
    |> C04_SDA_OUT sl
    |> C04_IIC_SCL sl false
    |> C04_IIC_SDA sl false
    |> delay_us sl 4
    |> C04_IIC_SCL sl true
    |> C04_IIC_SDA sl true
    |> delay_us sl 4
    |> mark (Event.ret Prim.stop)

/-- The polling loop of `C04_IIC_Wait_Ack`, entered with the current value of the `u8`
counter `ucErrTime`:
`while(READ_SDA){ ucErrTime++; if(ucErrTime>250){ C04_IIC_Stop(); return 1; } }`
followed by `C04_IIC_SCL=0; return 0;`. -/
def waitAckLoop (sl : Slave σ) (ucErrTime : Nat) (w : World σ) : Nat × World σ :=
  if (READ_SDA sl w).1 then
    if (ucErrTime + 1) % 256 > 250 then
      (1, C04_IIC_Stop sl (READ_SDA sl w).2)
    else
      waitAckLoop sl ((ucErrTime + 1) % 256) (READ_SDA sl w).2
  else
    (0, C04_IIC_SCL sl false (READ_SDA sl w).2)
termination_by (506 - ucErrTime % 256) % 256
decreasing_by omega

def C04_IIC_Wait_Ack (sl : Slave σ) (w : World σ) : Nat × World σ :=
  let r := w |> mark (Event.call Prim.waitAck)
             |> C04_SDA_IN sl
             |> C04_IIC_SDA sl true
             |> delay_us sl 1
             |> C04_IIC_SCL sl true
             |> delay_us sl 1
             |> waitAckLoop sl 0
  (r.1, mark (Event.ret Prim.waitAck) r.2)

def C04_IIC_Ack (sl : Slave σ) (w : World σ) : World σ :=
  w |> mark (Event.call Prim.ack)
    |> C04_IIC_SCL sl false
    |> C04_SDA_OUT sl
    |> C04_IIC_SDA sl false
    |> delay_us sl 2
    |> C04_IIC_SCL sl true
    |> delay_us sl 2
    |> C04_IIC_SCL sl false
    |> mark (Event.ret Prim.ack)

def C04_IIC_NAck (sl : Slave σ) (w : World σ) : World σ :=
  w |> mark (Event.call Prim.nack)
    |> C04_IIC_SCL sl false
    |> C04_SDA_OUT sl
    |> C04_IIC_SDA sl true
    |> delay_us sl 2
    |> C04_IIC_SCL sl true
    |> delay_us sl 2
    |> C04_IIC_SCL sl false
    |> mark (Event.ret Prim.nack)

/-- The body of `for(t=0;t<8;t++)` in `C04_IIC_Send_Byte`, run `n` more times on the `u8`
value `txd`. -/
def sendLoop (sl : Slave σ) : Nat → Nat → World σ → World σ
  | 0, _, w => w
  | n + 1, txd, w =>
    w |> C04_IIC_SDA sl (((txd &&& 0x80) >>> 7) != 0)
      |> delay_us sl 2
      |> C04_IIC_SCL sl true
      |> delay_us sl 2
      |> C04_IIC_SCL sl false
      |> delay_us sl 2
      |> sendLoop sl n ((txd <<< 1) % 256)

/-- The argument is a `u8`: the value passed is reduced modulo 256. -/
def C04_IIC_Send_Byte (sl : Slave σ) (txd : Nat) (w : World σ) : World σ :=
  w |> mark (Event.call (Prim.send (txd % 256)))
    |> C04_SDA_OUT sl
    |> C04_IIC_SCL sl false
    |> sendLoop sl 8 (txd % 256)
    |> mark (Event.ret (Prim.send (txd % 256)))

/-- The body of `for(i=0;i<8;i++)` in `C04_IIC_Read_Byte`, run `n` more times on the `u8`
accumulator `receive`. -/
def recvLoop (sl : Slave σ) : Nat → Nat → World σ → Nat × World σ
  | 0, receive, w => (receive, w)
  | n + 1, receive, w =>
    let w1 := w |> C04_IIC_SCL sl false |> delay_us sl 2 |> C04_IIC_SCL sl true
    let r := READ_SDA sl w1
    let receive1 := (receive <<< 1) % 256
    let receive2 := if r.1 then (receive1 + 1) % 256 else receive1
    recvLoop sl n receive2 (delay_us sl 1 r.2)

def C04_IIC_Read_Byte (sl : Slave σ) (ack : Nat) (w : World σ) : Nat × World σ :=
  let r := w |> mark (Event.call (Prim.recv (ack % 256)))
             |> C04_SDA_IN sl
             |> recvLoop sl 8 0
  let w1 := if ack % 256 = 0 then C04_IIC_NAck sl r.2 else C04_IIC_Ack sl r.2
  (r.1, mark (Event.ret (Prim.recv (ack % 256))) w1)

/-! ## Device transactions

`ee` is the value of the macro `EE_TYPE`; `at24cxx.h` selects `EE_TYPE = AT24C02`. -/

/-- The `u16` parameter `ReadAddr` is reduced modulo 65536; the results of
`C04_IIC_Wait_Ack` are discarded, as in the source. -/
def AT24CXX_ReadOneByte (sl : Slave σ) (ee : Nat) (ReadAddr : Nat) (w : World σ) :
    Nat × World σ :=
  let a := ReadAddr % 65536
  let w0 := w |> mark (Event.call (Prim.readOne a)) |> C04_IIC_Start sl
  let w1 :=
    if ee > AT24C16 then
      let v1 := C04_IIC_Send_Byte sl 0xA0 w0
      let v2 := (C04_IIC_Wait_Ack sl v1).2
      let v3 := C04_IIC_Send_Byte sl (a >>> 8) v2
      (C04_IIC_Wait_Ack sl v3).2
    else
      C04_IIC_Send_Byte sl (0xA0 + ((a / 256) <<< 1)) w0
  let w2 := (C04_IIC_Wait_Ack sl w1).2
  let w3 := C04_IIC_Send_Byte sl (a % 256) w2
  let w4 := (C04_IIC_Wait_Ack sl w3).2
  let w5 := C04_IIC_Start sl w4
  let w6 := C04_IIC_Send_Byte sl 0xA1 w5
  let w7 := (C04_IIC_Wait_Ack sl w6).2
  let r := C04_IIC_Read_Byte sl 0 w7
  let w8 := C04_IIC_Stop sl r.2
  (r.1, mark (Event.ret (Prim.readOne a)) w8)

/-- The `u16` parameter `WriteAddr` and the `u8` parameter `DataToWrite` are reduced modulo
65536 and 256. -/
def AT24CXX_WriteOneByte (sl : Slave σ) (ee : Nat) (WriteAddr DataToWrite : Nat)
    (w : World σ) : World σ :=
  let a := WriteAddr % 65536
  let d := DataToWrite % 256
  let w0 := w |> mark (Event.call (Prim.writeOne a d)) |> C04_IIC_Start sl
  let w1 :=
    if ee > AT24C16 then
      let v1 := C04_IIC_Send_Byte sl 0xA0 w0
      let v2 := (C04_IIC_Wait_Ack sl v1).2
      C04_IIC_Send_Byte sl (a >>> 8) v2
    else
      C04_IIC_Send_Byte sl (0xA0 + ((a / 256) <<< 1)) w0
  let w2 := (C04_IIC_Wait_Ack sl w1).2
  let w3 := C04_IIC_Send_Byte sl (a % 256) w2
  let w4 := (C04_IIC_Wait_Ack sl w3).2
  let w5 := C04_IIC_Send_Byte sl d w4
  let w6 := (C04_IIC_Wait_Ack sl w5).2
  let w7 := C04_IIC_Stop sl w6
  w7 |> delay_ms sl 10 |> mark (Event.ret (Prim.writeOne a d))

/-- The loop `for(t=0;t<Len;t++)` of `AT24CXX_WriteLenByte`, with `n` iterations left. -/
def writeLenLoop (sl : Slave σ) (ee : Nat) (WriteAddr DataToWrite : Nat) :
    Nat → Nat → World σ → World σ
  | 0, _, w => w
  | n + 1, t, w =>
    writeLenLoop sl ee WriteAddr DataToWrite n (t + 1)
      (AT24CXX_WriteOneByte sl ee (WriteAddr + t) ((DataToWrite >>> (8 * t)) &&& 0xff) w)

/-- Parameters: `u16 WriteAddr`, `u32 DataToWrite`, `u8 Len`. -/
def AT24CXX_WriteLenByte (sl : Slave σ) (ee : Nat) (WriteAddr DataToWrite Len : Nat)
    (w : World σ) : World σ :=
  writeLenLoop sl ee (WriteAddr % 65536) (DataToWrite % 4294967296) (Len % 256) 0 w

/-- The loop `for(t=0;t<Len;t++)` of `AT24CXX_ReadLenByte` on the `u32` accumulator `temp`,
with `n` iterations left. -/
def readLenLoop (sl : Slave σ) (ee : Nat) (ReadAddr Len : Nat) :
    Nat → Nat → Nat → World σ → Nat × World σ
  | 0, _, temp, w => (temp, w)
  | n + 1, t, temp, w =>
    let r := AT24CXX_ReadOneByte sl ee (ReadAddr + Len - t - 1) w
    readLenLoop sl ee ReadAddr Len n (t + 1) (((temp <<< 8) % 4294967296 + r.1) % 4294967296) r.2

/-- Parameters: `u16 ReadAddr`, `u8 Len`; the result is a `u32`. -/
def AT24CXX_ReadLenByte (sl : Slave σ) (ee : Nat) (ReadAddr Len : Nat) (w : World σ) :
    Nat × World σ :=
  readLenLoop sl ee (ReadAddr % 65536) (Len % 256) (Len % 256) 0 0 w

/-- The sentinel address 255 and the sentinel value 0x55 are literal in the source. -/
def AT24CXX_Check (sl : Slave σ) (ee : Nat) (w : World σ) : Nat × World σ :=
  let r := AT24CXX_ReadOneByte sl ee 255 w
  if r.1 = 0x55 then (0, r.2)
  else
    let w1 := AT24CXX_WriteOneByte sl ee 255 0x55 r.2
    let r1 := AT24CXX_ReadOneByte sl ee 255 w1
    if r1.1 = 0x55 then (0, r1.2) else (1, r1.2)

/-- The loop `while(NumToRead)` of `AT24CXX_Read`.  The caller's memory is the list `buf`,
and `p` is the offset of `pBuffer` in it. -/
def readLoop (sl : Slave σ) (ee : Nat) :
    Nat → Nat → Nat → List Nat → World σ → List Nat × World σ
  | 0, _, _, buf, w => (buf, w)
  | n + 1, ReadAddr, p, buf, w =>
    let r := AT24CXX_ReadOneByte sl ee ReadAddr w
    readLoop sl ee n ((ReadAddr + 1) % 65536) (p + 1) (buf.set p r.1) r.2

/-- Parameters: `u16 ReadAddr`, `u8 *pBuffer` (the list `buf`, filled from offset 0),
`u16 NumToRead`. -/
def AT24CXX_Read (sl : Slave σ) (ee : Nat) (ReadAddr : Nat) (buf : List Nat)
    (NumToRead : Nat) (w : World σ) : List Nat × World σ :=
  readLoop sl ee (NumToRead % 65536) (ReadAddr % 65536) 0 buf w

/-- The loop `while(NumToWrite--)` of `AT24CXX_Write`; `p` is the offset of `pBuffer` in the
caller's memory `buf` (a read past its end is undefined in C and yields 0 here). -/
def writeLoop (sl : Slave σ) (ee : Nat) :
    Nat → Nat → Nat → List Nat → World σ → World σ
  | 0, _, _, _, w => w
  | n + 1, WriteAddr, p, buf, w =>
    writeLoop sl ee n ((WriteAddr + 1) % 65536) (p + 1) buf
      (AT24CXX_WriteOneByte sl ee WriteAddr (buf.getD p 0) w)

/-- Parameters: `u16 WriteAddr`, `u8 *pBuffer` (the list `buf`, read from offset 0),
`u16 NumToWrite`. -/
def AT24CXX_Write (sl : Slave σ) (ee : Nat) (WriteAddr : Nat) (buf : List Nat)
    (NumToWrite : Nat) (w : World σ) : World σ :=
  writeLoop sl ee (NumToWrite % 65536) (WriteAddr % 65536) 0 buf w

/-! ## A fault-free simulated EEPROM

The device decodes the two-wire protocol from the levels it sees: a START is a falling edge
of Data while Clock is high, a STOP a rising edge of Data while Clock is high; bits are
sampled on rising Clock edges and the device changes what it drives on falling Clock edges.
It acknowledges every byte addressed to it and stores every data byte it acknowledges. -/

/-- What the byte in transfer means to the device. -/
inductive Mode where
  | idle
  | dev
  | addrHi
  | addrLo
  | data
  | tx
  deriving DecidableEq, Repr

/-- State of the simulated EEPROM.  `scl`, `mdir`, `mreg` mirror the master pins as last
seen; `out = false` means the device pulls Data low; `cnt` counts the bits of the current
byte; `hi` holds the upper address bits, `ptr` the address counter. -/
structure Eeprom where
  scl : Bool
  mdir : Dir
  mreg : Bool
  mode : Mode
  cnt : Nat
  acking : Bool
  shift : Nat
  out : Bool
  hi : Nat
  ptr : Nat
  mem : Nat → Nat

namespace Eeprom

/-- The byte stored in cell `a`. -/
def byteAt (d : Eeprom) (a : Nat) : Nat := d.mem a % 256

/-- Level the master puts on Data: its latch when the pin is an output, released (pulled
high) when it is an input. -/
def masterLine (d : Eeprom) : Bool := d.mdir == Dir.input || d.mreg

/-- Level of the Data line: low when either side pulls it low. -/
def line (d : Eeprom) : Bool := d.masterLine && d.out

/-- Reaction to a change of the master's Data pin from state `old` to state `new`. -/
def onData (old new : Eeprom) : Eeprom :=
  if old.scl && old.line && !new.line then
    { new with mode := Mode.dev, cnt := 0, shift := 0, acking := false, out := true }
  else if old.scl && !old.line && new.line then
    { new with mode := Mode.idle, cnt := 0, shift := 0, acking := false, out := true }
  else new

/-- Acknowledge the byte just received: pull Data low during the next Clock pulse. -/
def acknowledge (d : Eeprom) : Eeprom :=
  { d with acking := true, out := false }

/-- A complete byte `d.shift` has been received. -/
def handleByte (ee : Nat) (d : Eeprom) : Eeprom :=
  match d.mode with
  | Mode.dev =>
    if d.shift / 16 = 10 ∧
        (if ee > AT24C16 then d.shift / 2 % 8 = 0 else d.shift / 2 % 8 * 256 ≤ ee) then
      if d.shift % 2 = 0 then
        if ee > AT24C16 then acknowledge { d with mode := Mode.addrHi }
        else acknowledge { d with mode := Mode.addrLo, hi := d.shift / 2 % 8 }
      else acknowledge { d with mode := Mode.tx }
    else { d with mode := Mode.idle }
  | Mode.addrHi => acknowledge { d with mode := Mode.addrLo, hi := d.shift }
  | Mode.addrLo =>
    acknowledge { d with mode := Mode.data, ptr := (d.hi * 256 + d.shift) % (ee + 1) }
  | Mode.data =>
    acknowledge { d with mem := Function.update d.mem d.ptr d.shift,
                         ptr := (d.ptr + 1) % (ee + 1) }
  | _ => d

/-- Put the next bit of the addressed cell on Data, most significant bit first. -/
def driveBit (d : Eeprom) : Eeprom :=
  { d with out := d.mem d.ptr / 2 ^ (7 - d.cnt) % 2 == 1, cnt := d.cnt + 1 }

/-- Rising Clock edge. -/
def onRise (d : Eeprom) : Eeprom :=
  if d.acking then d
  else
    match d.mode with
    | Mode.idle => d
    | Mode.tx =>
      if d.cnt = 9 then
        if d.line then { d with mode := Mode.idle } else { d with cnt := 0 }
      else d
    | _ =>
      if d.cnt < 8 then
        { d with shift := d.shift * 2 + (if d.line then 1 else 0), cnt := d.cnt + 1 }
      else d

/-- Falling Clock edge. -/
def onFall (ee : Nat) (d : Eeprom) : Eeprom :=
  if d.acking then
    if d.mode = Mode.tx then
      driveBit { d with acking := false, out := true, cnt := 0, shift := 0 }
    else { d with acking := false, out := true, cnt := 0, shift := 0 }
  else
    match d.mode with
    | Mode.idle => d
    | Mode.tx =>
      if d.cnt < 8 then driveBit d
      else if d.cnt = 8 then { d with out := true, cnt := 9, ptr := (d.ptr + 1) % (ee + 1) }
      else d
    | _ => if d.cnt = 8 then handleByte ee d else d

def react (ee : Nat) (d : Eeprom) : Event → Eeprom
  | Event.sdaIn => onData d { d with mdir := Dir.input }
  | Event.sdaOut => onData d { d with mdir := Dir.output }
  | Event.sda l => onData d { d with mreg := l }
  | Event.scl l =>
    if d.scl = l then d
    else if l then onRise { d with scl := true } else onFall ee { d with scl := false }
  | _ => d

/-- An unaddressed device on an idle bus with memory contents `mem`. -/
def idle (mem : Nat → Nat) : Eeprom :=
  { scl := true, mdir := Dir.output, mreg := true, mode := Mode.idle, cnt := 0,
    acking := false, shift := 0, out := true, hi := 0, ptr := 0, mem := mem }

end Eeprom

/-- Modelled from the spec: the "fault-free simulated bus" of the testable properties (the
repository has no such harness).  The fault-free simulated EEPROM of capacity `ee + 1` bytes,
as a slave. -/
def at24 (ee : Nat) : Slave Eeprom :=
  { react := Eeprom.react ee, level := Eeprom.line }

/-- A slave that never drives Data: every sample reads high. -/
def absent : Slave Unit :=
  { react := fun _ _ => (), level := fun _ => true }

/-! ## Traces as event lists

Every primitive is the replay (`run`) of an explicit list of events; the lists below are those
of the primitives of `at24cxx.c`, written as functions of what the slave let the master sample. -/

def applyEvent (sl : Slave σ) (w : World σ) : Event → World σ
  | Event.call p => mark (Event.call p) w
  | Event.ret p => mark (Event.ret p) w
  | Event.sdaIn => C04_SDA_IN sl w
  | Event.sdaOut => C04_SDA_OUT sl w
  | Event.scl l => C04_IIC_SCL sl l w
  | Event.sda l => C04_IIC_SDA sl l w
  | Event.readSda b => emit sl (Event.readSda b) w
  | Event.delayUs n => delay_us sl n w
  | Event.delayMs n => delay_ms sl n w

def run (sl : Slave σ) (evs : List Event) (w : World σ) : World σ :=
  evs.foldl (applyEvent sl) w

def startEvents : List Event :=
  [Event.call Prim.start, Event.sdaOut, Event.sda true, Event.scl true, Event.delayUs 4,
   Event.sda false, Event.delayUs 4, Event.scl false, Event.ret Prim.start]

def sendBits : Nat → Nat → List Event
  | 0, _ => []
  | n + 1, txd =>
    [Event.sda (((txd &&& 0x80) >>> 7) != 0), Event.delayUs 2, Event.scl true, Event.delayUs 2,
     Event.scl false, Event.delayUs 2] ++ sendBits n ((txd <<< 1) % 256)

def sendEvents (txd : Nat) : List Event :=
  [Event.call (Prim.send (txd % 256)), Event.sdaOut, Event.scl false] ++ sendBits 8 (txd % 256)
    ++ [Event.ret (Prim.send (txd % 256))]

def stopEvents : List Event :=
  [Event.call Prim.stop, Event.sdaOut, Event.scl false, Event.sda false, Event.delayUs 4,
   Event.scl true, Event.sda true, Event.delayUs 4, Event.ret Prim.stop]

/-- Events of the polling loop: `n` high samples, then either a low sample and the falling
Clock edge (`ok`), or the Stop of the timeout. -/
def pollEvents (n : Nat) (ok : Bool) : List Event :=
  List.replicate n (Event.readSda true) ++
    (if ok then [Event.readSda false, Event.scl false] else stopEvents)

/-- The slave state after `i` further high samples. -/
def afterHighs (sl : Slave σ) (i : Nat) (w : World σ) : World σ :=
  run sl (List.replicate i (Event.readSda true)) w

/-- Outcome of one acknowledge wait: the number of high samples, and whether a low sample
ended the wait. -/
structure Poll where
  highs : Nat
  ok : Bool
  deriving DecidableEq, Repr

/-- Return value of `C04_IIC_Wait_Ack` for an outcome. -/
def Poll.code (p : Poll) : Nat := if p.ok then 0 else 1

def waitPrelude : List Event :=
  [Event.call Prim.waitAck, Event.sdaIn, Event.sda true, Event.delayUs 1, Event.scl true,
   Event.delayUs 1]

def waitEvents (p : Poll) : List Event :=
  waitPrelude ++ pollEvents p.highs p.ok ++ [Event.ret Prim.waitAck]

/-- The outcome `p` is what the slave `sl` produces from the world `w` on. -/
def Poll.OccursAt (sl : Slave σ) (w : World σ) (p : Poll) : Prop :=
  (∀ i, i < p.highs → sl.level (afterHighs sl i (run sl waitPrelude w)).slave = true) ∧
  (if p.ok then p.highs ≤ 250 ∧ sl.level (afterHighs sl p.highs (run sl waitPrelude w)).slave = false
   else p.highs = 251)

def ackEvents : List Event :=
  [Event.call Prim.ack, Event.scl false, Event.sdaOut, Event.sda false, Event.delayUs 2,
   Event.scl true, Event.delayUs 2, Event.scl false, Event.ret Prim.ack]

def nackEvents : List Event :=
  [Event.call Prim.nack, Event.scl false, Event.sdaOut, Event.sda true, Event.delayUs 2,
   Event.scl true, Event.delayUs 2, Event.scl false, Event.ret Prim.nack]

/-- Events of the receive loop for the sampled levels `bits`. -/
def recvBits : List Bool → List Event
  | [] => []
  | b :: bs =>
    [Event.scl false, Event.delayUs 2, Event.scl true, Event.readSda b, Event.delayUs 1]
      ++ recvBits bs

/-- The `u8` accumulator of `C04_IIC_Read_Byte` after sampling `bits`. -/
def assemble : Nat → List Bool → Nat
  | receive, [] => receive
  | receive, b :: bs =>
    assemble (if b then ((receive <<< 1) % 256 + 1) % 256 else (receive <<< 1) % 256) bs

def recvEvents (bits : List Bool) (ack : Nat) : List Event :=
  [Event.call (Prim.recv (ack % 256)), Event.sdaIn] ++ recvBits bits
    ++ (if ack % 256 = 0 then nackEvents else ackEvents) ++ [Event.ret (Prim.recv (ack % 256))]

/-- The outcome `p` can be produced by the slave `sl`: a successful wait saw a low level, a
timeout saw 251 high samples. -/
def Poll.Possible (sl : Slave σ) (p : Poll) : Prop :=
  if p.ok then p.highs ≤ 250 ∧ ∃ s, sl.level s = false else p.highs = 251

/-- Events from the first Start up to and including the bytes that precede the wait for the
acknowledge of the device byte (one-byte addressing) or of the high address byte (two-byte
addressing), as `AT24CXX_ReadOneByte` issues them. -/
def readHead (ee a : Nat) (q : Nat → Poll) : List Event :=
  if ee > AT24C16 then
    sendEvents 0xA0 ++ waitEvents (q 0) ++ sendEvents (a >>> 8) ++ waitEvents (q 1)
  else sendEvents (0xA0 + ((a / 256) <<< 1))

/-- The trace of `AT24CXX_ReadOneByte` for the `u16` address `a`, the acknowledge outcomes
`q 0 .. q 4` and the sampled data bits `bits`. -/
def readEvents (ee a : Nat) (q : Nat → Poll) (bits : List Bool) : List Event :=
  [Event.call (Prim.readOne a)] ++ startEvents ++ readHead ee a q ++ waitEvents (q 2)
    ++ sendEvents (a % 256) ++ waitEvents (q 3) ++ startEvents ++ sendEvents 0xA1
    ++ waitEvents (q 4) ++ recvEvents bits 0 ++ stopEvents ++ [Event.ret (Prim.readOne a)]

def writeHead (ee a : Nat) (q : Nat → Poll) : List Event :=
  if ee > AT24C16 then sendEvents 0xA0 ++ waitEvents (q 0) ++ sendEvents (a >>> 8)
  else sendEvents (0xA0 + ((a / 256) <<< 1))

/-- The trace of `AT24CXX_WriteOneByte` for the `u16` address `a`, the `u8` value `d` and the
acknowledge outcomes `q 0 .. q 3`. -/
def writeEvents (ee a d : Nat) (q : Nat → Poll) : List Event :=
  [Event.call (Prim.writeOne a d)] ++ startEvents ++ writeHead ee a q ++ waitEvents (q 1)
    ++ sendEvents (a % 256) ++ waitEvents (q 2) ++ sendEvents d ++ waitEvents (q 3)
    ++ stopEvents ++ [Event.delayMs 10, Event.ret (Prim.writeOne a d)]

/-- The idle bus with the simulated device unaddressed, after the history `tr`; `hi`, `ptr`
and `mem` are the device's address latch, address counter and memory. -/
def settled (tr : List Event) (hi ptr : Nat) (mem : Nat → Nat) : World Eeprom :=
  { scl := true, sda := true, dir := Dir.output, trace := tr,
    slave := { scl := true, mdir := Dir.output, mreg := true, mode := Mode.idle, cnt := 0,
               acking := false, shift := 0, out := true, hi := hi, ptr := ptr, mem := mem } }

/-- The outcome of an acknowledge wait that sees Data low at the first sample. -/
def acked : Poll := { highs := 0, ok := true }

/-- The eight levels the device puts on Data for the byte `x`, most significant bit first. -/
def bitsOf (x : Nat) : List Bool :=
  [x / 128 % 2 == 1, x / 64 % 2 == 1, x / 32 % 2 == 1, x / 16 % 2 == 1,
   x / 8 % 2 == 1, x / 4 % 2 == 1, x / 2 % 2 == 1, x % 2 == 1]

/-- The levels that `n` iterations of the receive loop sample from the world `w` on. -/
def sampled (sl : Slave σ) : Nat → World σ → List Bool
  | 0, _ => []
  | n + 1, w =>
    sl.level (run sl [Event.scl false, Event.delayUs 2, Event.scl true] w).slave ::
      sampled sl n (run sl [Event.scl false, Event.delayUs 2, Event.scl true,
        Event.readSda (sl.level (run sl [Event.scl false, Event.delayUs 2, Event.scl true] w).slave),
        Event.delayUs 1] w)

/-- The levels sampled by `READ_SDA`, in order, as recorded in a trace. -/
def samples : List Event → List Bool
  | [] => []
  | Event.readSda b :: es => b :: samples es
  | _ :: es => samples es

/-- The outcome of an acknowledge wait that times out. -/
def timedOut : Poll := { highs := 251, ok := false }

/-- A slave that lets Data read high for the first 250 samples and holds it low from the
251st sample on; its state counts the samples taken. -/
def lateAck : Slave Nat :=
  { react := fun n e => match e with
      | Event.readSda _ => n + 1
      | _ => n,
    level := fun n => decide (n < 250) }

/-- The bytes passed to `C04_IIC_Send_Byte`, in order, as recorded in a trace. -/
def sentBytes : List Event → List Nat
  | [] => []
  | Event.call (Prim.send b) :: es => b :: sentBytes es
  | _ :: es => sentBytes es

/-- One step of the Start/Stop scanner.  The state is the number of calls of
`C04_IIC_Start` since the last call of `C04_IIC_Stop`; it becomes `none` when a Start arrives
while `limit` Starts are already open. -/
def seqStep (limit : Nat) : Option Nat → Event → Option Nat
  | none, _ => none
  | some n, Event.call Prim.start => if n < limit then some (n + 1) else none
  | some _, Event.call Prim.stop => some 0
  | some n, _ => some n

/-- Scan a trace from the scanner state `s`. -/
def seqScan (limit : Nat) (s : Option Nat) (tr : List Event) : Option Nat :=
  tr.foldl (seqStep limit) s

/-- Starts and Stops alternate strictly in the trace, beginning with a Start when `o` is
false: every Start is followed by exactly one Stop before the next Start. -/
def alternates : Bool → List Event → Bool
  | _, [] => true
  | o, Event.call Prim.start :: es => !o && alternates true es
  | o, Event.call Prim.stop :: es => o && alternates false es
  | o, _ :: es => alternates o es

/-- The public operations of the device transaction layer. -/
inductive Op where
  | readOne (addr : Nat)
  | writeOne (addr data : Nat)
  | readLen (addr len : Nat)
  | writeLen (addr data len : Nat)
  | read (addr : Nat) (buf : List Nat) (num : Nat)
  | write (addr : Nat) (buf : List Nat) (num : Nat)
  | check

/-- Run one public operation, discarding its result. -/
def Op.exec (sl : Slave σ) (ee : Nat) : Op → World σ → World σ
  | Op.readOne a, w => (AT24CXX_ReadOneByte sl ee a w).2
  | Op.writeOne a d, w => AT24CXX_WriteOneByte sl ee a d w
  | Op.readLen a l, w => (AT24CXX_ReadLenByte sl ee a l w).2
  | Op.writeLen a d l, w => AT24CXX_WriteLenByte sl ee a d l w
  | Op.read a buf n, w => (AT24CXX_Read sl ee a buf n w).2
  | Op.write a buf n, w => AT24CXX_Write sl ee a buf n w
  | Op.check, w => (AT24CXX_Check sl ee w).2

/-- Run a sequence of public operations. -/
def execAll (sl : Slave σ) (ee : Nat) (ops : List Op) (w : World σ) : World σ :=
  ops.foldl (fun v o => o.exec sl ee v) w

/-- The operations that only write. -/
def Op.writesOnly : Op → Bool
  | Op.writeOne _ _ => true
  | Op.writeLen _ _ _ => true
  | Op.write _ _ _ => true
  | _ => false

/-- A piece of trace without Starts can only keep or reset the count of open Starts. -/
def Calm (limit : Nat) (evs : List Event) : Prop :=
  ∀ n, ∃ m, m ≤ n ∧ seqScan limit (some n) evs = some m

/-- The trace of the world is closed: scanning it from no open Start ends with none open. -/
def Closed (limit : Nat) (w : World σ) : Prop :=
  seqScan limit (some 0) w.trace = some 0

/-- The calls of `AT24CXX_ReadOneByte` and `AT24CXX_WriteOneByte` recorded in a trace, in
order, with their arguments. -/
def txnCalls : List Event → List Prim
  | [] => []
  | Event.call (Prim.readOne a) :: es => Prim.readOne a :: txnCalls es
  | Event.call (Prim.writeOne a d) :: es => Prim.writeOne a d :: txnCalls es
  | _ :: es => txnCalls es

/-- The events a world has recorded beyond the trace of the earlier world `w`. -/
def since (w : World σ) (tr : List Event) : List Event :=
  tr.drop w.trace.length

/-- The calls made at nesting depth `d`, in order, when the scan of the trace starts at depth
`cur`: a `call` opens one level, a `ret` closes one. -/
def callsAt (d : Nat) : Nat → List Event → List Prim
  | _, [] => []
  | cur, Event.call p :: es =>
    if cur = d then p :: callsAt d (cur + 1) es else callsAt d (cur + 1) es
  | cur, Event.ret _ :: es => callsAt d (cur - 1) es
  | cur, _ :: es => callsAt d cur es

/-- The bus primitives a transaction calls directly, in order: the calls at depth 1 of the
events the transaction recorded (the transaction itself is the call at depth 0). -/
def primitivesOf (evs : List Event) : List Prim :=
  callsAt 1 0 evs

/-- The primitive is a call of `C04_IIC_Send_Byte`. -/
def Prim.isSend : Prim → Bool
  | Prim.send _ => true
  | _ => false

/-- The primitive is a call of `C04_IIC_Start`. -/
def Prim.isStart : Prim → Bool
  | Prim.start => true
  | _ => false

/-- The address phase of a write: the primitives before the last `C04_IIC_Send_Byte` (the
one that sends the data byte). -/
def beforeLastSend (ps : List Prim) : List Prim :=
  ((ps.reverse.dropWhile (fun p => !p.isSend)).drop 1).reverse

/-- The address phase of a read: the primitives before the second `C04_IIC_Start` (the
repeated Start). -/
def beforeSecondStart : List Prim → List Prim
  | [] => []
  | p :: ps => p :: ps.takeWhile (fun x => !x.isStart)

/-- The piece of trace holds no `call` and no `ret`. -/
def Plain (evs : List Event) : Prop :=
  ∀ (d cur : Nat) (rest : List Event), callsAt d cur (evs ++ rest) = callsAt d cur rest

/-- The piece of trace is one complete call of the primitive `p` made at depth 1. -/
def OneCall (p : Prim) (evs : List Event) : Prop :=
  ∀ rest : List Event, callsAt 1 1 (evs ++ rest) = p :: callsAt 1 1 rest

/-- The primitive sequence of a single-byte read as the specification words it: Start, the
device byte, in two-byte mode an acknowledge wait and the high address byte, then an
acknowledge wait, the low address byte, an acknowledge wait, a repeated Start, the read
command 0xA1, an acknowledge wait, a receive without acknowledge, and Stop; one acknowledge
wait after each byte sent. -/
def readSequenceSpec (ee a : Nat) : List Prim :=
  [Prim.start] ++
    (if ee > AT24C16 then [Prim.send 0xA0, Prim.waitAck, Prim.send (a >>> 8)]
     else [Prim.send (0xA0 + ((a / 256) <<< 1))]) ++
    [Prim.waitAck, Prim.send (a % 256), Prim.waitAck, Prim.start, Prim.send 0xA1,
     Prim.waitAck, Prim.recv 0, Prim.stop]

/-- One Clock pulse of `C04_IIC_Send_Byte` with Data driven to `b`: Data is set while Clock
is low, then Clock goes high and low again. -/
def sendPulse (b : Bool) : List Event :=
  [Event.sda b, Event.delayUs 2, Event.scl true, Event.delayUs 2, Event.scl false,
   Event.delayUs 2]

/-- Every write of the Data latch in the trace happens while the Clock latch is low; `c` is
the Clock level before the trace. -/
def dataWritesWhileClockLow : Bool → List Event → Bool
  | _, [] => true
  | _, Event.scl l :: es => dataWritesWhileClockLow l es
  | c, Event.sda _ :: es => !c && dataWritesWhileClockLow c es
  | c, _ :: es => dataWritesWhileClockLow c es

/-- The number of rising edges of the Clock latch in the trace; `c` is the Clock level before
the trace. -/
def clockRises : Bool → List Event → Nat
  | _, [] => 0
  | c, Event.scl l :: es => (if !c && l then 1 else 0) + clockRises l es
  | c, _ :: es => clockRises c es

/-- One iteration of the receive loop that samples the level `b`. -/
def recvPulse (b : Bool) : List Event :=
  [Event.scl false, Event.delayUs 2, Event.scl true, Event.readSda b, Event.delayUs 1]

/-- A slave that presents a prepared list of levels, one per sample, and high afterwards. -/
def scripted : Slave (List Bool) :=
  { react := fun s e => match e with
      | Event.readSda _ => s.tail
      | _ => s,
    level := fun s => s.headD true }

/-- One step of the direction scanner.  The state is the mode of the Data pin and the
previous event.  A sample needs input mode.  A write of the Data latch needs output mode;
when `strict` is false, the write of level high that directly follows `C04_SDA_IN()` is
allowed as well.  `none` records a violation. -/
def dirStep (strict : Bool) : Option (Dir × Option Event) → Event → Option (Dir × Option Event)
  | none, _ => none
  | some (_, _), Event.sdaIn => some (Dir.input, some Event.sdaIn)
  | some (_, _), Event.sdaOut => some (Dir.output, some Event.sdaOut)
  | some (d, _), Event.readSda b =>
    if d = Dir.input then some (d, some (Event.readSda b)) else none
  | some (d, prev), Event.sda l =>
    if d = Dir.output ∨ (strict = false ∧ l = true ∧ prev = some Event.sdaIn) then
      some (d, some (Event.sda l))
    else none
  | some (d, _), e => some (d, some e)

/-- Scan a trace with the direction scanner from the state `s`. -/
def dirScan (strict : Bool) (s : Option (Dir × Option Event)) (tr : List Event) :
    Option (Dir × Option Event) :=
  tr.foldl (dirStep strict) s

/-- Run the function a `Prim` stands for, discarding its result. -/
def Prim.exec (sl : Slave σ) (ee : Nat) : Prim → World σ → World σ
  | Prim.start, w => C04_IIC_Start sl w
  | Prim.stop, w => C04_IIC_Stop sl w
  | Prim.waitAck, w => (C04_IIC_Wait_Ack sl w).2
  | Prim.ack, w => C04_IIC_Ack sl w
  | Prim.nack, w => C04_IIC_NAck sl w
  | Prim.send txd, w => C04_IIC_Send_Byte sl txd w
  | Prim.recv a, w => (C04_IIC_Read_Byte sl a w).2
  | Prim.readOne a, w => (AT24CXX_ReadOneByte sl ee a w).2
  | Prim.writeOne a d, w => AT24CXX_WriteOneByte sl ee a d w

/-- The primitives that do not wait for an acknowledge, directly or through a transaction. -/
def Prim.noWait : Prim → Bool
  | Prim.start => true
  | Prim.stop => true
  | Prim.ack => true
  | Prim.nack => true
  | Prim.send _ => true
  | Prim.recv _ => true
  | _ => false

/-- The piece of trace respects the direction rule whatever the state it starts in. -/
def Mannered (strict : Bool) (evs : List Event) : Prop :=
  ∀ (d : Dir) (prev : Option Event), ∃ d2 prev2,
    dirScan strict (some (d, prev)) evs = some (d2, prev2)

/-- The piece of trace respects the direction rule when started in mode `d`, and stays in
that mode. -/
def ManneredIn (strict : Bool) (d : Dir) (evs : List Event) : Prop :=
  ∀ prev : Option Event, ∃ prev2, dirScan strict (some (d, prev)) evs = some (d, prev2)

/-- The world `v` continues the world `w` by a piece of trace that respects the direction
rule from any state. -/
def Follows (w v : World σ) : Prop :=
  ∃ evs, v.trace = w.trace ++ evs ∧ Mannered false evs

/-- The pins of the master: the Clock latch, the Data latch and the mode of the Data pin. -/
structure Pins where
  scl : Bool
  sda : Bool
  dir : Dir

/-- Level the master puts on Data: its latch in output mode, released (high) in input mode. -/
def Pins.data (p : Pins) : Bool :=
  match p.dir with
  | Dir.input => true
  | Dir.output => p.sda

/-- The pins of a world. -/
def pinsOf (w : World σ) : Pins :=
  { scl := w.scl, sda := w.sda, dir := w.dir }

/-- A change of the Data pin from `p` to `p2` by the event `e`, inside the calls `st`
(innermost first).  While Clock is high the level on Data may change only by the write of 0
inside `C04_IIC_Start` (falling edge) or the write of 1 inside `C04_IIC_Stop` (rising
edge). -/
def edgeAllowed (p p2 : Pins) (st : List Prim) (e : Event) : Bool :=
  !p.scl || p.data == p2.data ||
    (st.head? == some Prim.start && e == Event.sda false && p.data && !p2.data) ||
    (st.head? == some Prim.stop && e == Event.sda true && !p.data && p2.data)

/-- One step of the framing scanner: the state is the pins and the stack of open calls;
`none` records a change of the Data level while Clock is high that is neither the Start edge
nor the Stop edge. -/
def frameStep : Option (Pins × List Prim) → Event → Option (Pins × List Prim)
  | none, _ => none
  | some (p, st), Event.call f => some (p, f :: st)
  | some (p, st), Event.ret _ => some (p, st.tail)
  | some (p, st), Event.scl l => some ({ p with scl := l }, st)
  | some (p, st), Event.sdaIn =>
    if edgeAllowed p { p with dir := Dir.input } st Event.sdaIn then
      some ({ p with dir := Dir.input }, st) else none
  | some (p, st), Event.sdaOut =>
    if edgeAllowed p { p with dir := Dir.output } st Event.sdaOut then
      some ({ p with dir := Dir.output }, st) else none
  | some (p, st), Event.sda l =>
    if edgeAllowed p { p with sda := l } st (Event.sda l) then
      some ({ p with sda := l }, st) else none
  | some (p, st), _ => some (p, st)

/-- Scan a trace with the framing scanner from the state `s`. -/
def frameScan (s : Option (Pins × List Prim)) (tr : List Event) : Option (Pins × List Prim) :=
  tr.foldl frameStep s

/-- Pins on which every primitive may start: when Clock is high, the Data latch is high. -/
def Pins.Steady (p : Pins) : Prop :=
  p.scl = false ∨ p.sda = true

/-- From steady pins the piece of trace shows no forbidden edge, leaves the pins steady and
the stack of calls as it was. -/
def Tame (evs : List Event) : Prop :=
  ∀ (p : Pins) (st : List Prim), p.Steady →
    ∃ p2 : Pins, p2.Steady ∧ frameScan (some (p, st)) evs = some (p2, st)

/-- The calls of `C04_IIC_Start` and `C04_IIC_Stop` recorded in a trace, in order. -/
def startStops : List Event → List Prim
  | [] => []
  | Event.call Prim.start :: es => Prim.start :: startStops es
  | Event.call Prim.stop :: es => Prim.stop :: startStops es
  | _ :: es => startStops es

/-- The Stops of one acknowledge wait: one when it times out, none otherwise. -/
def Poll.stops (p : Poll) : List Prim := if p.ok then [] else [Prim.stop]

/-- One step of the strict Start/Stop scanner.  The state is the number of calls of
`C04_IIC_Start` since the last call of `C04_IIC_Stop`; a Start is refused when `limit` Starts
are already open, a Stop is refused when no Start is open (a second Stop for the same
Start). -/
def strictStep (limit : Nat) : Option Nat → Event → Option Nat
  | none, _ => none
  | some n, Event.call Prim.start => if n < limit then some (n + 1) else none
  | some n, Event.call Prim.stop => if 0 < n then some 0 else none
  | some n, _ => some n

/-- Scan a trace strictly from the scanner state `s`. -/
def strictScan (limit : Nat) (s : Option Nat) (tr : List Event) : Option Nat :=
  tr.foldl (strictStep limit) s

/-- One step of the scanner that sets the Stops of `C04_IIC_Wait_Ack` apart.  The state is
the number of open Starts and whether the trace is inside a call of `C04_IIC_Wait_Ack`; a Stop
called inside `C04_IIC_Wait_Ack` is passed over, every other Stop is refused unless a Start is
open, and closes it. -/
def matchStep (limit : Nat) : Option (Nat × Bool) → Event → Option (Nat × Bool)
  | none, _ => none
  | some (n, _), Event.call Prim.waitAck => some (n, true)
  | some (n, _), Event.ret Prim.waitAck => some (n, false)
  | some (n, i), Event.call Prim.start => if n < limit then some (n + 1, i) else none
  | some (n, i), Event.call Prim.stop =>
    if i then some (n, i) else if 0 < n then some (0, i) else none
  | some s, _ => some s

/-- Scan a trace from the scanner state `s`, passing over the Stops inside
`C04_IIC_Wait_Ack`. -/
def matchScan (limit : Nat) (s : Option (Nat × Bool)) (tr : List Event) : Option (Nat × Bool) :=
  tr.foldl (matchStep limit) s

/-- Every address the operation touches is a cell of a device with cells `0 .. ee`. -/
def Op.inRange (ee : Nat) : Op → Bool
  | Op.readOne a => decide (a ≤ ee)
  | Op.writeOne a _ => decide (a ≤ ee)
  | Op.readLen a l => decide (a + l ≤ ee + 1)
  | Op.writeLen a _ l => decide (a + l ≤ ee + 1)
  | Op.read a _ n => decide (a + n ≤ ee + 1)
  | Op.write a _ n => decide (a + n ≤ ee + 1)
  | Op.check => decide (255 ≤ ee)

/-- A piece of trace that leaves the count of open Starts alone, outside
`C04_IIC_Wait_Ack`. -/
def Level (limit : Nat) (evs : List Event) : Prop :=
  ∀ n, matchScan limit (some (n, false)) evs = some (n, false)

/-- The trace of the world passes the scan that sets the Stops of `C04_IIC_Wait_Ack` apart,
with no Start left open. -/
def Matched (limit : Nat) (w : World σ) : Prop :=
  matchScan limit (some (0, false)) w.trace = some (0, false)

/-- The simulated device is unaddressed on the idle bus, and the trace so far passes the
strict scan with no Start left open. -/
def Orderly (limit : Nat) (w : World Eeprom) : Prop :=
  ∃ tr hi ptr mem, w = settled tr hi ptr mem ∧ strictScan limit (some 0) tr = some 0

/-! ## Every primitive replays its event list -/

theorem run_nil (sl : Slave σ) (w : World σ) : run sl [] w = w := rfl

theorem run_cons (sl : Slave σ) (e : Event) (evs : List Event) (w : World σ) :
    run sl (e :: evs) w = run sl evs (applyEvent sl w e) := rfl

theorem run_append (sl : Slave σ) (a b : List Event) (w : World σ) :
    run sl (a ++ b) w = run sl b (run sl a w) := by
  simp [run, List.foldl_append]
theorem stop_eq (sl : Slave σ) (w : World σ) : C04_IIC_Stop sl w = run sl stopEvents w := rfl

theorem read_high (sl : Slave σ) (w : World σ) (h : sl.level w.slave = true) :
    READ_SDA sl w = (true, run sl [Event.readSda true] w) := by
  simp [READ_SDA, h, run, applyEvent]

theorem read_low (sl : Slave σ) (w : World σ) (h : sl.level w.slave = false) :
    READ_SDA sl w = (false, run sl [Event.readSda false] w) := by
  simp [READ_SDA, h, run, applyEvent]

theorem waitAckLoop_shape (sl : Slave σ) (k : Nat) :
    ∀ (u : Nat) (w : World σ), u + k = 250 →
      ∃ n ok, waitAckLoop sl u w = ((if ok then 0 else 1), run sl (pollEvents n ok) w) ∧
        (∀ i, i < n → sl.level (afterHighs sl i w).slave = true) ∧
        (if ok then n ≤ k ∧ sl.level (afterHighs sl n w).slave = false else n = k + 1) := by
  induction k with
  | zero =>
    intro u w hu
    have hu250 : u = 250 := by omega
    subst hu250
    cases h : sl.level w.slave with
    | false =>
      refine ⟨0, true, ?_, ?_, ?_⟩
      · rw [waitAckLoop, read_low sl w h]; rfl
      · intro i hi; omega
      · simpa [afterHighs, run] using h
    | true =>
      refine ⟨1, false, ?_, ?_, ?_⟩
      · rw [waitAckLoop, read_high sl w h]; rfl
      · intro i hi
        have : i = 0 := by omega
        subst this
        simpa [afterHighs, run] using h
      · simp
  | succ k ih =>
    intro u w hu
    cases h : sl.level w.slave with
    | false =>
      refine ⟨0, true, ?_, ?_, ?_⟩
      · rw [waitAckLoop, read_low sl w h]; rfl
      · intro i hi; omega
      · simpa [afterHighs, run] using h
    | true =>
      obtain ⟨n, ok, h1, h2, h3⟩ := ih (u + 1) (run sl [Event.readSda true] w) (by omega)
      have hmod : (u + 1) % 256 = u + 1 := Nat.mod_eq_of_lt (by omega)
      have hle : ¬ (u + 1 > 250) := by omega
      refine ⟨n + 1, ok, ?_, ?_, ?_⟩
      · rw [waitAckLoop, read_high sl w h]
        simp only [hmod, hle, if_true, if_false, h1]
        simp [pollEvents, List.replicate_succ, run_cons, run_append, run_nil]
      · intro i hi
        cases i with
        | zero => simpa [afterHighs, run] using h
        | succ i =>
          have := h2 i (by omega)
          simpa [afterHighs, List.replicate_succ, run_cons, run_nil] using this
      · cases ok with
        | true =>
          simp only [if_true] at h3 ⊢
          refine ⟨by omega, ?_⟩
          simpa [afterHighs, List.replicate_succ, run_cons, run_nil] using h3.2
        | false =>
          simp only [Bool.false_eq_true, if_false] at h3 ⊢
          omega

theorem start_eq (sl : Slave σ) (w : World σ) : C04_IIC_Start sl w = run sl startEvents w := rfl

theorem sendLoop_eq (sl : Slave σ) (n txd : Nat) (w : World σ) :
    sendLoop sl n txd w = run sl (sendBits n txd) w := by
  induction n generalizing txd w with
  | zero => rfl
  | succ n ih => simp only [sendLoop, sendBits, run_append, ih]; rfl

theorem send_eq (sl : Slave σ) (txd : Nat) (w : World σ) :
    C04_IIC_Send_Byte sl txd w = run sl (sendEvents txd) w := by
  simp only [C04_IIC_Send_Byte, sendEvents, run_append, sendLoop_eq]; rfl

theorem waitAck_shape (sl : Slave σ) (w : World σ) :
    ∃ p : Poll, C04_IIC_Wait_Ack sl w = (p.code, run sl (waitEvents p) w) ∧ p.OccursAt sl w := by
  obtain ⟨n, ok, h1, h2, h3⟩ := waitAckLoop_shape sl 250 0 (run sl waitPrelude w) (by omega)
  refine ⟨⟨n, ok⟩, ?_, h2, h3⟩
  have hpre : (w |> mark (Event.call Prim.waitAck) |> C04_SDA_IN sl |> C04_IIC_SDA sl true
      |> delay_us sl 1 |> C04_IIC_SCL sl true |> delay_us sl 1) = run sl waitPrelude w := rfl
  simp only [C04_IIC_Wait_Ack, hpre, h1, Poll.code, waitEvents, run_append]
  rfl

theorem ack_eq (sl : Slave σ) (w : World σ) : C04_IIC_Ack sl w = run sl ackEvents w := rfl
theorem nack_eq (sl : Slave σ) (w : World σ) : C04_IIC_NAck sl w = run sl nackEvents w := rfl

theorem recvLoop_shape (sl : Slave σ) (n : Nat) :
    ∀ (receive : Nat) (w : World σ),
      ∃ bits : List Bool, bits.length = n ∧
        recvLoop sl n receive w = (assemble receive bits, run sl (recvBits bits) w) ∧
        ∀ b, b ∈ bits → ∃ s, sl.level s = b := by
  induction n with
  | zero => intro receive w; exact ⟨[], rfl, rfl, by simp⟩
  | succ n ih =>
    intro receive w
    let w1 := run sl [Event.scl false, Event.delayUs 2, Event.scl true] w
    let b := sl.level w1.slave
    let r2 := if b then ((receive <<< 1) % 256 + 1) % 256 else (receive <<< 1) % 256
    obtain ⟨bits, hl, he, hb⟩ := ih r2 (run sl [Event.readSda b, Event.delayUs 1] w1)
    refine ⟨b :: bits, by simp [hl], ?_, ?_⟩
    · rw [recvLoop]
      simp only [assemble, recvBits]
      rw [run_append]
      exact he
    · intro c hc
      rcases List.mem_cons.mp hc with h | h
      · exact ⟨w1.slave, h ▸ rfl⟩
      · exact hb c h

theorem readByte_shape (sl : Slave σ) (ack : Nat) (w : World σ) :
    ∃ bits : List Bool, bits.length = 8 ∧
      C04_IIC_Read_Byte sl ack w = (assemble 0 bits, run sl (recvEvents bits ack) w) ∧
      ∀ b, b ∈ bits → ∃ s, sl.level s = b := by
  obtain ⟨bits, hl, he, hb⟩ :=
    recvLoop_shape sl 8 0 (run sl [Event.call (Prim.recv (ack % 256)), Event.sdaIn] w)
  refine ⟨bits, hl, ?_, hb⟩
  have hpre : (w |> mark (Event.call (Prim.recv (ack % 256))) |> C04_SDA_IN sl)
      = run sl [Event.call (Prim.recv (ack % 256)), Event.sdaIn] w := rfl
  simp only [C04_IIC_Read_Byte, hpre, he, recvEvents, run_append, ack_eq, nack_eq]
  by_cases h : ack % 256 = 0 <;> simp [h] <;> rfl

theorem Poll.OccursAt.possible {sl : Slave σ} {w : World σ} {p : Poll}
    (h : p.OccursAt sl w) : p.Possible sl := by
  unfold Poll.Possible
  unfold Poll.OccursAt at h
  cases hok : p.ok with
  | true => simp only [hok, if_true] at h ⊢; exact ⟨h.2.1, _, h.2.2⟩
  | false => simp only [hok, Bool.false_eq_true, if_false] at h ⊢; exact h.2

theorem waitAck_snd (sl : Slave σ) (w : World σ) :
    ∃ p : Poll, p.Possible sl ∧ (C04_IIC_Wait_Ack sl w).2 = run sl (waitEvents p) w := by
  obtain ⟨p, h1, h2⟩ := waitAck_shape sl w
  exact ⟨p, h2.possible, by rw [h1]⟩

theorem mark_eq (sl : Slave σ) (e : Prim) (w : World σ) :
    mark (Event.call e) w = run sl [Event.call e] w := rfl

theorem write_shape (sl : Slave σ) (ee WriteAddr DataToWrite : Nat) (w : World σ) :
    ∃ q : Nat → Poll, (∀ i, (q i).Possible sl) ∧
      AT24CXX_WriteOneByte sl ee WriteAddr DataToWrite w
        = run sl (writeEvents ee (WriteAddr % 65536) (DataToWrite % 256) q) w := by
  unfold AT24CXX_WriteOneByte
  simp only [start_eq, send_eq, stop_eq, mark_eq sl]
  by_cases hee : ee > AT24C16
  · simp only [hee, if_true]
    obtain ⟨p0, hp0, e0⟩ := waitAck_snd sl (run sl (sendEvents 0xA0) (run sl startEvents
      (run sl [Event.call (Prim.writeOne (WriteAddr % 65536) (DataToWrite % 256))] w)))
    rw [e0]
    obtain ⟨p1, hp1, e1⟩ := waitAck_snd sl (run sl (sendEvents ((WriteAddr % 65536) >>> 8))
      (run sl (waitEvents p0) (run sl (sendEvents 0xA0) (run sl startEvents
      (run sl [Event.call (Prim.writeOne (WriteAddr % 65536) (DataToWrite % 256))] w)))))
    rw [e1]
    generalize hx : run sl (waitEvents p1) _ = x
    obtain ⟨p2, hp2, e2⟩ := waitAck_snd sl (run sl (sendEvents (WriteAddr % 65536 % 256)) x)
    rw [e2]
    generalize hy : run sl (waitEvents p2) _ = y
    obtain ⟨p3, hp3, e3⟩ := waitAck_snd sl (run sl (sendEvents (DataToWrite % 256)) y)
    rw [e3]
    subst hy hx
    refine ⟨fun i => if i = 0 then p0 else if i = 1 then p1 else if i = 2 then p2 else p3, ?_, ?_⟩
    · intro i; dsimp only; split_ifs <;> assumption
    · simp only [writeEvents, writeHead, hee, if_true, run_append]
      rfl
  · simp only [hee, if_false]
    obtain ⟨p1, hp1, e1⟩ := waitAck_snd sl
      (run sl (sendEvents (0xA0 + ((WriteAddr % 65536 / 256) <<< 1))) (run sl startEvents
      (run sl [Event.call (Prim.writeOne (WriteAddr % 65536) (DataToWrite % 256))] w)))
    rw [e1]
    generalize hx : run sl (waitEvents p1) _ = x
    obtain ⟨p2, hp2, e2⟩ := waitAck_snd sl (run sl (sendEvents (WriteAddr % 65536 % 256)) x)
    rw [e2]
    generalize hy : run sl (waitEvents p2) _ = y
    obtain ⟨p3, hp3, e3⟩ := waitAck_snd sl (run sl (sendEvents (DataToWrite % 256)) y)
    rw [e3]
    subst hy hx
    refine ⟨fun i => if i = 1 then p1 else if i = 2 then p2 else p3, ?_, ?_⟩
    · intro i; dsimp only; split_ifs <;> assumption
    · simp only [writeEvents, writeHead, hee, if_false, run_append]
      rfl

theorem readByte_pair (sl : Slave σ) (ack : Nat) (w : World σ) :
    ∃ bits : List Bool, bits.length = 8 ∧ (∀ b, b ∈ bits → ∃ s, sl.level s = b) ∧
      (C04_IIC_Read_Byte sl ack w).1 = assemble 0 bits ∧
      (C04_IIC_Read_Byte sl ack w).2 = run sl (recvEvents bits ack) w := by
  obtain ⟨bits, h1, h2, h3⟩ := readByte_shape sl ack w
  exact ⟨bits, h1, h3, by rw [h2], by rw [h2]⟩

theorem read_shape (sl : Slave σ) (ee ReadAddr : Nat) (w : World σ) :
    ∃ (q : Nat → Poll) (bits : List Bool), (∀ i, (q i).Possible sl) ∧ bits.length = 8 ∧
      (∀ b, b ∈ bits → ∃ s, sl.level s = b) ∧
      AT24CXX_ReadOneByte sl ee ReadAddr w
        = (assemble 0 bits, run sl (readEvents ee (ReadAddr % 65536) q bits) w) := by
  unfold AT24CXX_ReadOneByte
  simp only [start_eq, send_eq, stop_eq, mark_eq sl]
  generalize hw0 : run sl startEvents (run sl [Event.call (Prim.readOne (ReadAddr % 65536))] w)
    = w0
  by_cases hee : ee > AT24C16
  · simp only [hee, if_true]
    obtain ⟨p0, hp0, e0⟩ := waitAck_snd sl (run sl (sendEvents 0xA0) w0)
    rw [e0]
    generalize hx0 : run sl (waitEvents p0) _ = x0
    obtain ⟨p1, hp1, e1⟩ := waitAck_snd sl (run sl (sendEvents ((ReadAddr % 65536) >>> 8)) x0)
    rw [e1]
    generalize hx1 : run sl (waitEvents p1) _ = x1
    obtain ⟨p2, hp2, e2⟩ := waitAck_snd sl x1
    rw [e2]
    generalize hx2 : run sl (waitEvents p2) _ = x2
    obtain ⟨p3, hp3, e3⟩ := waitAck_snd sl (run sl (sendEvents (ReadAddr % 65536 % 256)) x2)
    rw [e3]
    generalize hx3 : run sl (waitEvents p3) _ = x3
    obtain ⟨p4, hp4, e4⟩ := waitAck_snd sl (run sl (sendEvents 0xA1) (run sl startEvents x3))
    rw [e4]
    generalize hx4 : run sl (waitEvents p4) _ = x4
    obtain ⟨bits, hl, hb, r1, r2⟩ := readByte_pair sl 0 x4
    rw [r1, r2]
    subst hx4 hx3 hx2 hx1 hx0 hw0
    refine ⟨fun i => if i = 0 then p0 else if i = 1 then p1 else if i = 2 then p2
      else if i = 3 then p3 else p4, bits, ?_, hl, hb, ?_⟩
    · intro i; dsimp only; split_ifs <;> assumption
    · simp only [readEvents, readHead, hee, if_true, run_append]
      rfl
  · simp only [hee, if_false]
    obtain ⟨p2, hp2, e2⟩ := waitAck_snd sl
      (run sl (sendEvents (0xA0 + ((ReadAddr % 65536 / 256) <<< 1))) w0)
    rw [e2]
    generalize hx2 : run sl (waitEvents p2) _ = x2
    obtain ⟨p3, hp3, e3⟩ := waitAck_snd sl (run sl (sendEvents (ReadAddr % 65536 % 256)) x2)
    rw [e3]
    generalize hx3 : run sl (waitEvents p3) _ = x3
    obtain ⟨p4, hp4, e4⟩ := waitAck_snd sl (run sl (sendEvents 0xA1) (run sl startEvents x3))
    rw [e4]
    generalize hx4 : run sl (waitEvents p4) _ = x4
    obtain ⟨bits, hl, hb, r1, r2⟩ := readByte_pair sl 0 x4
    rw [r1, r2]
    subst hx4 hx3 hx2 hw0
    refine ⟨fun i => if i = 2 then p2 else if i = 3 then p3 else p4, bits, ?_, hl, hb, ?_⟩
    · intro i; dsimp only; split_ifs <;> assumption
    · simp only [readEvents, readHead, hee, if_false, run_append]
      rfl

/-! ## The simulated EEPROM, primitive by primitive -/

theorem waitAck_low (sl : Slave σ) (w : World σ)
    (h : sl.level (run sl waitPrelude w).slave = false) :
    C04_IIC_Wait_Ack sl w = (0, run sl (waitEvents acked) w) := by
  have hpre : (w |> mark (Event.call Prim.waitAck) |> C04_SDA_IN sl |> C04_IIC_SDA sl true
      |> delay_us sl 1 |> C04_IIC_SCL sl true |> delay_us sl 1) = run sl waitPrelude w := rfl
  simp only [C04_IIC_Wait_Ack, hpre]
  rw [waitAckLoop, read_low sl _ h]
  simp only [waitEvents, run_append, acked, pollEvents]
  rfl

theorem start_settled (ee : Nat) (tr : List Event) (hi ptr : Nat) (mem : Nat → Nat) :
    C04_IIC_Start (at24 ee) (settled tr hi ptr mem) =
      ⟨false, false, Dir.output, tr ++ startEvents,
       ⟨false, Dir.output, false, Mode.dev, 0, false, 0, true, hi, ptr, mem⟩⟩ := by
  simp [settled, C04_IIC_Start, mark, emit, C04_SDA_OUT, C04_IIC_SDA, C04_IIC_SCL, delay_us, at24,
    Eeprom.react, Eeprom.onData, Eeprom.line, Eeprom.masterLine, Eeprom.onRise, Eeprom.onFall,
    startEvents]

theorem start_repeated (ee : Nat) (tr : List Event) (hi ptr : Nat) (mem : Nat → Nat) :
    C04_IIC_Start (at24 ee)
        ⟨false, true, Dir.input, tr,
         ⟨false, Dir.input, true, Mode.data, 0, false, 0, true, hi, ptr, mem⟩⟩ =
      ⟨false, false, Dir.output, tr ++ startEvents,
       ⟨false, Dir.output, false, Mode.dev, 0, false, 0, true, hi, ptr, mem⟩⟩ := by
  simp [C04_IIC_Start, mark, emit, C04_SDA_OUT, C04_IIC_SDA, C04_IIC_SCL, delay_us, at24,
    Eeprom.react, Eeprom.onData, Eeprom.line, Eeprom.masterLine, Eeprom.onRise, Eeprom.onFall,
    startEvents]

set_option maxRecDepth 100000 in
theorem send_rx (ee b : Nat) (hb : b < 256) (s : Bool) (dir mdir : Dir) (mreg : Bool) (m : Mode)
    (hm : m = Mode.dev ∨ m = Mode.addrHi ∨ m = Mode.addrLo ∨ m = Mode.data)
    (tr : List Event) (hi ptr : Nat) (mem : Nat → Nat) :
    C04_IIC_Send_Byte (at24 ee) b
        ⟨false, s, dir, tr, ⟨false, mdir, mreg, m, 0, false, 0, true, hi, ptr, mem⟩⟩ =
      ⟨false, b % 2 == 1, Dir.output, tr ++ sendEvents b,
       Eeprom.handleByte ee
         ⟨false, Dir.output, b % 2 == 1, m, 8, false, b, true, hi, ptr, mem⟩⟩ := by
  rcases hm with rfl | rfl | rfl | rfl <;>
  · simp [C04_IIC_Send_Byte, sendLoop, mark, emit, C04_SDA_OUT, C04_IIC_SDA, C04_IIC_SCL,
      delay_us, at24, Eeprom.react, Eeprom.onData, Eeprom.line, Eeprom.masterLine,
      Eeprom.onRise, Eeprom.onFall, sendEvents, sendBits]
    refine ⟨?_, ?_⟩
    · revert b; decide
    · congr 2
      · revert b; decide
      · revert b; decide

theorem waitAck_acking (ee : Nat) (s : Bool) (dir mdir : Dir) (mreg : Bool) (m : Mode)
    (hm : m ≠ Mode.tx) (cnt shift : Nat)
    (tr : List Event) (hi ptr : Nat) (mem : Nat → Nat) :
    C04_IIC_Wait_Ack (at24 ee)
        ⟨false, s, dir, tr, ⟨false, mdir, mreg, m, cnt, true, shift, false, hi, ptr, mem⟩⟩ =
      (0, ⟨false, true, Dir.input, tr ++ waitEvents acked,
           ⟨false, Dir.input, true, m, 0, false, 0, true, hi, ptr, mem⟩⟩) := by
  rw [waitAck_low]
  · simp [run, applyEvent, waitEvents, waitPrelude, pollEvents, acked, mark, emit, C04_SDA_IN,
      C04_IIC_SDA, C04_IIC_SCL, delay_us, at24, Eeprom.react, Eeprom.onData, Eeprom.line,
      Eeprom.masterLine, Eeprom.onRise, Eeprom.onFall, hm]
  · simp [run, applyEvent, waitPrelude, mark, emit, C04_SDA_IN,
      C04_IIC_SDA, C04_IIC_SCL, delay_us, at24, Eeprom.react, Eeprom.onData, Eeprom.line,
      Eeprom.masterLine, Eeprom.onRise, Eeprom.onFall]

theorem waitAck_acking_tx (ee : Nat) (s : Bool) (dir mdir : Dir) (mreg : Bool)
    (cnt shift : Nat) (tr : List Event) (hi ptr : Nat) (mem : Nat → Nat) :
    C04_IIC_Wait_Ack (at24 ee)
        ⟨false, s, dir, tr,
         ⟨false, mdir, mreg, Mode.tx, cnt, true, shift, false, hi, ptr, mem⟩⟩ =
      (0, ⟨false, true, Dir.input, tr ++ waitEvents acked,
           ⟨false, Dir.input, true, Mode.tx, 1, false, 0, mem ptr / 128 % 2 == 1,
            hi, ptr, mem⟩⟩) := by
  rw [waitAck_low]
  · simp [run, applyEvent, waitEvents, waitPrelude, pollEvents, acked, mark, emit, C04_SDA_IN,
      C04_IIC_SDA, C04_IIC_SCL, delay_us, at24, Eeprom.react, Eeprom.onData, Eeprom.line,
      Eeprom.masterLine, Eeprom.onRise, Eeprom.onFall, Eeprom.driveBit]
  · simp [run, applyEvent, waitPrelude, mark, emit, C04_SDA_IN,
      C04_IIC_SDA, C04_IIC_SCL, delay_us, at24, Eeprom.react, Eeprom.onData, Eeprom.line,
      Eeprom.masterLine, Eeprom.onRise, Eeprom.onFall]

theorem stop_after_data (ee : Nat) (tr : List Event) (hi ptr : Nat) (mem : Nat → Nat) :
    C04_IIC_Stop (at24 ee)
        ⟨false, true, Dir.input, tr,
         ⟨false, Dir.input, true, Mode.data, 0, false, 0, true, hi, ptr, mem⟩⟩ =
      settled (tr ++ stopEvents) hi ptr mem := by
  simp [settled, C04_IIC_Stop, mark, emit, C04_SDA_OUT, C04_IIC_SDA, C04_IIC_SCL, delay_us,
    at24, Eeprom.react, Eeprom.onData, Eeprom.line, Eeprom.masterLine, Eeprom.onRise,
    Eeprom.onFall, stopEvents]

set_option maxRecDepth 100000 in
theorem assemble_bitsOf (x : Nat) : assemble 0 (bitsOf x) = x % 256 := by
  have h : ∀ y, y < 256 → assemble 0 (bitsOf y) = y := by decide
  have h2 : bitsOf x = bitsOf (x % 256) := by
    simp only [bitsOf]
    have e1 : x / 128 % 2 = x % 256 / 128 % 2 := by omega
    have e2 : x / 64 % 2 = x % 256 / 64 % 2 := by omega
    have e3 : x / 32 % 2 = x % 256 / 32 % 2 := by omega
    have e4 : x / 16 % 2 = x % 256 / 16 % 2 := by omega
    have e5 : x / 8 % 2 = x % 256 / 8 % 2 := by omega
    have e6 : x / 4 % 2 = x % 256 / 4 % 2 := by omega
    have e7 : x / 2 % 2 = x % 256 / 2 % 2 := by omega
    have e8 : x % 2 = x % 256 % 2 := by omega
    rw [e1, e2, e3, e4, e5, e6, e7, e8]
  rw [h2, h _ (Nat.mod_lt _ (by decide))]

theorem recvLoop_sampled (sl : Slave σ) (n : Nat) :
    ∀ (receive : Nat) (w : World σ),
      recvLoop sl n receive w
        = (assemble receive (sampled sl n w), run sl (recvBits (sampled sl n w)) w) := by
  induction n with
  | zero => intro receive w; rfl
  | succ n ih =>
    intro receive w
    rw [recvLoop]
    simp only [sampled, assemble, recvBits]
    rw [run_append]
    exact ih _ _

theorem readByte_sampled (sl : Slave σ) (ack : Nat) (w : World σ) :
    C04_IIC_Read_Byte sl ack w
      = (assemble 0 (sampled sl 8 (run sl [Event.call (Prim.recv (ack % 256)), Event.sdaIn] w)),
         run sl (recvEvents
           (sampled sl 8 (run sl [Event.call (Prim.recv (ack % 256)), Event.sdaIn] w)) ack) w) := by
  have hpre : (w |> mark (Event.call (Prim.recv (ack % 256))) |> C04_SDA_IN sl)
      = run sl [Event.call (Prim.recv (ack % 256)), Event.sdaIn] w := rfl
  simp only [C04_IIC_Read_Byte, hpre, recvLoop_sampled, recvEvents, run_append, ack_eq, nack_eq]
  by_cases h : ack % 256 = 0 <;> simp [h] <;> rfl

theorem sampled_tx (ee : Nat) (tr : List Event) (hi ptr : Nat) (mem : Nat → Nat) :
    sampled (at24 ee) 8 (run (at24 ee) [Event.call (Prim.recv (0 % 256)), Event.sdaIn]
        ⟨false, true, Dir.input, tr,
         ⟨false, Dir.input, true, Mode.tx, 1, false, 0, mem ptr / 128 % 2 == 1,
          hi, ptr, mem⟩⟩) = bitsOf (mem ptr) := by
  simp [sampled, run, applyEvent, mark, emit, C04_SDA_IN,
    C04_SDA_OUT, C04_IIC_SDA, C04_IIC_SCL, delay_us, at24, Eeprom.react, Eeprom.onData,
    Eeprom.line, Eeprom.masterLine, Eeprom.onRise, Eeprom.onFall, Eeprom.driveBit, bitsOf]

theorem readByte_tx (ee : Nat) (tr : List Event) (hi ptr : Nat) (mem : Nat → Nat) :
    C04_IIC_Read_Byte (at24 ee) 0
        ⟨false, true, Dir.input, tr,
         ⟨false, Dir.input, true, Mode.tx, 1, false, 0, mem ptr / 128 % 2 == 1,
          hi, ptr, mem⟩⟩ =
      (mem ptr % 256,
       ⟨false, true, Dir.output, tr ++ recvEvents (bitsOf (mem ptr)) 0,
        ⟨false, Dir.output, true, Mode.idle, 9, false, 0, true, hi, (ptr + 1) % (ee + 1),
         mem⟩⟩) := by
  rw [readByte_sampled, sampled_tx, assemble_bitsOf]
  simp [run, applyEvent, mark, emit, C04_SDA_IN,
    C04_SDA_OUT, C04_IIC_SDA, C04_IIC_SCL, delay_us, at24, Eeprom.react, Eeprom.onData,
    Eeprom.line, Eeprom.masterLine, Eeprom.onRise, Eeprom.onFall, Eeprom.driveBit,
    recvEvents, recvBits, nackEvents, bitsOf]

theorem stop_after_read (ee : Nat) (tr : List Event) (hi ptr : Nat) (mem : Nat → Nat) :
    C04_IIC_Stop (at24 ee)
        ⟨false, true, Dir.output, tr,
         ⟨false, Dir.output, true, Mode.idle, 9, false, 0, true, hi, ptr, mem⟩⟩ =
      settled (tr ++ stopEvents) hi ptr mem := by
  simp [settled, C04_IIC_Stop, mark, emit, C04_SDA_OUT, C04_IIC_SDA, C04_IIC_SCL, delay_us,
    at24, Eeprom.react, Eeprom.onData, Eeprom.line, Eeprom.masterLine, Eeprom.onRise,
    Eeprom.onFall, stopEvents]

theorem devByte_facts (ee a : Nat) (hee : ee ≤ AT24C16) (ha : a ≤ ee) :
    (0xA0 + ((a % 65536 / 256) <<< 1)) % 256 = 160 + a / 256 * 2 ∧ a / 256 ≤ 7 ∧
      a % 65536 = a ∧ a / 256 * 256 ≤ ee := by
  have h16 : AT24C16 = 2047 := rfl
  rw [Nat.shiftLeft_eq]
  omega

theorem write_at24 (ee a v : Nat) (hee : ee ≤ AT24C16) (ha : a ≤ ee)
    (tr : List Event) (hi ptr : Nat) (mem : Nat → Nat) :
    AT24CXX_WriteOneByte (at24 ee) ee a v (settled tr hi ptr mem) =
      settled (tr ++ writeEvents ee a (v % 256) (fun _ => acked)) (a / 256)
        ((a + 1) % (ee + 1)) (Function.update mem a (v % 256)) := by
  obtain ⟨h1, h2, h3, h4⟩ := devByte_facts ee a hee ha
  have hee2 : ¬ ee > AT24C16 := by omega
  have hv : v % 256 < 256 := Nat.mod_lt _ (by decide)
  have hlo : a % 256 < 256 := Nat.mod_lt _ (by decide)
  have hdev : 160 + a / 256 * 2 < 256 := by omega
  have hsend : ∀ w : World Eeprom, C04_IIC_Send_Byte (at24 ee) (0xA0 + ((a / 256) <<< 1)) w
      = C04_IIC_Send_Byte (at24 ee) (160 + a / 256 * 2) w := by
    intro w
    rw [h3] at h1
    simp only [C04_IIC_Send_Byte, h1, Nat.mod_eq_of_lt hdev]
  have hA : a / 256 * 256 + a % 256 = a := by omega
  unfold AT24CXX_WriteOneByte
  simp only [h3, hee2, if_false, hsend]
  have hmark : mark (Event.call (Prim.writeOne a (v % 256))) (settled tr hi ptr mem)
      = settled (tr ++ [Event.call (Prim.writeOne a (v % 256))]) hi ptr mem := rfl
  rw [hmark, start_settled, send_rx ee _ hdev _ _ _ _ _ (Or.inl rfl)]
  have hb1 : (160 + a / 256 * 2) / 16 = 10 := by omega
  have hb2 : (160 + a / 256 * 2) / 2 % 8 = a / 256 := by omega
  have hb3 : (160 + a / 256 * 2) % 2 = 0 := by omega
  simp only [Eeprom.handleByte, hb1, hb2, hb3, hee2, if_false, h4, and_self, if_true,
    Eeprom.acknowledge]
  rw [waitAck_acking ee _ _ _ _ _ (by decide)]
  simp only []
  rw [send_rx ee _ hlo _ _ _ _ _ (Or.inr (Or.inr (Or.inl rfl)))]
  simp only [Eeprom.handleByte, Eeprom.acknowledge, hA, Nat.mod_eq_of_lt (Nat.lt_succ_of_le ha)]
  rw [waitAck_acking ee _ _ _ _ _ (by decide)]
  simp only []
  rw [send_rx ee _ hv _ _ _ _ _ (Or.inr (Or.inr (Or.inr rfl)))]
  simp only [Eeprom.handleByte, Eeprom.acknowledge]
  rw [waitAck_acking ee _ _ _ _ _ (by decide)]
  simp only []
  rw [stop_after_data]
  simp [settled, delay_ms, mark, emit, at24, Eeprom.react, writeEvents, writeHead, hee2, h1, h3,
    Nat.shiftLeft_eq, sendEvents, Nat.mod_eq_of_lt hdev]

theorem read_at24 (ee a : Nat) (hee : ee ≤ AT24C16) (ha : a ≤ ee)
    (tr : List Event) (hi ptr : Nat) (mem : Nat → Nat) :
    AT24CXX_ReadOneByte (at24 ee) ee a (settled tr hi ptr mem) =
      (mem a % 256,
       settled (tr ++ readEvents ee a (fun _ => acked) (bitsOf (mem a))) (a / 256)
        ((a + 1) % (ee + 1)) mem) := by
  obtain ⟨h1, h2, h3, h4⟩ := devByte_facts ee a hee ha
  have hee2 : ¬ ee > AT24C16 := by omega
  have hlo : a % 256 < 256 := Nat.mod_lt _ (by decide)
  have hdev : 160 + a / 256 * 2 < 256 := by omega
  have hsend : ∀ w : World Eeprom, C04_IIC_Send_Byte (at24 ee) (0xA0 + ((a / 256) <<< 1)) w
      = C04_IIC_Send_Byte (at24 ee) (160 + a / 256 * 2) w := by
    intro w
    rw [h3] at h1
    simp only [C04_IIC_Send_Byte, h1, Nat.mod_eq_of_lt hdev]
  have hA : a / 256 * 256 + a % 256 = a := by omega
  unfold AT24CXX_ReadOneByte
  simp only [h3, hee2, if_false, hsend]
  have hmark : mark (Event.call (Prim.readOne a)) (settled tr hi ptr mem)
      = settled (tr ++ [Event.call (Prim.readOne a)]) hi ptr mem := rfl
  rw [hmark, start_settled, send_rx ee _ hdev _ _ _ _ _ (Or.inl rfl)]
  have hb1 : (160 + a / 256 * 2) / 16 = 10 := by omega
  have hb2 : (160 + a / 256 * 2) / 2 % 8 = a / 256 := by omega
  have hb3 : (160 + a / 256 * 2) % 2 = 0 := by omega
  simp only [Eeprom.handleByte, hb1, hb2, hb3, hee2, if_false, h4, and_self, if_true,
    Eeprom.acknowledge]
  rw [waitAck_acking ee _ _ _ _ _ (by decide)]
  simp only []
  rw [send_rx ee _ hlo _ _ _ _ _ (Or.inr (Or.inr (Or.inl rfl)))]
  simp only [Eeprom.handleByte, Eeprom.acknowledge, hA, Nat.mod_eq_of_lt (Nat.lt_succ_of_le ha)]
  rw [waitAck_acking ee _ _ _ _ _ (by decide)]
  simp only []
  rw [start_repeated, send_rx ee 0xA1 (by decide) _ _ _ _ _ (Or.inl rfl)]
  have hrd : ∀ (hi0 ptr0 : Nat) (r : Bool), Eeprom.handleByte ee
      ⟨false, Dir.output, r, Mode.dev, 8, false, 0xA1, true, hi0, ptr0, mem⟩
      = ⟨false, Dir.output, r, Mode.tx, 8, true, 0xA1, false, hi0, ptr0, mem⟩ := by
    intro hi0 ptr0 r
    simp [Eeprom.handleByte, Eeprom.acknowledge, hee2]
  rw [hrd, waitAck_acking_tx]
  simp only []
  rw [readByte_tx]
  simp only []
  rw [stop_after_read]
  simp [settled, mark, readEvents, readHead, hee2, h1, h3,
    Nat.shiftLeft_eq, sendEvents, Nat.mod_eq_of_lt hdev]

/-! ## Acknowledge wait: timeout containment and retry bound (C2, C3) -/

theorem applyEvent_trace (sl : Slave σ) (w : World σ) (e : Event) :
    (applyEvent sl w e).trace = w.trace ++ [e] := by
  cases e <;> rfl

theorem run_trace (sl : Slave σ) (evs : List Event) (w : World σ) :
    (run sl evs w).trace = w.trace ++ evs := by
  induction evs generalizing w with
  | nil => simp [run]
  | cons e evs ih => rw [run_cons, ih, applyEvent_trace]; simp

theorem samples_append (xs ys : List Event) : samples (xs ++ ys) = samples xs ++ samples ys := by
  induction xs with
  | nil => rfl
  | cons e es ih => cases e <;> simp [samples, ih]

theorem samples_replicate (n : Nat) (b : Bool) :
    samples (List.replicate n (Event.readSda b)) = List.replicate n b := by
  induction n with
  | zero => rfl
  | succ n ih => simp [List.replicate_succ, samples, ih]

theorem samples_waitEvents (p : Poll) :
    samples (waitEvents p) = List.replicate p.highs true ++ (if p.ok then [false] else []) := by
  cases hok : p.ok <;>
    simp [waitEvents, waitPrelude, pollEvents, stopEvents, samples_append, samples_replicate,
      samples, hok]

theorem run_stop_latches (sl : Slave σ) (w : World σ) :
    (run sl stopEvents w).scl = true ∧ (run sl stopEvents w).sda = true ∧
      (run sl stopEvents w).dir = Dir.output :=
  ⟨rfl, rfl, rfl⟩

theorem Poll.possible_of_high {sl : Slave σ} (hs : ∀ s, sl.level s = true) {p : Poll}
    (h : p.Possible sl) : p = timedOut := by
  unfold Poll.Possible at h
  cases p with
  | mk n ok =>
    cases ok with
    | true =>
      simp only [if_true] at h
      obtain ⟨_, s, hs2⟩ := h
      rw [hs s] at hs2
      exact absurd hs2 (by decide)
    | false =>
      simp only [Bool.false_eq_true, if_false] at h
      subst h
      rfl

/-- C2: for a slave that never pulls Data low, `C04_IIC_Wait_Ack` returns 1, the last thing it
did before returning is a complete Stop (the events of `C04_IIC_Stop`), and on return the
Clock and Data latches are both high with Data driven as an output, so the bus is idle. -/
theorem waitAck_timeout_containment (sl : Slave σ) (hs : ∀ s, sl.level s = true)
    (w : World σ) :
    (C04_IIC_Wait_Ack sl w).1 = 1 ∧
      (∃ pre, (C04_IIC_Wait_Ack sl w).2.trace
          = pre ++ stopEvents ++ [Event.ret Prim.waitAck]) ∧
      (C04_IIC_Wait_Ack sl w).2.scl = true ∧ (C04_IIC_Wait_Ack sl w).2.sda = true ∧
      (C04_IIC_Wait_Ack sl w).2.dir = Dir.output ∧
      sl.level (C04_IIC_Wait_Ack sl w).2.slave = true := by
  obtain ⟨p, hp, hocc⟩ := waitAck_shape sl w
  have hp2 : p = timedOut := Poll.possible_of_high hs hocc.possible
  subst hp2
  rw [hp]
  refine ⟨rfl, ⟨w.trace ++ waitPrelude ++ List.replicate 251 (Event.readSda true), ?_⟩,
    ?_, ?_, ?_, hs _⟩
  · rw [run_trace]
    simp only [waitEvents, pollEvents, timedOut, Bool.false_eq_true, if_false,
      List.append_assoc]
  all_goals
    simp only [waitEvents, pollEvents, timedOut, Bool.false_eq_true, if_false, run_append]
    rfl

/-- Witness for C2 on the slave that never drives Data. -/
theorem waitAck_timeout_containment_witness :
    (∀ s, absent.level s = true) ∧ (C04_IIC_Wait_Ack absent (idleWorld ())).1 = 1 ∧
      (C04_IIC_Wait_Ack absent (idleWorld ())).2.scl = true ∧
      (C04_IIC_Wait_Ack absent (idleWorld ())).2.sda = true :=
  ⟨fun _ => rfl,
   (waitAck_timeout_containment absent (fun _ => rfl) (idleWorld ())).1,
   (waitAck_timeout_containment absent (fun _ => rfl) (idleWorld ())).2.2.1,
   (waitAck_timeout_containment absent (fun _ => rfl) (idleWorld ())).2.2.2.1⟩

theorem afterHighs_lateAck (i : Nat) (w : World Nat) :
    (afterHighs lateAck i w).slave = w.slave + i := by
  induction i generalizing w with
  | zero => rfl
  | succ i ih =>
    have h := ih (applyEvent lateAck w (Event.readSda true))
    simp only [afterHighs, List.replicate_succ, run_cons] at h ⊢
    rw [h]
    show w.slave + 1 + i = w.slave + (i + 1)
    omega

theorem waitAck_samples (sl : Slave σ) (w : World σ) (p : Poll)
    (hp : C04_IIC_Wait_Ack sl w = (p.code, run sl (waitEvents p) w)) :
    samples (C04_IIC_Wait_Ack sl w).2.trace
      = samples w.trace ++ List.replicate p.highs true ++ (if p.ok then [false] else []) := by
  rw [hp]
  simp only [run_trace, samples_append, samples_waitEvents, List.append_assoc]

/-- C3 (as stated, refuted): on the slave that never drives Data the wait fails only after
251 high samples, not 250; and on a slave that is high for exactly 250 samples and low at the
251st the wait succeeds, although Data did not read low within 250 samples. -/
theorem waitAck_retry_250_counterexample :
    ((C04_IIC_Wait_Ack absent (idleWorld ())).1 = 1 ∧
      samples (C04_IIC_Wait_Ack absent (idleWorld ())).2.trace = List.replicate 251 true ∧
      samples (C04_IIC_Wait_Ack absent (idleWorld ())).2.trace ≠ List.replicate 250 true) ∧
    ((C04_IIC_Wait_Ack lateAck (idleWorld 0)).1 = 0 ∧
      samples (C04_IIC_Wait_Ack lateAck (idleWorld 0)).2.trace
        = List.replicate 250 true ++ [false]) := by
  constructor
  · obtain ⟨p, hp, hocc⟩ := waitAck_shape absent (idleWorld ())
    have hp2 : p = timedOut := Poll.possible_of_high (fun _ => rfl) hocc.possible
    subst hp2
    have hs := waitAck_samples absent (idleWorld ()) timedOut hp
    have h251 : samples (C04_IIC_Wait_Ack absent (idleWorld ())).2.trace
        = List.replicate 251 true := by
      rw [hs]
      simp only [idleWorld, samples, timedOut, Bool.false_eq_true, if_false, List.nil_append,
        List.append_nil]
    refine ⟨by rw [hp]; rfl, h251, ?_⟩
    rw [h251]
    intro h
    have := congrArg List.length h
    simp only [List.length_replicate] at this
    omega
  · obtain ⟨p, hp, hocc⟩ := waitAck_shape lateAck (idleWorld 0)
    have hs := waitAck_samples lateAck (idleWorld 0) p hp
    obtain ⟨h1, h2⟩ := hocc
    have hlev : ∀ i, lateAck.level (afterHighs lateAck i (run lateAck waitPrelude (idleWorld 0))).slave
        = decide (i < 250) := by
      intro i
      rw [afterHighs_lateAck]
      show decide (0 + i < 250) = decide (i < 250)
      rw [Nat.zero_add]
    cases p with
    | mk n ok =>
      cases ok with
      | false =>
        simp only [Bool.false_eq_true, if_false] at h2
        subst h2
        have := h1 250 (by decide)
        rw [hlev] at this
        exact absurd this (by decide)
      | true =>
        simp only [if_true] at h2
        obtain ⟨hle, hlow⟩ := h2
        rw [hlev] at hlow
        have hn : n = 250 := by
          have : ¬ n < 250 := by simpa using hlow
          omega
        subst hn
        refine ⟨by rw [hp]; rfl, ?_⟩
        rw [hs]
        rfl

/-- C3 (amended): for every slave `C04_IIC_Wait_Ack` returns, with 0 or 1.  It returns 1
after exactly 251 high samples of Data (the test is `ucErrTime > 250`), and it returns 0 after
`n ≤ 250` high samples followed by one low sample; it returns 0 exactly when the slave lets
Data read low at one of the first 251 samples. -/
theorem waitAck_retry_bound (sl : Slave σ) (w : World σ) :
    ∃ n : Nat,
      samples (C04_IIC_Wait_Ack sl w).2.trace
        = samples w.trace ++ List.replicate n true
            ++ (if (C04_IIC_Wait_Ack sl w).1 = 0 then [false] else []) ∧
      ((C04_IIC_Wait_Ack sl w).1 = 0 ∧ n ≤ 250 ∨ (C04_IIC_Wait_Ack sl w).1 = 1 ∧ n = 251) ∧
      ((C04_IIC_Wait_Ack sl w).1 = 0 ↔
        ∃ i, i ≤ 250 ∧ sl.level (afterHighs sl i (run sl waitPrelude w)).slave = false) := by
  obtain ⟨p, hp, hocc⟩ := waitAck_shape sl w
  have hs := waitAck_samples sl w p hp
  obtain ⟨h1, h2⟩ := hocc
  refine ⟨p.highs, ?_, ?_, ?_⟩
  · rw [hs, hp]
    cases hok : p.ok <;> simp [Poll.code, hok]
  · rw [hp]
    cases hok : p.ok
    · simp only [hok, Bool.false_eq_true, if_false] at h2
      right; exact ⟨by simp [Poll.code, hok], h2⟩
    · simp only [hok, if_true] at h2
      left; exact ⟨by simp [Poll.code, hok], h2.1⟩
  · rw [hp]
    cases hok : p.ok
    · simp only [hok, Bool.false_eq_true, if_false] at h2
      constructor
      · intro h; simp [Poll.code, hok] at h
      · rintro ⟨i, hi, hlow⟩
        have := h1 i (by omega)
        rw [this] at hlow
        exact absurd hlow (by decide)
    · simp only [hok, if_true] at h2
      constructor
      · intro _; exact ⟨p.highs, h2.1, h2.2⟩
      · intro _; simp [Poll.code, hok]

/-! ## Bytes sent and the end of a write (C8, C10) -/

theorem sentBytes_append (xs ys : List Event) :
    sentBytes (xs ++ ys) = sentBytes xs ++ sentBytes ys := by
  induction xs with
  | nil => rfl
  | cons e es ih =>
    cases e with
    | call p => cases p <;> simp [sentBytes, ih]
    | _ => simp [sentBytes, ih]

theorem sentBytes_replicate (n : Nat) (b : Bool) :
    sentBytes (List.replicate n (Event.readSda b)) = [] := by
  induction n with
  | zero => rfl
  | succ n ih => simp [List.replicate_succ, sentBytes, ih]

theorem sentBytes_sendBits (n txd : Nat) : sentBytes (sendBits n txd) = [] := by
  induction n generalizing txd with
  | zero => rfl
  | succ n ih => simp [sendBits, sentBytes, ih]

theorem sentBytes_sendEvents (txd : Nat) : sentBytes (sendEvents txd) = [txd % 256] := by
  simp [sendEvents, sentBytes_append, sentBytes_sendBits, sentBytes]

theorem sentBytes_waitEvents (p : Poll) : sentBytes (waitEvents p) = [] := by
  cases hok : p.ok <;>
    simp [waitEvents, waitPrelude, pollEvents, stopEvents, sentBytes_append,
      sentBytes_replicate, sentBytes, hok]

theorem sentBytes_recvBits (bits : List Bool) : sentBytes (recvBits bits) = [] := by
  induction bits with
  | nil => rfl
  | cons b bs ih => simp [recvBits, sentBytes, ih]

theorem sentBytes_recvEvents (bits : List Bool) (ack : Nat) :
    sentBytes (recvEvents bits ack) = [] := by
  by_cases h : ack % 256 = 0 <;>
    simp [recvEvents, sentBytes_append, sentBytes_recvBits, sentBytes, nackEvents, ackEvents, h]

theorem sentBytes_startEvents : sentBytes startEvents = [] := rfl

theorem sentBytes_stopEvents : sentBytes stopEvents = [] := rfl

theorem sentBytes_readEvents (ee a : Nat) (q : Nat → Poll) (bits : List Bool) :
    sentBytes (readEvents ee a q bits)
      = (if ee > AT24C16 then [0xA0, (a >>> 8) % 256] else [(0xA0 + ((a / 256) <<< 1)) % 256])
          ++ [a % 256, 0xA1] := by
  have h1 : sentBytes [Event.call (Prim.readOne a)] = [] := rfl
  have h2 : sentBytes [Event.ret (Prim.readOne a)] = [] := rfl
  by_cases h : ee > AT24C16 <;>
    simp only [readEvents, readHead, h, if_true, if_false, sentBytes_append,
      sentBytes_sendEvents, sentBytes_waitEvents, sentBytes_recvEvents, sentBytes_startEvents,
      sentBytes_stopEvents, h1, h2] <;> simp

theorem sentBytes_writeEvents (ee a d : Nat) (q : Nat → Poll) :
    sentBytes (writeEvents ee a d q)
      = (if ee > AT24C16 then [0xA0, (a >>> 8) % 256] else [(0xA0 + ((a / 256) <<< 1)) % 256])
          ++ [a % 256, d % 256] := by
  have h1 : sentBytes [Event.call (Prim.writeOne a d)] = [] := rfl
  have h2 : sentBytes [Event.delayMs 10, Event.ret (Prim.writeOne a d)] = [] := rfl
  by_cases h : ee > AT24C16 <;>
    simp only [writeEvents, writeHead, h, if_true, if_false, sentBytes_append,
      sentBytes_sendEvents, sentBytes_waitEvents, sentBytes_startEvents,
      sentBytes_stopEvents, h1, h2] <;> simp

/-- C8: for every slave, world, in-range address and value: with `ee ≤ AT24C16` both
transactions send the device byte `0xA0 + ((addr / 256) << 1)` and then exactly one address
byte `addr % 256` before the data phase (the data byte of the write, the read command `0xA1`
of the read); with `ee > AT24C16` they send `0xA0` and then exactly two address bytes,
`addr >> 8` and `addr % 256`. -/
theorem addressing_mode_boundary (sl : Slave σ) (ee addr v : Nat) (w : World σ)
    (ha : addr ≤ ee) (hee : ee ≤ AT24C256) (hv : v < 256) :
    (ee ≤ AT24C16 →
      sentBytes (AT24CXX_ReadOneByte sl ee addr w).2.trace
        = sentBytes w.trace ++ [0xA0 + ((addr / 256) <<< 1), addr % 256] ++ [0xA1] ∧
      sentBytes (AT24CXX_WriteOneByte sl ee addr v w).trace
        = sentBytes w.trace ++ [0xA0 + ((addr / 256) <<< 1), addr % 256] ++ [v]) ∧
    (ee > AT24C16 →
      sentBytes (AT24CXX_ReadOneByte sl ee addr w).2.trace
        = sentBytes w.trace ++ [0xA0, addr >>> 8, addr % 256] ++ [0xA1] ∧
      sentBytes (AT24CXX_WriteOneByte sl ee addr v w).trace
        = sentBytes w.trace ++ [0xA0, addr >>> 8, addr % 256] ++ [v]) := by
  obtain ⟨q, bits, -, -, -, hr⟩ := read_shape sl ee addr w
  obtain ⟨q2, -, hw⟩ := write_shape sl ee addr v w
  have h256 : AT24C256 = 32767 := rfl
  have h16 : AT24C16 = 2047 := rfl
  have ha16 : addr % 65536 = addr := Nat.mod_eq_of_lt (by omega)
  have hv2 : v % 256 = v := Nat.mod_eq_of_lt hv
  rw [hr, hw]
  simp only [run_trace, sentBytes_append, sentBytes_readEvents, sentBytes_writeEvents, ha16, hv2]
  constructor
  · intro h
    have h2 : ¬ ee > AT24C16 := by omega
    have h3 : (0xA0 + ((addr / 256) <<< 1)) % 256 = 0xA0 + ((addr / 256) <<< 1) := by
      apply Nat.mod_eq_of_lt
      rw [Nat.shiftLeft_eq]
      omega
    simp [h2, h3]
  · intro h
    have h3 : (addr >>> 8) % 256 = addr >>> 8 := by
      apply Nat.mod_eq_of_lt
      rw [Nat.shiftRight_eq_div_pow]
      omega
    simp [h, h3]

/-- Witness for C8: capacity 2047 uses one address byte, capacity 4095 two. -/
theorem addressing_mode_boundary_witness :
    (sentBytes (AT24CXX_WriteOneByte absent 2047 1029 0x33 (idleWorld ())).trace
        = [0xA8, 5, 0x33]) ∧
    (sentBytes (AT24CXX_ReadOneByte absent 4095 1029 (idleWorld ())).2.trace
        = [0xA0, 4, 5, 0xA1]) :=
  ⟨((addressing_mode_boundary absent 2047 1029 0x33 (idleWorld ()) (by decide) (by decide)
      (by decide)).1 (by decide)).2,
   ((addressing_mode_boundary absent 4095 1029 0x33 (idleWorld ()) (by decide) (by decide)
      (by decide)).2 (by decide)).1⟩

/-- C10: for every slave, address and value, the trace of `AT24CXX_WriteOneByte` ends with the
events of one `C04_IIC_Stop`, then `delay_ms(10)`, then the return: after that Stop no line is
driven or sampled. -/
theorem write_settling_delay (sl : Slave σ) (ee addr v : Nat) (w : World σ) :
    ∃ pre, (AT24CXX_WriteOneByte sl ee addr v w).trace
      = pre ++ stopEvents
          ++ [Event.delayMs 10, Event.ret (Prim.writeOne (addr % 65536) (v % 256))] := by
  obtain ⟨q, -, hw⟩ := write_shape sl ee addr v w
  rw [hw, run_trace]
  simp only [writeEvents, ← List.append_assoc]
  exact ⟨_, rfl⟩

/-! ## A device that never responds (C5) -/

theorem bits_of_high {sl : Slave σ} (hs : ∀ s, sl.level s = true) :
    ∀ (bits : List Bool), (∀ b, b ∈ bits → ∃ s, sl.level s = b) →
      bits = List.replicate bits.length true := by
  intro bits
  induction bits with
  | nil => intro _; rfl
  | cons b bs ih =>
    intro h
    obtain ⟨s, hb⟩ := h b (List.mem_cons_self _ _)
    rw [hs s] at hb
    subst hb
    have := ih (fun c hc => h c (List.mem_cons_of_mem _ hc))
    rw [List.length_cons, List.replicate_succ, ← this]

theorem read_unresponsive (sl : Slave σ) (hs : ∀ s, sl.level s = true) (ee ReadAddr : Nat)
    (w : World σ) :
    AT24CXX_ReadOneByte sl ee ReadAddr w
      = (255, run sl (readEvents ee (ReadAddr % 65536) (fun _ => timedOut)
          (List.replicate 8 true)) w) := by
  obtain ⟨q, bits, hq, hl, hb, hr⟩ := read_shape sl ee ReadAddr w
  have hq2 : q = fun _ => timedOut := funext fun i => Poll.possible_of_high hs (hq i)
  have hb2 : bits = List.replicate 8 true := by
    have := bits_of_high hs bits hb
    rw [hl] at this
    exact this
  subst hq2 hb2
  rw [hr]
  rfl

theorem write_unresponsive (sl : Slave σ) (hs : ∀ s, sl.level s = true)
    (ee WriteAddr DataToWrite : Nat) (w : World σ) :
    AT24CXX_WriteOneByte sl ee WriteAddr DataToWrite w
      = run sl (writeEvents ee (WriteAddr % 65536) (DataToWrite % 256) (fun _ => timedOut)) w := by
  obtain ⟨q, hq, hr⟩ := write_shape sl ee WriteAddr DataToWrite w
  have hq2 : q = fun _ => timedOut := funext fun i => Poll.possible_of_high hs (hq i)
  subst hq2
  exact hr

theorem length_sendBits (n txd : Nat) : (sendBits n txd).length = 6 * n := by
  induction n generalizing txd with
  | zero => rfl
  | succ n ih => simp only [sendBits, List.length_append, ih, List.length_cons, List.length_nil]; omega

theorem length_sendEvents (txd : Nat) : (sendEvents txd).length = 52 := by
  simp only [sendEvents, List.length_append, length_sendBits, List.length_cons, List.length_nil]

theorem length_waitEvents_timedOut : (waitEvents timedOut).length = 267 := by
  simp only [waitEvents, waitPrelude, pollEvents, timedOut, stopEvents, Bool.false_eq_true,
    if_false, List.length_append, List.length_replicate, List.length_cons, List.length_nil]

theorem length_recvBits (bits : List Bool) : (recvBits bits).length = 5 * bits.length := by
  induction bits with
  | nil => rfl
  | cons b bs ih =>
    simp only [recvBits, List.length_append, ih, List.length_cons, List.length_nil]; omega

theorem length_readEvents_timedOut (ee a : Nat) :
    (readEvents ee a (fun _ => timedOut) (List.replicate 8 true)).length
      = if ee > AT24C16 then 1624 else 1038 := by
  by_cases h : ee > AT24C16 <;>
    simp [readEvents, readHead, h, recvEvents, nackEvents, startEvents, stopEvents,
      length_sendEvents, length_waitEvents_timedOut, length_recvBits]

theorem length_writeEvents_timedOut (ee a d : Nat) :
    (writeEvents ee a d (fun _ => timedOut)).length
      = if ee > AT24C16 then 1297 else 978 := by
  by_cases h : ee > AT24C16 <;>
    simp [writeEvents, writeHead, h, startEvents, stopEvents,
      length_sendEvents, length_waitEvents_timedOut]

/-- C5: for a device that never responds (every sample of Data reads high), whatever the
capacity, `AT24CXX_Check` returns 1, and it does so after a fixed number of trace events:
3054 with one-byte addressing, 4545 with two-byte addressing. -/
theorem check_unresponsive (sl : Slave σ) (hs : ∀ s, sl.level s = true) (ee : Nat)
    (w : World σ) :
    (AT24CXX_Check sl ee w).1 = 1 ∧
      (AT24CXX_Check sl ee w).2.trace.length
        = w.trace.length + (if ee > AT24C16 then 4545 else 3054) := by
  have e1 : ∀ v : World σ, (AT24CXX_ReadOneByte sl ee 255 v).1 = 255 := by
    intro v; rw [read_unresponsive sl hs]
  have e2 : ∀ v : World σ, (AT24CXX_ReadOneByte sl ee 255 v).2.trace.length
      = v.trace.length + (if ee > AT24C16 then 1624 else 1038) := by
    intro v; rw [read_unresponsive sl hs, run_trace, List.length_append,
      length_readEvents_timedOut]
  have e3 : ∀ v : World σ, (AT24CXX_WriteOneByte sl ee 255 0x55 v).trace.length
      = v.trace.length + (if ee > AT24C16 then 1297 else 978) := by
    intro v; rw [write_unresponsive sl hs, run_trace, List.length_append,
      length_writeEvents_timedOut]
  have h55 : ¬ ((255 : Nat) = 0x55) := by decide
  unfold AT24CXX_Check
  simp only [e1, h55, if_false, e2, e3]
  refine ⟨trivial, ?_⟩
  by_cases h : ee > AT24C16
  · simp only [h, if_true]
  · simp only [h, if_false]

/-- Witness for C5 on the slave that never drives Data, with the configured capacity. -/
theorem check_unresponsive_witness :
    (∀ s, absent.level s = true) ∧ (AT24CXX_Check absent EE_TYPE (idleWorld ())).1 = 1 :=
  ⟨fun _ => rfl, (check_unresponsive absent (fun _ => rfl) EE_TYPE (idleWorld ())).1⟩

/-! ## Starts and Stops (C9) -/

theorem seqScan_append (limit : Nat) (s : Option Nat) (a b : List Event) :
    seqScan limit s (a ++ b) = seqScan limit (seqScan limit s a) b := by
  simp [seqScan, List.foldl_append]

theorem Calm.append {limit : Nat} {a b : List Event} (ha : Calm limit a) (hb : Calm limit b) :
    Calm limit (a ++ b) := by
  intro n
  obtain ⟨m, hm, h1⟩ := ha n
  obtain ⟨k, hk, h2⟩ := hb m
  exact ⟨k, by omega, by rw [seqScan_append, h1, h2]⟩

theorem calm_replicate (limit n : Nat) (b : Bool) :
    Calm limit (List.replicate n (Event.readSda b)) := by
  intro k
  refine ⟨k, le_refl _, ?_⟩
  induction n with
  | zero => rfl
  | succ n ih => rw [List.replicate_succ]; exact ih

theorem calm_sendBits (limit n txd : Nat) : Calm limit (sendBits n txd) := by
  intro k
  refine ⟨k, le_refl _, ?_⟩
  induction n generalizing txd with
  | zero => rfl
  | succ n ih => rw [sendBits, seqScan_append]; exact ih _

theorem calm_sendEvents (limit txd : Nat) : Calm limit (sendEvents txd) := by
  unfold sendEvents
  refine Calm.append (Calm.append ?_ (calm_sendBits _ _ _)) ?_
  · intro k; exact ⟨k, le_refl _, rfl⟩
  · intro k; exact ⟨k, le_refl _, rfl⟩

theorem calm_stopEvents (limit : Nat) : Calm limit stopEvents :=
  fun _ => ⟨0, Nat.zero_le _, rfl⟩

theorem calm_waitEvents (limit : Nat) (p : Poll) : Calm limit (waitEvents p) := by
  unfold waitEvents pollEvents
  refine Calm.append (Calm.append ?_ (Calm.append (calm_replicate _ _ _) ?_)) ?_
  · intro k; exact ⟨k, le_refl _, rfl⟩
  · cases p.ok
    · exact calm_stopEvents limit
    · intro k; exact ⟨k, le_refl _, rfl⟩
  · intro k; exact ⟨k, le_refl _, rfl⟩

theorem calm_recvBits (limit : Nat) (bits : List Bool) : Calm limit (recvBits bits) := by
  intro k
  refine ⟨k, le_refl _, ?_⟩
  induction bits with
  | nil => rfl
  | cons b bs ih => rw [recvBits, seqScan_append]; exact ih

theorem calm_recvEvents (limit : Nat) (bits : List Bool) (ack : Nat) :
    Calm limit (recvEvents bits ack) := by
  unfold recvEvents
  refine Calm.append (Calm.append (Calm.append ?_ (calm_recvBits _ _)) ?_) ?_
  · intro k; exact ⟨k, le_refl _, rfl⟩
  · split
    · intro k; exact ⟨k, le_refl _, rfl⟩
    · intro k; exact ⟨k, le_refl _, rfl⟩
  · intro k; exact ⟨k, le_refl _, rfl⟩

theorem seqScan_start (limit n : Nat) (h : n < limit) :
    seqScan limit (some n) startEvents = some (n + 1) := by
  simp [seqScan, startEvents, seqStep, h]

theorem calm_readHead (limit ee a : Nat) (q : Nat → Poll) : Calm limit (readHead ee a q) := by
  unfold readHead
  split
  · exact Calm.append (Calm.append (Calm.append (calm_sendEvents _ _) (calm_waitEvents _ _))
      (calm_sendEvents _ _)) (calm_waitEvents _ _)
  · exact calm_sendEvents _ _

theorem calm_writeHead (limit ee a : Nat) (q : Nat → Poll) : Calm limit (writeHead ee a q) := by
  unfold writeHead
  split
  · exact Calm.append (Calm.append (calm_sendEvents _ _) (calm_waitEvents _ _))
      (calm_sendEvents _ _)
  · exact calm_sendEvents _ _

theorem seqScan_writeEvents (limit : Nat) (hl : 1 ≤ limit) (ee a d : Nat) (q : Nat → Poll) :
    seqScan limit (some 0) (writeEvents ee a d q) = some 0 := by
  have hmid : Calm limit (writeHead ee a q ++ waitEvents (q 1) ++ sendEvents (a % 256)
      ++ waitEvents (q 2) ++ sendEvents d ++ waitEvents (q 3)) :=
    Calm.append (Calm.append (Calm.append (Calm.append (Calm.append (calm_writeHead _ _ _ _)
      (calm_waitEvents _ _)) (calm_sendEvents _ _)) (calm_waitEvents _ _))
      (calm_sendEvents _ _)) (calm_waitEvents _ _)
  obtain ⟨m, -, hm⟩ := hmid 1
  have e : writeEvents ee a d q = [Event.call (Prim.writeOne a d)] ++ (startEvents ++
      ((writeHead ee a q ++ waitEvents (q 1) ++ sendEvents (a % 256)
      ++ waitEvents (q 2) ++ sendEvents d ++ waitEvents (q 3)) ++ (stopEvents ++
      [Event.delayMs 10, Event.ret (Prim.writeOne a d)]))) := by
    simp only [writeEvents, List.append_assoc]
  rw [e, seqScan_append, seqScan_append, seqScan_append]
  have h0 : seqScan limit (some 0) [Event.call (Prim.writeOne a d)] = some 0 := rfl
  rw [h0, seqScan_start limit 0 (by omega), hm]
  rfl

theorem seqScan_readEvents (limit : Nat) (hl : 2 ≤ limit) (ee a : Nat) (q : Nat → Poll)
    (bits : List Bool) :
    seqScan limit (some 0) (readEvents ee a q bits) = some 0 := by
  have hmid1 : Calm limit (readHead ee a q ++ waitEvents (q 2) ++ sendEvents (a % 256)
      ++ waitEvents (q 3)) :=
    Calm.append (Calm.append (Calm.append (calm_readHead _ _ _ _)
      (calm_waitEvents _ _)) (calm_sendEvents _ _)) (calm_waitEvents _ _)
  have hmid2 : Calm limit (sendEvents 0xA1 ++ waitEvents (q 4) ++ recvEvents bits 0) :=
    Calm.append (Calm.append (calm_sendEvents _ _) (calm_waitEvents _ _))
      (calm_recvEvents _ _ _)
  obtain ⟨m, hm1, hm⟩ := hmid1 1
  obtain ⟨k, -, hk⟩ := hmid2 (m + 1)
  have e : readEvents ee a q bits = [Event.call (Prim.readOne a)] ++ (startEvents ++
      ((readHead ee a q ++ waitEvents (q 2) ++ sendEvents (a % 256) ++ waitEvents (q 3)) ++
      (startEvents ++ ((sendEvents 0xA1 ++ waitEvents (q 4) ++ recvEvents bits 0) ++
      (stopEvents ++ [Event.ret (Prim.readOne a)]))))) := by
    simp only [readEvents, List.append_assoc]
  rw [e, seqScan_append, seqScan_append, seqScan_append, seqScan_append, seqScan_append]
  have h0 : seqScan limit (some 0) [Event.call (Prim.readOne a)] = some 0 := rfl
  rw [h0, seqScan_start limit 0 (by omega), hm, seqScan_start limit m (by omega), hk]
  rfl

theorem closed_write (limit : Nat) (hl : 1 ≤ limit) (sl : Slave σ) (ee a d : Nat)
    (w : World σ) (h : Closed limit w) : Closed limit (AT24CXX_WriteOneByte sl ee a d w) := by
  obtain ⟨q, -, hw⟩ := write_shape sl ee a d w
  unfold Closed at h ⊢
  rw [hw, run_trace, seqScan_append, h, seqScan_writeEvents limit hl]

theorem closed_read (limit : Nat) (hl : 2 ≤ limit) (sl : Slave σ) (ee a : Nat)
    (w : World σ) (h : Closed limit w) : Closed limit (AT24CXX_ReadOneByte sl ee a w).2 := by
  obtain ⟨q, bits, -, -, -, hr⟩ := read_shape sl ee a w
  unfold Closed at h ⊢
  rw [hr, run_trace, seqScan_append, h, seqScan_readEvents limit hl]

theorem closed_writeLenLoop (limit : Nat) (hl : 1 ≤ limit) (sl : Slave σ) (ee a d : Nat) :
    ∀ (n t : Nat) (w : World σ), Closed limit w →
      Closed limit (writeLenLoop sl ee a d n t w) := by
  intro n
  induction n with
  | zero => intro t w h; exact h
  | succ n ih => intro t w h; exact ih _ _ (closed_write limit hl sl ee _ _ w h)

theorem closed_readLenLoop (limit : Nat) (hl : 2 ≤ limit) (sl : Slave σ) (ee a l : Nat) :
    ∀ (n t temp : Nat) (w : World σ), Closed limit w →
      Closed limit (readLenLoop sl ee a l n t temp w).2 := by
  intro n
  induction n with
  | zero => intro t temp w h; exact h
  | succ n ih => intro t temp w h; exact ih _ _ _ (closed_read limit hl sl ee _ w h)

theorem closed_readLoop (limit : Nat) (hl : 2 ≤ limit) (sl : Slave σ) (ee : Nat) :
    ∀ (n a p : Nat) (buf : List Nat) (w : World σ), Closed limit w →
      Closed limit (readLoop sl ee n a p buf w).2 := by
  intro n
  induction n with
  | zero => intro a p buf w h; exact h
  | succ n ih => intro a p buf w h; exact ih _ _ _ _ (closed_read limit hl sl ee _ w h)

theorem closed_writeLoop (limit : Nat) (hl : 1 ≤ limit) (sl : Slave σ) (ee : Nat) :
    ∀ (n a p : Nat) (buf : List Nat) (w : World σ), Closed limit w →
      Closed limit (writeLoop sl ee n a p buf w) := by
  intro n
  induction n with
  | zero => intro a p buf w h; exact h
  | succ n ih => intro a p buf w h; exact ih _ _ _ _ (closed_write limit hl sl ee _ _ w h)

theorem closed_check (limit : Nat) (hl : 2 ≤ limit) (sl : Slave σ) (ee : Nat)
    (w : World σ) (h : Closed limit w) : Closed limit (AT24CXX_Check sl ee w).2 := by
  have h1 := closed_read limit hl sl ee 255 w h
  have h2 := closed_write limit (by omega) sl ee 255 0x55 _ h1
  have h3 := closed_read limit hl sl ee 255 _ h2
  unfold AT24CXX_Check
  dsimp only
  split
  · exact h1
  · split
    · exact h3
    · exact h3

theorem closed_exec (sl : Slave σ) (ee : Nat) (o : Op) (w : World σ) (h : Closed 2 w) :
    Closed 2 (o.exec sl ee w) := by
  cases o with
  | readOne a => exact closed_read 2 (le_refl _) sl ee a w h
  | writeOne a d => exact closed_write 2 (by decide) sl ee a d w h
  | readLen a l => exact closed_readLenLoop 2 (le_refl _) sl ee _ _ _ _ _ w h
  | writeLen a d l => exact closed_writeLenLoop 2 (by decide) sl ee _ _ _ _ w h
  | read a buf n => exact closed_readLoop 2 (le_refl _) sl ee _ _ _ _ w h
  | write a buf n => exact closed_writeLoop 2 (by decide) sl ee _ _ _ _ w h
  | check => exact closed_check 2 (le_refl _) sl ee w h

theorem closed_exec_writes (sl : Slave σ) (ee : Nat) (o : Op) (ho : o.writesOnly = true)
    (w : World σ) (h : Closed 1 w) : Closed 1 (o.exec sl ee w) := by
  cases o with
  | writeOne a d => exact closed_write 1 (le_refl _) sl ee a d w h
  | writeLen a d l => exact closed_writeLenLoop 1 (le_refl _) sl ee _ _ _ _ w h
  | write a buf n => exact closed_writeLoop 1 (le_refl _) sl ee _ _ _ _ w h
  | readOne a => simp [Op.writesOnly] at ho
  | readLen a l => simp [Op.writesOnly] at ho
  | read a buf n => simp [Op.writesOnly] at ho
  | check => simp [Op.writesOnly] at ho

theorem closed_execAll (sl : Slave σ) (ee : Nat) (ops : List Op) :
    ∀ w : World σ, Closed 2 w → Closed 2 (execAll sl ee ops w) := by
  induction ops with
  | nil => intro w h; exact h
  | cons o os ih => intro w h; exact ih _ (closed_exec sl ee o w h)

theorem closed_execAll_writes (sl : Slave σ) (ee : Nat) (ops : List Op) :
    (∀ o, o ∈ ops → o.writesOnly = true) →
      ∀ w : World σ, Closed 1 w → Closed 1 (execAll sl ee ops w) := by
  induction ops with
  | nil => intro _ w h; exact h
  | cons o os ih =>
    intro ho w h
    exact ih (fun x hx => ho x (List.mem_cons_of_mem _ hx)) _
      (closed_exec_writes sl ee o (ho o (List.mem_cons_self _ _)) w h)

/-! ## Round trips and the presence check on the simulated EEPROM (C1, C4, C6, C7) -/

/-- C1: on the fault-free simulated device with the configured capacity, starting from the
idle bus (whatever the earlier history, address counter and memory contents), for every
address `addr ≤ EE_TYPE` and every byte `v`, `AT24CXX_WriteOneByte(addr, v)` followed by
`AT24CXX_ReadOneByte(addr)` returns `v`. -/
theorem byte_round_trip (tr : List Event) (hi ptr : Nat) (mem : Nat → Nat) (addr v : Nat)
    (ha : addr ≤ EE_TYPE) (hv : v < 256) :
    (AT24CXX_ReadOneByte (at24 EE_TYPE) EE_TYPE addr
      (AT24CXX_WriteOneByte (at24 EE_TYPE) EE_TYPE addr v (settled tr hi ptr mem))).1 = v := by
  rw [write_at24 EE_TYPE addr v (by decide) ha, read_at24 EE_TYPE addr (by decide) ha]
  simp [Nat.mod_eq_of_lt hv]

/-- Witness for C1: the last cell of a blank device. -/
theorem byte_round_trip_witness :
    255 ≤ EE_TYPE ∧ 0x5A < 256 ∧
      (AT24CXX_ReadOneByte (at24 EE_TYPE) EE_TYPE 255
        (AT24CXX_WriteOneByte (at24 EE_TYPE) EE_TYPE 255 0x5A
          (idleWorld (Eeprom.idle (fun _ => 0xFF))))).1 = 0x5A :=
  ⟨by decide, by decide,
   byte_round_trip [] 0 0 (fun _ => 0xFF) 255 0x5A (by decide) (by decide)⟩

theorem check_present (tr : List Event) (hi ptr : Nat) (mem : Nat → Nat)
    (h : mem 255 % 256 = 0x55) :
    AT24CXX_Check (at24 EE_TYPE) EE_TYPE (settled tr hi ptr mem)
      = (0, settled (tr ++ readEvents EE_TYPE 255 (fun _ => acked) (bitsOf (mem 255))) 0 0 mem) := by
  unfold AT24CXX_Check
  rw [read_at24 EE_TYPE 255 (by decide) (by decide)]
  simp only [h, if_true]
  rfl

theorem check_blank (tr : List Event) (hi ptr : Nat) (mem : Nat → Nat)
    (h : mem 255 % 256 ≠ 0x55) :
    ∃ tr2, AT24CXX_Check (at24 EE_TYPE) EE_TYPE (settled tr hi ptr mem)
      = (0, settled tr2 0 0 (Function.update mem 255 0x55)) ∧
      sentBytes tr2 = sentBytes tr ++ [0xA0, 0xFF, 0xA1] ++ [0xA0, 0xFF, 0x55]
        ++ [0xA0, 0xFF, 0xA1] := by
  unfold AT24CXX_Check
  rw [read_at24 EE_TYPE 255 (by decide) (by decide)]
  simp only [h, if_false]
  rw [write_at24 EE_TYPE 255 0x55 (by decide) (by decide),
    read_at24 EE_TYPE 255 (by decide) (by decide)]
  simp only [Function.update_same, Nat.reduceMod, if_true]
  refine ⟨_, rfl, ?_⟩
  simp only [sentBytes_append, sentBytes_readEvents, sentBytes_writeEvents]
  simp [EE_TYPE, AT24C02, AT24C16]

/-- C4: on the fault-free simulated device with the configured capacity, from the idle bus:
`AT24CXX_Check` returns 0 and leaves 0x55 in cell 255, and a second call in succession
returns 0 as well; when cell 255 did not hold 0x55 the first call stores 0x55 there and
changes no other cell; when it already held 0x55 the memory is unchanged. -/
theorem check_self_initialising (tr : List Event) (hi ptr : Nat) (mem : Nat → Nat) :
    (AT24CXX_Check (at24 EE_TYPE) EE_TYPE (settled tr hi ptr mem)).1 = 0 ∧
      (AT24CXX_Check (at24 EE_TYPE) EE_TYPE (settled tr hi ptr mem)).2.slave.byteAt 255 = 0x55 ∧
      (AT24CXX_Check (at24 EE_TYPE) EE_TYPE
        (AT24CXX_Check (at24 EE_TYPE) EE_TYPE (settled tr hi ptr mem)).2).1 = 0 ∧
      (mem 255 % 256 ≠ 0x55 →
        (AT24CXX_Check (at24 EE_TYPE) EE_TYPE (settled tr hi ptr mem)).2.slave.mem
          = Function.update mem 255 0x55) ∧
      (mem 255 % 256 = 0x55 →
        (AT24CXX_Check (at24 EE_TYPE) EE_TYPE (settled tr hi ptr mem)).2.slave.mem = mem) := by
  by_cases h : mem 255 % 256 = 0x55
  · rw [check_present tr hi ptr mem h]
    refine ⟨rfl, h, ?_, fun h2 => absurd h h2, fun _ => rfl⟩
    rw [check_present _ _ _ mem h]
  · obtain ⟨tr2, e, -⟩ := check_blank tr hi ptr mem h
    rw [e]
    have h2 : Function.update mem 255 0x55 255 % 256 = 0x55 := by
      rw [Function.update_same]
    refine ⟨rfl, h2, ?_, fun _ => rfl, fun h3 => absurd h3 h⟩
    rw [check_present _ _ _ _ h2]

/-- Witness for C4: a blank device (every cell 0xFF) and an initialised one. -/
theorem check_self_initialising_witness :
    ((fun _ : Nat => 0xFF) 255 % 256 ≠ 0x55 ∧
      (AT24CXX_Check (at24 EE_TYPE) EE_TYPE (idleWorld (Eeprom.idle (fun _ => 0xFF)))).2.slave.mem
        = Function.update (fun _ => 0xFF) 255 0x55) ∧
    ((fun _ : Nat => 0x55) 255 % 256 = 0x55 ∧
      (AT24CXX_Check (at24 EE_TYPE) EE_TYPE (idleWorld (Eeprom.idle (fun _ => 0x55)))).2.slave.mem
        = fun _ => 0x55) :=
  ⟨⟨by decide, (check_self_initialising [] 0 0 (fun _ => 0xFF)).2.2.2.1 (by decide)⟩,
   ⟨by decide, (check_self_initialising [] 0 0 (fun _ => 0x55)).2.2.2.2 (by decide)⟩⟩

theorem and_ff (x : Nat) : x &&& 0xff = x % 256 :=
  Nat.and_pow_two_sub_one_eq_mod x 8

theorem writeLen2_at24 (addr v : Nat) (ha : addr + 1 ≤ EE_TYPE) (hv : v < 4294967296)
    (tr : List Event) (hi ptr : Nat) (mem : Nat → Nat) :
    ∃ tr2 hi2 ptr2, AT24CXX_WriteLenByte (at24 EE_TYPE) EE_TYPE addr v 2 (settled tr hi ptr mem)
      = settled tr2 hi2 ptr2
          (Function.update (Function.update mem addr (v % 256)) (addr + 1) (v / 256 % 256)) := by
  have hE : EE_TYPE = 255 := rfl
  have h1 : addr % 65536 = addr := Nat.mod_eq_of_lt (by omega)
  have h2 : v % 4294967296 = v := Nat.mod_eq_of_lt hv
  simp only [AT24CXX_WriteLenByte, h1, h2, Nat.reduceMod, writeLenLoop]
  rw [write_at24 EE_TYPE (addr + 0) _ (by decide) (by omega),
    write_at24 EE_TYPE (addr + (0 + 1)) _ (by decide) (by omega)]
  refine ⟨_, _, _, congrArg (settled _ _ _) ?_⟩
  simp [and_ff, Nat.shiftRight_eq_div_pow]

theorem readLen2_at24 (addr : Nat) (ha : addr + 1 ≤ EE_TYPE)
    (tr : List Event) (hi ptr : Nat) (mem : Nat → Nat) :
    (AT24CXX_ReadLenByte (at24 EE_TYPE) EE_TYPE addr 2 (settled tr hi ptr mem)).1
      = mem (addr + 1) % 256 * 256 + mem addr % 256 := by
  have hE : EE_TYPE = 255 := rfl
  have h1 : addr % 65536 = addr := Nat.mod_eq_of_lt (by omega)
  have e1 : addr + 2 - 0 - 1 = addr + 1 := by omega
  have e2 : addr + 2 - (0 + 1) - 1 = addr := by omega
  simp only [AT24CXX_ReadLenByte, h1, Nat.reduceMod, readLenLoop, e1, e2]
  rw [read_at24 EE_TYPE (addr + 1) (by decide) (by omega)]
  simp only []
  rw [read_at24 EE_TYPE addr (by decide) (by omega)]
  simp only [Nat.shiftLeft_eq]
  omega

theorem writeLen4_at24 (addr v : Nat) (ha : addr + 3 ≤ EE_TYPE) (hv : v < 4294967296)
    (tr : List Event) (hi ptr : Nat) (mem : Nat → Nat) :
    ∃ tr2 hi2 ptr2, AT24CXX_WriteLenByte (at24 EE_TYPE) EE_TYPE addr v 4 (settled tr hi ptr mem)
      = settled tr2 hi2 ptr2
          (Function.update (Function.update (Function.update (Function.update mem addr (v % 256))
            (addr + 1) (v / 256 % 256)) (addr + 2) (v / 65536 % 256))
            (addr + 3) (v / 16777216 % 256)) := by
  have hE : EE_TYPE = 255 := rfl
  have h1 : addr % 65536 = addr := Nat.mod_eq_of_lt (by omega)
  have h2 : v % 4294967296 = v := Nat.mod_eq_of_lt hv
  simp only [AT24CXX_WriteLenByte, h1, h2, Nat.reduceMod, writeLenLoop]
  rw [write_at24 EE_TYPE (addr + 0) _ (by decide) (by omega),
    write_at24 EE_TYPE (addr + (0 + 1)) _ (by decide) (by omega),
    write_at24 EE_TYPE (addr + (0 + 1 + 1)) _ (by decide) (by omega),
    write_at24 EE_TYPE (addr + (0 + 1 + 1 + 1)) _ (by decide) (by omega)]
  refine ⟨_, _, _, congrArg (settled _ _ _) ?_⟩
  simp [and_ff, Nat.shiftRight_eq_div_pow]

theorem readLen4_at24 (addr : Nat) (ha : addr + 3 ≤ EE_TYPE)
    (tr : List Event) (hi ptr : Nat) (mem : Nat → Nat) :
    (AT24CXX_ReadLenByte (at24 EE_TYPE) EE_TYPE addr 4 (settled tr hi ptr mem)).1
      = mem (addr + 3) % 256 * 16777216 + mem (addr + 2) % 256 * 65536
          + mem (addr + 1) % 256 * 256 + mem addr % 256 := by
  have hE : EE_TYPE = 255 := rfl
  have h1 : addr % 65536 = addr := Nat.mod_eq_of_lt (by omega)
  have e1 : addr + 4 - 0 - 1 = addr + 3 := by omega
  have e2 : addr + 4 - (0 + 1) - 1 = addr + 2 := by omega
  have e3 : addr + 4 - (0 + 1 + 1) - 1 = addr + 1 := by omega
  have e4 : addr + 4 - (0 + 1 + 1 + 1) - 1 = addr := by omega
  simp only [AT24CXX_ReadLenByte, h1, Nat.reduceMod, readLenLoop, e1, e2, e3, e4]
  rw [read_at24 EE_TYPE (addr + 3) (by decide) (by omega)]
  simp only []
  rw [read_at24 EE_TYPE (addr + 2) (by decide) (by omega)]
  simp only []
  rw [read_at24 EE_TYPE (addr + 1) (by decide) (by omega)]
  simp only []
  rw [read_at24 EE_TYPE addr (by decide) (by omega)]
  simp only [Nat.shiftLeft_eq]
  omega

/-- C6 (amended): on the fault-free simulated device with the configured capacity, from the
idle bus, for every address whose `Len` cells are all in range (`addr + Len - 1 ≤ EE_TYPE`):
`AT24CXX_WriteLenByte(addr, v, 2)` followed by `AT24CXX_ReadLenByte(addr, 2)` returns `v` for
every `v ≤ 65535`, and the same with length 4 for every `v ≤ 2^32 - 1`. -/
theorem len_round_trip (tr : List Event) (hi ptr : Nat) (mem : Nat → Nat) (addr v : Nat) :
    (addr + 1 ≤ EE_TYPE → v < 65536 →
      (AT24CXX_ReadLenByte (at24 EE_TYPE) EE_TYPE addr 2
        (AT24CXX_WriteLenByte (at24 EE_TYPE) EE_TYPE addr v 2 (settled tr hi ptr mem))).1 = v) ∧
    (addr + 3 ≤ EE_TYPE → v < 4294967296 →
      (AT24CXX_ReadLenByte (at24 EE_TYPE) EE_TYPE addr 4
        (AT24CXX_WriteLenByte (at24 EE_TYPE) EE_TYPE addr v 4 (settled tr hi ptr mem))).1 = v) := by
  constructor
  · intro ha hv
    obtain ⟨tr2, hi2, ptr2, e⟩ := writeLen2_at24 addr v ha (by omega) tr hi ptr mem
    rw [e, readLen2_at24 addr ha]
    simp [Function.update]
    omega
  · intro ha hv
    obtain ⟨tr2, hi2, ptr2, e⟩ := writeLen4_at24 addr v ha hv tr hi ptr mem
    rw [e, readLen4_at24 addr ha]
    simp [Function.update]
    omega

/-- Witness for C6 (amended): a 16-bit value at the two highest cells and a 32-bit value at
cell 0. -/
theorem len_round_trip_witness :
    (AT24CXX_ReadLenByte (at24 EE_TYPE) EE_TYPE 254 2
        (AT24CXX_WriteLenByte (at24 EE_TYPE) EE_TYPE 254 0xBEEF 2
          (idleWorld (Eeprom.idle (fun _ => 0xFF))))).1 = 0xBEEF ∧
    (AT24CXX_ReadLenByte (at24 EE_TYPE) EE_TYPE 0 4
        (AT24CXX_WriteLenByte (at24 EE_TYPE) EE_TYPE 0 0xDEADBEEF 4
          (idleWorld (Eeprom.idle (fun _ => 0xFF))))).1 = 0xDEADBEEF :=
  ⟨(len_round_trip [] 0 0 (fun _ => 0xFF) 254 0xBEEF).1 (by decide) (by decide),
   (len_round_trip [] 0 0 (fun _ => 0xFF) 0 0xDEADBEEF).2 (by decide) (by decide)⟩

theorem writeLoop_at24 (ee : Nat) (hee : ee ≤ AT24C16) (buf : List Nat) :
    ∀ (n a p : Nat) (tr : List Event) (hi ptr : Nat) (mem : Nat → Nat), a + n ≤ ee + 1 →
      ∃ tr2 hi2 ptr2 mem2,
        writeLoop (at24 ee) ee n a p buf (settled tr hi ptr mem) = settled tr2 hi2 ptr2 mem2 ∧
        (∀ i, i < n → mem2 (a + i) = buf.getD (p + i) 0 % 256) ∧
        (∀ x, x < a → mem2 x = mem x) := by
  have h16 : AT24C16 = 2047 := rfl
  intro n
  induction n with
  | zero =>
    intro a p tr hi ptr mem _
    exact ⟨tr, hi, ptr, mem, rfl, fun i hi => absurd hi (Nat.not_lt_zero _), fun _ _ => rfl⟩
  | succ n ih =>
    intro a p tr hi ptr mem ha
    have ha1 : (a + 1) % 65536 = a + 1 := Nat.mod_eq_of_lt (by omega)
    obtain ⟨tr2, hi2, ptr2, mem2, e, h1, h2⟩ :=
      ih (a + 1) (p + 1) (tr ++ writeEvents ee a (buf.getD p 0 % 256) (fun _ => acked))
        (a / 256) ((a + 1) % (ee + 1)) (Function.update mem a (buf.getD p 0 % 256)) (by omega)
    refine ⟨tr2, hi2, ptr2, mem2, ?_, ?_, ?_⟩
    · rw [writeLoop, write_at24 ee a _ hee (by omega), ha1]
      exact e
    · intro i hi
      cases i with
      | zero =>
        rw [Nat.add_zero, Nat.add_zero, h2 a (by omega), Function.update_same]
      | succ i =>
        have := h1 i (by omega)
        rw [show a + (i + 1) = a + 1 + i by omega, show p + (i + 1) = p + 1 + i by omega]
        exact this
    · intro x hx
      rw [h2 x (by omega), Function.update_noteq (by omega)]

theorem readLoop_at24 (ee : Nat) (hee : ee ≤ AT24C16) (mem : Nat → Nat) :
    ∀ (n a p : Nat) (buf : List Nat) (tr : List Event) (hi ptr : Nat), a + n ≤ ee + 1 →
      p + n ≤ buf.length →
      ∃ buf2 tr2 hi2 ptr2,
        readLoop (at24 ee) ee n a p buf (settled tr hi ptr mem)
          = (buf2, settled tr2 hi2 ptr2 mem) ∧
        buf2.length = buf.length ∧
        (∀ i, i < n → buf2[p + i]? = some (mem (a + i) % 256)) ∧
        (∀ j, j < p → buf2[j]? = buf[j]?) := by
  have h16 : AT24C16 = 2047 := rfl
  intro n
  induction n with
  | zero =>
    intro a p buf tr hi ptr _ _
    exact ⟨buf, tr, hi, ptr, rfl, rfl, fun i hi => absurd hi (Nat.not_lt_zero _),
      fun _ _ => rfl⟩
  | succ n ih =>
    intro a p buf tr hi ptr ha hp
    have ha1 : (a + 1) % 65536 = a + 1 := Nat.mod_eq_of_lt (by omega)
    obtain ⟨buf2, tr2, hi2, ptr2, e, hl, h1, h2⟩ :=
      ih (a + 1) (p + 1) (buf.set p (mem a % 256))
        (tr ++ readEvents ee a (fun _ => acked) (bitsOf (mem a)))
        (a / 256) ((a + 1) % (ee + 1)) (by omega) (by rw [List.length_set]; omega)
    refine ⟨buf2, tr2, hi2, ptr2, ?_, ?_, ?_, ?_⟩
    · rw [readLoop, read_at24 ee a hee (by omega)]
      simp only [ha1]
      exact e
    · rw [hl, List.length_set]
    · intro i hi
      cases i with
      | zero =>
        rw [Nat.add_zero, Nat.add_zero, h2 p (by omega), List.getElem?_set_self (by omega)]
      | succ i =>
        have := h1 i (by omega)
        rw [show a + (i + 1) = a + 1 + i by omega, show p + (i + 1) = p + 1 + i by omega]
        exact this
    · intro j hj
      rw [h2 j (by omega), List.getElem?_set_ne (by omega)]

/-- C7: on the fault-free simulated device with the configured capacity, from the idle bus,
for every sequence `bs` of bytes that fits in the address range from `addr` on and every
buffer `buf` of the same length: `AT24CXX_Write(addr, bs, len bs)` followed by
`AT24CXX_Read(addr, buf, len bs)` leaves exactly `bs` in the buffer; and with length 0
neither call adds anything to the trace or changes the world or the buffer. -/
theorem array_round_trip (tr : List Event) (hi ptr : Nat) (mem : Nat → Nat) (addr : Nat)
    (bs buf : List Nat) (hin : addr + bs.length ≤ EE_TYPE + 1) (hb : ∀ b, b ∈ bs → b < 256)
    (hbuf : buf.length = bs.length) :
    (AT24CXX_Read (at24 EE_TYPE) EE_TYPE addr buf bs.length
        (AT24CXX_Write (at24 EE_TYPE) EE_TYPE addr bs bs.length (settled tr hi ptr mem))).1 = bs ∧
      AT24CXX_Write (at24 EE_TYPE) EE_TYPE addr bs 0 (settled tr hi ptr mem)
        = settled tr hi ptr mem ∧
      AT24CXX_Read (at24 EE_TYPE) EE_TYPE addr buf 0 (settled tr hi ptr mem)
        = (buf, settled tr hi ptr mem) := by
  have hE : EE_TYPE = 255 := rfl
  refine ⟨?_, rfl, rfl⟩
  have hn : bs.length % 65536 = bs.length := Nat.mod_eq_of_lt (by omega)
  have ha : addr % 65536 = addr := Nat.mod_eq_of_lt (by omega)
  obtain ⟨tr2, hi2, ptr2, mem2, e, h1, -⟩ :=
    writeLoop_at24 EE_TYPE (by decide) bs bs.length addr 0 tr hi ptr mem hin
  obtain ⟨buf2, tr3, hi3, ptr3, e2, hl, h3, -⟩ :=
    readLoop_at24 EE_TYPE (by decide) mem2 bs.length addr 0 buf tr2 hi2 ptr2 hin (by omega)
  simp only [AT24CXX_Read, AT24CXX_Write, hn, ha, e, e2]
  apply List.ext_getElem?
  intro j
  by_cases hj : j < bs.length
  · have := h3 j hj
    rw [Nat.zero_add] at this
    rw [this, h1 j hj, Nat.zero_add, List.getElem?_eq_getElem hj]
    have hget : bs.getD j 0 = bs[j] := by
      rw [List.getD_eq_getElem?_getD, List.getElem?_eq_getElem hj]
      rfl
    rw [hget, Nat.mod_mod, Nat.mod_eq_of_lt (hb _ (List.getElem_mem _))]
  · rw [List.getElem?_eq_none (by omega), List.getElem?_eq_none (by omega)]

/-- Witness for C7: three bytes at the top of the address range. -/
theorem array_round_trip_witness :
    (AT24CXX_Read (at24 EE_TYPE) EE_TYPE 253 [0, 0, 0] 3
      (AT24CXX_Write (at24 EE_TYPE) EE_TYPE 253 [7, 8, 9] 3
        (idleWorld (Eeprom.idle (fun _ => 0xFF))))).1 = [7, 8, 9] :=
  (array_round_trip [] 0 0 (fun _ => 0xFF) 253 [7, 8, 9] [0, 0, 0] (by decide) (by decide)
    (by decide)).1

/-! ## Transactions performed: little-endian layout, presence check (C11, C12, C19) -/

theorem since_run (sl : Slave σ) (evs : List Event) (w : World σ) :
    since w (run sl evs w).trace = evs := by
  rw [since, run_trace, List.drop_left]

theorem txnCalls_append (xs ys : List Event) :
    txnCalls (xs ++ ys) = txnCalls xs ++ txnCalls ys := by
  induction xs with
  | nil => rfl
  | cons e es ih =>
    cases e with
    | call p => cases p <;> simp [txnCalls, ih]
    | _ => simp [txnCalls, ih]

theorem txnCalls_replicate (n : Nat) (b : Bool) :
    txnCalls (List.replicate n (Event.readSda b)) = [] := by
  induction n with
  | zero => rfl
  | succ n ih => simp [List.replicate_succ, txnCalls, ih]

theorem txnCalls_sendBits (n txd : Nat) : txnCalls (sendBits n txd) = [] := by
  induction n generalizing txd with
  | zero => rfl
  | succ n ih => simp [sendBits, txnCalls, ih]

theorem txnCalls_sendEvents (txd : Nat) : txnCalls (sendEvents txd) = [] := by
  simp [sendEvents, txnCalls_append, txnCalls_sendBits, txnCalls]

theorem txnCalls_waitEvents (p : Poll) : txnCalls (waitEvents p) = [] := by
  cases hok : p.ok <;>
    simp [waitEvents, waitPrelude, pollEvents, stopEvents, txnCalls_append,
      txnCalls_replicate, txnCalls, hok]

theorem txnCalls_recvBits (bits : List Bool) : txnCalls (recvBits bits) = [] := by
  induction bits with
  | nil => rfl
  | cons b bs ih => simp [recvBits, txnCalls, ih]

theorem txnCalls_recvEvents (bits : List Bool) (ack : Nat) :
    txnCalls (recvEvents bits ack) = [] := by
  by_cases h : ack % 256 = 0 <;>
    simp [recvEvents, txnCalls_append, txnCalls_recvBits, txnCalls, nackEvents, ackEvents, h]

theorem txnCalls_startEvents : txnCalls startEvents = [] := rfl

theorem txnCalls_stopEvents : txnCalls stopEvents = [] := rfl

theorem txnCalls_readEvents (ee a : Nat) (q : Nat → Poll) (bits : List Bool) :
    txnCalls (readEvents ee a q bits) = [Prim.readOne a] := by
  have h1 : txnCalls [Event.call (Prim.readOne a)] = [Prim.readOne a] := rfl
  have h2 : txnCalls [Event.ret (Prim.readOne a)] = [] := rfl
  by_cases h : ee > AT24C16 <;>
    simp only [readEvents, readHead, h, if_true, if_false, txnCalls_append,
      txnCalls_sendEvents, txnCalls_waitEvents, txnCalls_recvEvents, txnCalls_startEvents,
      txnCalls_stopEvents, h1, h2] <;> simp

theorem txnCalls_writeEvents (ee a d : Nat) (q : Nat → Poll) :
    txnCalls (writeEvents ee a d q) = [Prim.writeOne a d] := by
  have h1 : txnCalls [Event.call (Prim.writeOne a d)] = [Prim.writeOne a d] := rfl
  have h2 : txnCalls [Event.delayMs 10, Event.ret (Prim.writeOne a d)] = [] := rfl
  by_cases h : ee > AT24C16 <;>
    simp only [writeEvents, writeHead, h, if_true, if_false, txnCalls_append,
      txnCalls_sendEvents, txnCalls_waitEvents, txnCalls_startEvents,
      txnCalls_stopEvents, h1, h2] <;> simp

theorem txnCalls_write (sl : Slave σ) (ee a d : Nat) (w : World σ) :
    txnCalls (AT24CXX_WriteOneByte sl ee a d w).trace
      = txnCalls w.trace ++ [Prim.writeOne (a % 65536) (d % 256)] := by
  obtain ⟨q, -, hw⟩ := write_shape sl ee a d w
  rw [hw, run_trace, txnCalls_append, txnCalls_writeEvents]

theorem txnCalls_read (sl : Slave σ) (ee a : Nat) (w : World σ) :
    txnCalls (AT24CXX_ReadOneByte sl ee a w).2.trace
      = txnCalls w.trace ++ [Prim.readOne (a % 65536)] := by
  obtain ⟨q, bits, -, -, -, hr⟩ := read_shape sl ee a w
  rw [hr, run_trace, txnCalls_append, txnCalls_readEvents]

theorem txnCalls_writeLenLoop (sl : Slave σ) (ee a d : Nat) :
    ∀ (n t : Nat) (w : World σ),
      txnCalls (writeLenLoop sl ee a d n t w).trace
        = txnCalls w.trace ++ (List.range' t n).map
            (fun i => Prim.writeOne ((a + i) % 65536) (((d >>> (8 * i)) &&& 0xff) % 256)) := by
  intro n
  induction n with
  | zero => intro t w; simp [writeLenLoop]
  | succ n ih =>
    intro t w
    rw [writeLenLoop, ih, txnCalls_write]
    simp [List.range'_succ]

/-- C11: for `len` 2 or 4, a `u16` address whose `len` cells do not wrap and a `u32` value,
`AT24CXX_WriteLenByte(addr, v, len)` makes exactly `len` calls of `AT24CXX_WriteOneByte`, the
`t`-th (`t = 0 .. len-1`, in this order) with address `addr + t` and data
`(v >> 8t) & 0xFF`: the least-significant byte first and at the lowest address. -/
theorem writeLen_little_endian (sl : Slave σ) (ee addr v len : Nat) (w : World σ)
    (hlen : len = 2 ∨ len = 4) (ha : addr + len ≤ 65536) (hv : v < 4294967296) :
    txnCalls (AT24CXX_WriteLenByte sl ee addr v len w).trace
      = txnCalls w.trace ++ (List.range len).map
          (fun t => Prim.writeOne (addr + t) ((v >>> (8 * t)) &&& 0xff)) := by
  have h1 : addr % 65536 = addr := Nat.mod_eq_of_lt (by omega)
  have h2 : v % 4294967296 = v := Nat.mod_eq_of_lt hv
  have h3 : ∀ x : Nat, (x &&& 0xff) % 256 = x &&& 0xff := by
    intro x; rw [and_ff, Nat.mod_mod]
  unfold AT24CXX_WriteLenByte
  rw [txnCalls_writeLenLoop, h1, h2]
  rcases hlen with rfl | rfl
  · have e1 : (addr + 1) % 65536 = addr + 1 := Nat.mod_eq_of_lt (by omega)
    simp [List.range'_succ, List.range_succ, h3, h1, e1]
  · have e1 : (addr + 1) % 65536 = addr + 1 := Nat.mod_eq_of_lt (by omega)
    have e2 : (addr + 2) % 65536 = addr + 2 := Nat.mod_eq_of_lt (by omega)
    have e3 : (addr + 3) % 65536 = addr + 3 := Nat.mod_eq_of_lt (by omega)
    simp [List.range'_succ, List.range_succ, h3, h1, e1, e2, e3]

/-- Witness for C11: the 32-bit value 0x11223344 written at address 16. -/
theorem writeLen_little_endian_witness :
    txnCalls (AT24CXX_WriteLenByte absent EE_TYPE 16 0x11223344 4 (idleWorld ())).trace
      = [Prim.writeOne 16 0x44, Prim.writeOne 17 0x33, Prim.writeOne 18 0x22,
         Prim.writeOne 19 0x11] :=
  (writeLen_little_endian absent EE_TYPE 16 0x11223344 4 (idleWorld ()) (Or.inr rfl)
    (by decide) (by decide)).trans (by decide)

theorem txnCalls_check_blank (sl : Slave σ) (ee : Nat) (w : World σ)
    (h : (AT24CXX_ReadOneByte sl ee 255 w).1 ≠ 0x55) :
    txnCalls (since w (AT24CXX_Check sl ee w).2.trace)
      = [Prim.readOne 255, Prim.writeOne 255 0x55, Prim.readOne 255] := by
  obtain ⟨q, bits, -, -, -, hr⟩ := read_shape sl ee 255 w
  obtain ⟨q2, -, hw⟩ := write_shape sl ee 255 0x55 (AT24CXX_ReadOneByte sl ee 255 w).2
  obtain ⟨q3, bits3, -, -, -, hr3⟩ := read_shape sl ee 255
    (AT24CXX_WriteOneByte sl ee 255 0x55 (AT24CXX_ReadOneByte sl ee 255 w).2)
  have e1 : (AT24CXX_ReadOneByte sl ee 255 w).2.trace
      = w.trace ++ readEvents ee 255 q bits := by rw [hr, run_trace]
  have e2 : (AT24CXX_ReadOneByte sl ee 255
      (AT24CXX_WriteOneByte sl ee 255 0x55 (AT24CXX_ReadOneByte sl ee 255 w).2)).2.trace
      = w.trace ++ (readEvents ee 255 q bits ++ writeEvents ee 255 0x55 q2
          ++ readEvents ee 255 q3 bits3) := by
    rw [hr3, run_trace, hw, run_trace, e1]
    simp only [List.append_assoc]
  have e3 : (AT24CXX_Check sl ee w).2 = (AT24CXX_ReadOneByte sl ee 255
      (AT24CXX_WriteOneByte sl ee 255 0x55 (AT24CXX_ReadOneByte sl ee 255 w).2)).2 := by
    unfold AT24CXX_Check
    simp only [h, if_false]
    split <;> rfl
  rw [e3, e2, since, List.drop_left]
  simp only [txnCalls_append, txnCalls_readEvents, txnCalls_writeEvents]
  rfl

theorem txnCalls_check_present (sl : Slave σ) (ee : Nat) (w : World σ)
    (h : (AT24CXX_ReadOneByte sl ee 255 w).1 = 0x55) :
    txnCalls (since w (AT24CXX_Check sl ee w).2.trace) = [Prim.readOne 255] := by
  obtain ⟨q, bits, -, -, -, hr⟩ := read_shape sl ee 255 w
  have e3 : (AT24CXX_Check sl ee w).2 = (AT24CXX_ReadOneByte sl ee 255 w).2 := by
    unfold AT24CXX_Check
    simp only [h, if_true]
  rw [e3, hr, since_run, txnCalls_readEvents]

/-- C12: when the first read of the sentinel address returns 0x55, `AT24CXX_Check` returns 0
and is exactly that one `AT24CXX_ReadOneByte(255)`: the only transaction it adds to the trace
is this read, no write; and on the fault-free simulated device (one-byte addressing, cell 255
present) the memory is left as it was. -/
theorem check_no_write_when_initialised (sl : Slave σ) (ee : Nat) (w : World σ)
    (h : (AT24CXX_ReadOneByte sl ee 255 w).1 = 0x55) :
    AT24CXX_Check sl ee w = (0, (AT24CXX_ReadOneByte sl ee 255 w).2) ∧
      txnCalls (since w (AT24CXX_Check sl ee w).2.trace) = [Prim.readOne 255] ∧
      (∀ (tr : List Event) (hi ptr : Nat) (mem : Nat → Nat), 255 ≤ ee → ee ≤ AT24C16 →
        (AT24CXX_ReadOneByte (at24 ee) ee 255 (settled tr hi ptr mem)).1 = 0x55 →
        (AT24CXX_Check (at24 ee) ee (settled tr hi ptr mem)).2.slave.mem = mem) := by
  have hc : ∀ (τ : Type) (s : Slave τ) (v : World τ),
      (AT24CXX_ReadOneByte s ee 255 v).1 = 0x55 →
      AT24CXX_Check s ee v = (0, (AT24CXX_ReadOneByte s ee 255 v).2) := by
    intro τ s v hv
    unfold AT24CXX_Check
    simp only [hv, if_true]
  refine ⟨hc σ sl w h, ?_, ?_⟩
  · exact txnCalls_check_present sl ee w h
  · intro tr hi ptr mem h1 h2 h3
    rw [hc _ _ _ h3, read_at24 ee 255 h2 h1]
    rfl

/-- Witness for C12: the simulated device with 0x55 in every cell. -/
theorem check_no_write_when_initialised_witness :
    (AT24CXX_ReadOneByte (at24 EE_TYPE) EE_TYPE 255 (idleWorld (Eeprom.idle (fun _ => 0x55)))).1
        = 0x55 ∧
      txnCalls (AT24CXX_Check (at24 EE_TYPE) EE_TYPE
        (idleWorld (Eeprom.idle (fun _ => 0x55)))).2.trace = [Prim.readOne 255] :=
  ⟨(congrArg Prod.fst (read_at24 EE_TYPE 255 (by decide) (by decide) [] 0 0 (fun _ => 0x55))),
   (check_no_write_when_initialised (at24 EE_TYPE) EE_TYPE
      (idleWorld (Eeprom.idle (fun _ => 0x55)))
      (congrArg Prod.fst (read_at24 EE_TYPE 255 (by decide) (by decide) [] 0 0
        (fun _ => 0x55)))).2.1⟩

/-- C19 (as stated, refuted): with the capacity set to `AT24C04` the top address is 511, but
`AT24CXX_Check` reads and writes address 255. -/
theorem check_address_counterexample :
    txnCalls (AT24CXX_Check absent AT24C04 (idleWorld ())).2.trace
        = [Prim.readOne 255, Prim.writeOne 255 0x55, Prim.readOne 255] ∧
      (255 : Nat) ≠ AT24C04 := by
  refine ⟨?_, by decide⟩
  have h1 : (AT24CXX_ReadOneByte absent AT24C04 255 (idleWorld ())).1 ≠ 0x55 := by
    rw [read_unresponsive absent (fun _ => rfl)]
    decide
  exact txnCalls_check_blank absent AT24C04 (idleWorld ()) h1

/-- C19 (amended): for every capacity and every slave, the transactions of `AT24CXX_Check`
all use the literal address 255: one read of 255, or a read, a write of 0x55 and a read of
255; this is the top address exactly for the capacity the header selects,
`EE_TYPE = AT24C02 = 255`. -/
theorem check_address_literal (sl : Slave σ) (ee : Nat) (w : World σ) :
    (txnCalls (since w (AT24CXX_Check sl ee w).2.trace) = [Prim.readOne 255] ∨
      txnCalls (since w (AT24CXX_Check sl ee w).2.trace)
        = [Prim.readOne 255, Prim.writeOne 255 0x55, Prim.readOne 255]) ∧
      EE_TYPE = 255 := by
  refine ⟨?_, rfl⟩
  by_cases h : (AT24CXX_ReadOneByte sl ee 255 w).1 = 0x55
  · exact Or.inl (txnCalls_check_present sl ee w h)
  · exact Or.inr (txnCalls_check_blank sl ee w h)

/-! ## Clean termination (C13) -/

/-- C13: for every slave behaviour, address, value and starting world (the idle bus
included), `AT24CXX_ReadOneByte` and `AT24CXX_WriteOneByte` return; the last bus primitive
in their trace is a complete `C04_IIC_Stop` (followed only by the settling delay of the write
and the return), and on return the Clock and Data latches are high with Data driven as an
output. -/
theorem clean_termination (sl : Slave σ) (ee addr v : Nat) (w : World σ) :
    ((∃ pre, (AT24CXX_ReadOneByte sl ee addr w).2.trace
        = pre ++ stopEvents ++ [Event.ret (Prim.readOne (addr % 65536))]) ∧
      (AT24CXX_ReadOneByte sl ee addr w).2.scl = true ∧
      (AT24CXX_ReadOneByte sl ee addr w).2.sda = true ∧
      (AT24CXX_ReadOneByte sl ee addr w).2.dir = Dir.output) ∧
    ((∃ pre, (AT24CXX_WriteOneByte sl ee addr v w).trace
        = pre ++ stopEvents
            ++ [Event.delayMs 10, Event.ret (Prim.writeOne (addr % 65536) (v % 256))]) ∧
      (AT24CXX_WriteOneByte sl ee addr v w).scl = true ∧
      (AT24CXX_WriteOneByte sl ee addr v w).sda = true ∧
      (AT24CXX_WriteOneByte sl ee addr v w).dir = Dir.output) := by
  obtain ⟨q, bits, -, -, -, hr⟩ := read_shape sl ee addr w
  obtain ⟨q2, -, hw⟩ := write_shape sl ee addr v w
  rw [hr, hw]
  refine ⟨⟨?_, ?_, ?_, ?_⟩, ⟨?_, ?_, ?_, ?_⟩⟩
  · rw [run_trace]
    simp only [readEvents, ← List.append_assoc]
    exact ⟨_, rfl⟩
  · simp only [readEvents, run_append]; rfl
  · simp only [readEvents, run_append]; rfl
  · simp only [readEvents, run_append]; rfl
  · rw [run_trace]
    simp only [writeEvents, ← List.append_assoc]
    exact ⟨_, rfl⟩
  · simp only [writeEvents, run_append]; rfl
  · simp only [writeEvents, run_append]; rfl
  · simp only [writeEvents, run_append]; rfl

/-! ## Primitive sequences of the transactions (C14, C15) -/

theorem callsAt_enter (p : Prim) (es : List Event) :
    callsAt 1 0 (Event.call p :: es) = callsAt 1 1 es := rfl

theorem callsAt_direct (p : Prim) (es : List Event) :
    callsAt 1 1 (Event.call p :: es) = p :: callsAt 1 2 es := rfl

theorem plain_replicate (n : Nat) (b : Bool) : Plain (List.replicate n (Event.readSda b)) := by
  intro d cur rest
  induction n with
  | zero => rfl
  | succ n ih => rw [List.replicate_succ, List.cons_append]; exact ih

theorem plain_sendBits (n txd : Nat) : Plain (sendBits n txd) := by
  intro d cur rest
  induction n generalizing txd with
  | zero => rfl
  | succ n ih =>
    rw [sendBits, List.append_assoc]
    exact ih _

theorem plain_recvBits (bits : List Bool) : Plain (recvBits bits) := by
  intro d cur rest
  induction bits with
  | nil => rfl
  | cons b bs ih =>
    rw [recvBits, List.append_assoc]
    exact ih

theorem oneCall_start : OneCall Prim.start startEvents := fun _ => rfl

theorem oneCall_stop : OneCall Prim.stop stopEvents := fun _ => rfl

theorem oneCall_send (txd : Nat) : OneCall (Prim.send (txd % 256)) (sendEvents txd) := by
  intro rest
  have h := plain_sendBits 8 (txd % 256) 1 2 (Event.ret (Prim.send (txd % 256)) :: rest)
  simp only [sendEvents, List.append_assoc, List.cons_append, List.nil_append,
    callsAt_direct]
  have e : ∀ es : List Event, callsAt 1 2 (Event.sdaOut :: Event.scl false :: es)
      = callsAt 1 2 es := fun _ => rfl
  rw [e, h]
  rfl

theorem oneCall_wait (p : Poll) : OneCall Prim.waitAck (waitEvents p) := by
  intro rest
  simp only [waitEvents, waitPrelude, pollEvents, List.append_assoc, List.cons_append,
    List.nil_append, callsAt_direct]
  have e : ∀ es : List Event, callsAt 1 2 (Event.sdaIn :: Event.sda true :: Event.delayUs 1
      :: Event.scl true :: Event.delayUs 1 :: es) = callsAt 1 2 es := fun _ => rfl
  rw [e, plain_replicate p.highs true 1 2]
  cases p.ok <;> rfl

theorem oneCall_recv (bits : List Bool) (ack : Nat) :
    OneCall (Prim.recv (ack % 256)) (recvEvents bits ack) := by
  intro rest
  simp only [recvEvents, List.append_assoc, List.cons_append, List.nil_append,
    callsAt_direct]
  have e : ∀ es : List Event, callsAt 1 2 (Event.sdaIn :: es) = callsAt 1 2 es := fun _ => rfl
  rw [e, plain_recvBits bits 1 2]
  split <;> rfl

theorem primitivesOf_readEvents (ee a : Nat) (q : Nat → Poll) (bits : List Bool) :
    primitivesOf (readEvents ee a q bits)
      = [Prim.start] ++
        (if ee > AT24C16 then
          [Prim.send 0xA0, Prim.waitAck, Prim.send ((a >>> 8) % 256), Prim.waitAck]
         else [Prim.send ((0xA0 + ((a / 256) <<< 1)) % 256)]) ++
        [Prim.waitAck, Prim.send (a % 256), Prim.waitAck, Prim.start, Prim.send 0xA1,
         Prim.waitAck, Prim.recv 0, Prim.stop] := by
  have hend : callsAt 1 1 ([Event.ret (Prim.readOne a)] ++ []) = [] := rfl
  have h256 : a % 256 % 256 = a % 256 := Nat.mod_mod _ _
  by_cases h : ee > AT24C16
  · simp only [primitivesOf, readEvents, readHead, h, if_true, List.append_assoc, List.cons_append, List.nil_append]
    rw [callsAt_enter]
    rw [oneCall_start, oneCall_send, oneCall_wait, oneCall_send, oneCall_wait, oneCall_wait,
      oneCall_send, oneCall_wait, oneCall_start, oneCall_send, oneCall_wait, oneCall_recv,
      ← List.append_nil [Event.ret (Prim.readOne a)], oneCall_stop, hend, h256]
  · simp only [primitivesOf, readEvents, readHead, h, if_false, List.append_assoc, List.cons_append, List.nil_append]
    rw [callsAt_enter]
    rw [oneCall_start, oneCall_send, oneCall_wait,
      oneCall_send, oneCall_wait, oneCall_start, oneCall_send, oneCall_wait, oneCall_recv,
      ← List.append_nil [Event.ret (Prim.readOne a)], oneCall_stop, hend, h256]

theorem primitivesOf_writeEvents (ee a d : Nat) (q : Nat → Poll) :
    primitivesOf (writeEvents ee a d q)
      = [Prim.start] ++
        (if ee > AT24C16 then
          [Prim.send 0xA0, Prim.waitAck, Prim.send ((a >>> 8) % 256)]
         else [Prim.send ((0xA0 + ((a / 256) <<< 1)) % 256)]) ++
        [Prim.waitAck, Prim.send (a % 256), Prim.waitAck, Prim.send (d % 256), Prim.waitAck,
         Prim.stop] := by
  have hend : callsAt 1 1 ([Event.delayMs 10, Event.ret (Prim.writeOne a d)] ++ []) = [] := rfl
  have h256 : a % 256 % 256 = a % 256 := Nat.mod_mod _ _
  by_cases h : ee > AT24C16
  · simp only [primitivesOf, writeEvents, writeHead, h, if_true, List.append_assoc, List.cons_append, List.nil_append]
    rw [callsAt_enter]
    rw [oneCall_start, oneCall_send, oneCall_wait, oneCall_send, oneCall_wait,
      oneCall_send, oneCall_wait, oneCall_send, oneCall_wait,
      ← List.append_nil [Event.delayMs 10, Event.ret (Prim.writeOne a d)], oneCall_stop, hend,
      h256]
  · simp only [primitivesOf, writeEvents, writeHead, h, if_false, List.append_assoc, List.cons_append, List.nil_append]
    rw [callsAt_enter]
    rw [oneCall_start, oneCall_send, oneCall_wait,
      oneCall_send, oneCall_wait, oneCall_send, oneCall_wait,
      ← List.append_nil [Event.delayMs 10, Event.ret (Prim.writeOne a d)], oneCall_stop, hend,
      h256]

theorem primitivesOf_read (sl : Slave σ) (ee a : Nat) (w : World σ) :
    primitivesOf (since w (AT24CXX_ReadOneByte sl ee a w).2.trace)
      = [Prim.start] ++
        (if ee > AT24C16 then
          [Prim.send 0xA0, Prim.waitAck, Prim.send ((a % 65536) >>> 8 % 256), Prim.waitAck]
         else [Prim.send ((0xA0 + ((a % 65536 / 256) <<< 1)) % 256)]) ++
        [Prim.waitAck, Prim.send (a % 65536 % 256), Prim.waitAck, Prim.start, Prim.send 0xA1,
         Prim.waitAck, Prim.recv 0, Prim.stop] := by
  obtain ⟨q, bits, -, -, -, hr⟩ := read_shape sl ee a w
  rw [hr, since_run, primitivesOf_readEvents]

theorem primitivesOf_write (sl : Slave σ) (ee a d : Nat) (w : World σ) :
    primitivesOf (since w (AT24CXX_WriteOneByte sl ee a d w).trace)
      = [Prim.start] ++
        (if ee > AT24C16 then
          [Prim.send 0xA0, Prim.waitAck, Prim.send ((a % 65536) >>> 8 % 256)]
         else [Prim.send ((0xA0 + ((a % 65536 / 256) <<< 1)) % 256)]) ++
        [Prim.waitAck, Prim.send (a % 65536 % 256), Prim.waitAck, Prim.send (d % 256),
         Prim.waitAck, Prim.stop] := by
  obtain ⟨q, -, hw⟩ := write_shape sl ee a d w
  rw [hw, since_run, primitivesOf_writeEvents, Nat.mod_mod]

/-! ## The simulated EEPROM with two-byte addressing -/

theorem waitAck_of_high (sl : Slave σ) (w : World σ)
    (h : ∀ i, i ≤ 250 → sl.level (afterHighs sl i (run sl waitPrelude w)).slave = true) :
    C04_IIC_Wait_Ack sl w = (1, run sl (waitEvents timedOut) w) := by
  obtain ⟨p, hp, h1, h2⟩ := waitAck_shape sl w
  obtain ⟨n, ok⟩ := p
  cases ok with
  | true =>
    simp only [if_true] at h2
    have := h n h2.1
    rw [h2.2] at this
    exact absurd this (by decide)
  | false =>
    simp only [Bool.false_eq_true, if_false] at h2
    subst h2
    exact hp

theorem run_reads_at24 (ee n : Nat) (b : Bool) (w : World Eeprom) :
    run (at24 ee) (List.replicate n (Event.readSda b)) w
      = { w with trace := w.trace ++ List.replicate n (Event.readSda b) } := by
  induction n generalizing w with
  | zero => simp [run]
  | succ n ih =>
    rw [List.replicate_succ, run_cons, ih]
    simp [applyEvent, emit, at24, Eeprom.react]

theorem afterHighs_at24 (ee i : Nat) (w : World Eeprom) :
    (afterHighs (at24 ee) i w).slave = w.slave := by
  rw [afterHighs, run_reads_at24]

theorem run_wait_released (ee n : Nat) (s : Bool) (dir mdir : Dir) (mreg : Bool) (m : Mode)
    (hm : m = Mode.addrLo ∨ m = Mode.idle)
    (tr : List Event) (hi ptr : Nat) (mem : Nat → Nat) :
    run (at24 ee)
        (waitPrelude ++ (List.replicate n (Event.readSda true) ++ stopEvents)
          ++ [Event.ret Prim.waitAck])
        ⟨false, s, dir, tr, ⟨false, mdir, mreg, m, 0, false, 0, true, hi, ptr, mem⟩⟩ =
      settled (tr ++ (waitPrelude ++ (List.replicate n (Event.readSda true) ++ stopEvents)
        ++ [Event.ret Prim.waitAck])) hi ptr mem := by
  simp only [run_append, run_reads_at24]
  rcases hm with rfl | rfl <;>
    simp [run, applyEvent, waitPrelude, stopEvents, mark, emit, C04_SDA_IN, C04_SDA_OUT,
      C04_IIC_SDA, C04_IIC_SCL, delay_us, at24, Eeprom.react, Eeprom.onData, Eeprom.line,
      Eeprom.masterLine, Eeprom.onRise, Eeprom.onFall, settled]

theorem waitAck_released (ee : Nat) (s : Bool) (dir mdir : Dir) (mreg : Bool) (m : Mode)
    (hm : m = Mode.addrLo ∨ m = Mode.idle)
    (tr : List Event) (hi ptr : Nat) (mem : Nat → Nat) :
    C04_IIC_Wait_Ack (at24 ee)
        ⟨false, s, dir, tr, ⟨false, mdir, mreg, m, 0, false, 0, true, hi, ptr, mem⟩⟩ =
      (1, settled (tr ++ waitEvents timedOut) hi ptr mem) := by
  rw [waitAck_of_high]
  · have h := run_wait_released ee 251 s dir mdir mreg m hm tr hi ptr mem
    simp only [waitEvents, pollEvents, timedOut, Bool.false_eq_true, if_false]
    rw [h]
  · intro i _
    rw [afterHighs_at24]
    rcases hm with rfl | rfl <;>
      simp [run, applyEvent, waitPrelude, mark, emit, C04_SDA_IN,
        C04_IIC_SDA, C04_IIC_SCL, delay_us, at24, Eeprom.react, Eeprom.onData, Eeprom.line,
        Eeprom.masterLine, Eeprom.onRise, Eeprom.onFall]

set_option maxRecDepth 100000 in
theorem send_idle (ee b : Nat) (hb : b < 256) (tr : List Event) (hi ptr : Nat)
    (mem : Nat → Nat) :
    C04_IIC_Send_Byte (at24 ee) b (settled tr hi ptr mem) =
      ⟨false, b % 2 == 1, Dir.output, tr ++ sendEvents b,
       ⟨false, Dir.output, b % 2 == 1, Mode.idle, 0, false, 0, true, hi, ptr, mem⟩⟩ := by
  simp [settled, C04_IIC_Send_Byte, sendLoop, mark, emit, C04_SDA_OUT, C04_IIC_SDA,
    C04_IIC_SCL, delay_us, at24, Eeprom.react, Eeprom.onData, Eeprom.line, Eeprom.masterLine,
    Eeprom.onRise, Eeprom.onFall, sendEvents, sendBits]
  revert b; decide

theorem twoByte_facts (ee a : Nat) (hee2 : ee ≤ AT24C256) (ha : a ≤ ee) :
    a % 65536 = a ∧ a >>> 8 < 256 ∧ a >>> 8 * 256 + a % 256 = a := by
  have h16 : AT24C256 = 32767 := rfl
  rw [Nat.shiftRight_eq_div_pow]
  omega

theorem handle_dev_two (ee : Nat) (hee : ee > AT24C16) (b : Nat)
    (hb : b = 0xA0 ∨ b = 0xA1) (r : Bool) (hi ptr : Nat) (mem : Nat → Nat) :
    Eeprom.handleByte ee ⟨false, Dir.output, r, Mode.dev, 8, false, b, true, hi, ptr, mem⟩
      = ⟨false, Dir.output, r, if b = 0xA0 then Mode.addrHi else Mode.tx, 8, true, b, false,
          hi, ptr, mem⟩ := by
  rcases hb with rfl | rfl <;> simp [Eeprom.handleByte, Eeprom.acknowledge, hee]

theorem write_at24_two (ee a v : Nat) (hee : ee > AT24C16) (hee2 : ee ≤ AT24C256) (ha : a ≤ ee)
    (tr : List Event) (hi ptr : Nat) (mem : Nat → Nat) :
    AT24CXX_WriteOneByte (at24 ee) ee a v (settled tr hi ptr mem) =
      settled (tr ++ writeEvents ee a (v % 256) (fun _ => acked)) (a >>> 8)
        ((a + 1) % (ee + 1)) (Function.update mem a (v % 256)) := by
  obtain ⟨h1, h2, h3⟩ := twoByte_facts ee a hee2 ha
  have hv : v % 256 < 256 := Nat.mod_lt _ (by decide)
  have hlo : a % 256 < 256 := Nat.mod_lt _ (by decide)
  unfold AT24CXX_WriteOneByte
  simp only [h1, hee, if_true]
  have hmark : mark (Event.call (Prim.writeOne a (v % 256))) (settled tr hi ptr mem)
      = settled (tr ++ [Event.call (Prim.writeOne a (v % 256))]) hi ptr mem := rfl
  rw [hmark, start_settled, send_rx ee 0xA0 (by decide) _ _ _ _ _ (Or.inl rfl),
    handle_dev_two ee hee 0xA0 (Or.inl rfl)]
  simp only [if_true]
  rw [waitAck_acking ee _ _ _ _ _ (by decide)]
  simp only []
  rw [send_rx ee _ h2 _ _ _ _ _ (Or.inr (Or.inl rfl))]
  simp only [Eeprom.handleByte, Eeprom.acknowledge]
  rw [waitAck_acking ee _ _ _ _ _ (by decide)]
  simp only []
  rw [send_rx ee _ hlo _ _ _ _ _ (Or.inr (Or.inr (Or.inl rfl)))]
  simp only [Eeprom.handleByte, Eeprom.acknowledge, h3, Nat.mod_eq_of_lt (Nat.lt_succ_of_le ha)]
  rw [waitAck_acking ee _ _ _ _ _ (by decide)]
  simp only []
  rw [send_rx ee _ hv _ _ _ _ _ (Or.inr (Or.inr (Or.inr rfl)))]
  simp only [Eeprom.handleByte, Eeprom.acknowledge]
  rw [waitAck_acking ee _ _ _ _ _ (by decide)]
  simp only []
  rw [stop_after_data]
  simp [settled, delay_ms, mark, emit, at24, Eeprom.react, writeEvents, writeHead, hee]

theorem read_at24_two (ee a : Nat) (hee : ee > AT24C16) (hee2 : ee ≤ AT24C256) (ha : a ≤ ee)
    (tr : List Event) (hi ptr : Nat) (mem : Nat → Nat) :
    AT24CXX_ReadOneByte (at24 ee) ee a (settled tr hi ptr mem) =
      (mem ptr % 256,
       settled (tr ++ readEvents ee a
          (fun i => if i = 2 ∨ i = 3 then timedOut else acked) (bitsOf (mem ptr)))
         (a >>> 8) ((ptr + 1) % (ee + 1)) mem) := by
  obtain ⟨h1, h2, h3⟩ := twoByte_facts ee a hee2 ha
  have hlo : a % 256 < 256 := Nat.mod_lt _ (by decide)
  unfold AT24CXX_ReadOneByte
  simp only [h1, hee, if_true]
  have hmark : mark (Event.call (Prim.readOne a)) (settled tr hi ptr mem)
      = settled (tr ++ [Event.call (Prim.readOne a)]) hi ptr mem := rfl
  rw [hmark, start_settled, send_rx ee 0xA0 (by decide) _ _ _ _ _ (Or.inl rfl),
    handle_dev_two ee hee 0xA0 (Or.inl rfl)]
  simp only [if_true]
  rw [waitAck_acking ee _ _ _ _ _ (by decide)]
  simp only []
  rw [send_rx ee _ h2 _ _ _ _ _ (Or.inr (Or.inl rfl))]
  simp only [Eeprom.handleByte, Eeprom.acknowledge]
  rw [waitAck_acking ee _ _ _ _ _ (by decide)]
  simp only []
  rw [waitAck_released ee _ _ _ _ _ (Or.inl rfl)]
  simp only []
  rw [send_idle ee _ hlo, waitAck_released ee _ _ _ _ _ (Or.inr rfl)]
  simp only []
  rw [start_settled, send_rx ee 0xA1 (by decide) _ _ _ _ _ (Or.inl rfl),
    handle_dev_two ee hee 0xA1 (Or.inr rfl)]
  simp only [show ¬ ((0xA1 : Nat) = 0xA0) by decide, if_false]
  rw [waitAck_acking_tx]
  simp only []
  rw [readByte_tx]
  simp only []
  rw [stop_after_read]
  simp [settled, mark, readEvents, readHead, hee]

theorem round_trip_two_byte (ee a v : Nat) (hee : ee > AT24C16) (hee2 : ee ≤ AT24C256)
    (ha : a + 1 ≤ ee) (tr : List Event) (hi ptr : Nat) (mem : Nat → Nat) :
    (AT24CXX_ReadOneByte (at24 ee) ee a
      (AT24CXX_WriteOneByte (at24 ee) ee a v (settled tr hi ptr mem))).1
      = mem (a + 1) % 256 := by
  rw [write_at24_two ee a v hee hee2 (by omega), read_at24_two ee a hee hee2 (by omega)]
  simp only []
  have h1 : (a + 1) % (ee + 1) = a + 1 := Nat.mod_eq_of_lt (by omega)
  have h2 : a + 1 ≠ a := by omega
  rw [h1, Function.update_noteq h2]

/-- C14 (the code at the failing configuration): with `EE_TYPE = AT24C32` (two-byte
addressing), for every slave, world and `u16` address, `AT24CXX_ReadOneByte` calls
`C04_IIC_Wait_Ack` twice in a row after sending the high address byte, so its primitive
sequence is not the specified one; with the shipped `EE_TYPE = AT24C02` (one-byte addressing,
in-range address) the sequence is the specified one.  On the fault-free simulated device
with two-byte addressing the second wait times out and the read no longer returns the
addressed cell: after writing 0x5A to cell 0 of a blank device it returns 0xFF. -/
theorem read_sequence_two_byte_extra_wait (sl : Slave σ) (addr : Nat) (w : World σ) :
    primitivesOf (since w (AT24CXX_ReadOneByte sl AT24C32 (addr % 65536) w).2.trace)
        = [Prim.start, Prim.send 0xA0, Prim.waitAck, Prim.send ((addr % 65536) >>> 8),
           Prim.waitAck, Prim.waitAck, Prim.send (addr % 65536 % 256), Prim.waitAck,
           Prim.start, Prim.send 0xA1, Prim.waitAck, Prim.recv 0, Prim.stop] ∧
      primitivesOf (since w (AT24CXX_ReadOneByte sl AT24C32 (addr % 65536) w).2.trace)
        ≠ readSequenceSpec AT24C32 (addr % 65536) ∧
      primitivesOf (since w (AT24CXX_ReadOneByte sl EE_TYPE (addr % 256) w).2.trace)
        = readSequenceSpec EE_TYPE (addr % 256) ∧
      (AT24CXX_ReadOneByte (at24 AT24C32) AT24C32 0
        (AT24CXX_WriteOneByte (at24 AT24C32) AT24C32 0 0x5A
          (idleWorld (Eeprom.idle (fun _ => 0xFF))))).1 = 0xFF := by
  have hlt : addr % 65536 < 65536 := Nat.mod_lt _ (by decide)
  have hhi : ((addr % 65536) >>> 8) % 256 = (addr % 65536) >>> 8 := by
    apply Nat.mod_eq_of_lt
    rw [Nat.shiftRight_eq_div_pow]
    omega
  have h1 : primitivesOf (since w (AT24CXX_ReadOneByte sl AT24C32 (addr % 65536) w).2.trace)
      = [Prim.start, Prim.send 0xA0, Prim.waitAck, Prim.send ((addr % 65536) >>> 8),
         Prim.waitAck, Prim.waitAck, Prim.send (addr % 65536 % 256), Prim.waitAck,
         Prim.start, Prim.send 0xA1, Prim.waitAck, Prim.recv 0, Prim.stop] := by
    rw [primitivesOf_read, Nat.mod_mod, hhi]
    rfl
  refine ⟨h1, ?_, ?_,
    round_trip_two_byte AT24C32 0 0x5A (by decide) (by decide) (by decide) [] 0 0
      (fun _ => 0xFF)⟩
  · rw [h1]
    intro h
    have := congrArg List.length h
    simp [readSequenceSpec, AT24C32, AT24C16] at this
  · have hlo : addr % 256 < 256 := Nat.mod_lt _ (by decide)
    have e1 : addr % 256 % 65536 = addr % 256 := Nat.mod_eq_of_lt (by omega)
    have e2 : addr % 256 / 256 = 0 := by omega
    rw [primitivesOf_read, e1, e2]
    simp [readSequenceSpec, EE_TYPE, AT24C02, AT24C16]

/-- C15 (the code at the failing configuration): with `EE_TYPE = AT24C32`, for every slave,
world, `u16` address and value, the address phase of `AT24CXX_WriteOneByte` (its primitives
before the data byte is sent) has one acknowledge wait after the high address byte, the
address phase of `AT24CXX_ReadOneByte` (its primitives before the repeated Start) has two,
so the two differ; with the shipped `EE_TYPE = AT24C02` they are identical. -/
theorem address_phase_two_byte_differs (sl : Slave σ) (addr v : Nat) (w : World σ) :
    beforeLastSend
        (primitivesOf (since w (AT24CXX_WriteOneByte sl AT24C32 (addr % 65536) v w).trace))
        = [Prim.start, Prim.send 0xA0, Prim.waitAck, Prim.send ((addr % 65536) >>> 8),
           Prim.waitAck, Prim.send (addr % 65536 % 256), Prim.waitAck] ∧
      beforeSecondStart
        (primitivesOf (since w (AT24CXX_ReadOneByte sl AT24C32 (addr % 65536) w).2.trace))
        = [Prim.start, Prim.send 0xA0, Prim.waitAck, Prim.send ((addr % 65536) >>> 8),
           Prim.waitAck, Prim.waitAck, Prim.send (addr % 65536 % 256), Prim.waitAck] ∧
      beforeLastSend
        (primitivesOf (since w (AT24CXX_WriteOneByte sl AT24C32 (addr % 65536) v w).trace))
        ≠ beforeSecondStart
          (primitivesOf (since w (AT24CXX_ReadOneByte sl AT24C32 (addr % 65536) w).2.trace)) ∧
      beforeLastSend
        (primitivesOf (since w (AT24CXX_WriteOneByte sl EE_TYPE (addr % 65536) v w).trace))
        = beforeSecondStart
          (primitivesOf (since w (AT24CXX_ReadOneByte sl EE_TYPE (addr % 65536) w).2.trace)) := by
  have hw : beforeLastSend
      (primitivesOf (since w (AT24CXX_WriteOneByte sl AT24C32 (addr % 65536) v w).trace))
      = [Prim.start, Prim.send 0xA0, Prim.waitAck, Prim.send ((addr % 65536) >>> 8 % 256),
         Prim.waitAck, Prim.send (addr % 65536 % 256), Prim.waitAck] := by
    rw [primitivesOf_write, Nat.mod_mod]
    rfl
  have hr : beforeSecondStart
      (primitivesOf (since w (AT24CXX_ReadOneByte sl AT24C32 (addr % 65536) w).2.trace))
      = [Prim.start, Prim.send 0xA0, Prim.waitAck, Prim.send ((addr % 65536) >>> 8 % 256),
         Prim.waitAck, Prim.waitAck, Prim.send (addr % 65536 % 256), Prim.waitAck] := by
    rw [primitivesOf_read, Nat.mod_mod]
    rfl
  have hlt : addr % 65536 < 65536 := Nat.mod_lt _ (by decide)
  have hhi : ((addr % 65536) >>> 8) % 256 = (addr % 65536) >>> 8 := by
    apply Nat.mod_eq_of_lt
    rw [Nat.shiftRight_eq_div_pow]
    omega
  rw [hhi] at hw hr
  refine ⟨hw, hr, ?_, ?_⟩
  · rw [hw, hr]
    intro h
    have := congrArg List.length h
    simp at this
  · rw [primitivesOf_write, primitivesOf_read]
    rfl

/-! ## Bit order of the byte primitives (C16, C17) -/

set_option maxRecDepth 100000 in
theorem sendBits_msb_first :
    ∀ v, v < 256 → sendBits 8 v
      = (List.range 8).flatMap (fun k => sendPulse (v.testBit (7 - k))) := by
  decide

/-- C16: for every byte `v`, slave and world, `C04_IIC_Send_Byte(v)` records: Data to output,
Clock low, then for `k = 0 .. 7` one pulse that sets Data to bit `7 - k` of `v` while Clock is
low and then drives Clock high and low again; so the Clock rises exactly 8 times and ends
low (8 pulses low-high-low), the most significant bit goes first, and every write of Data
happens while Clock is low. -/
theorem send_byte_msb_first (sl : Slave σ) (v : Nat) (w : World σ) (hv : v < 256) :
    since w (C04_IIC_Send_Byte sl v w).trace
        = [Event.call (Prim.send v), Event.sdaOut, Event.scl false]
          ++ (List.range 8).flatMap (fun k => sendPulse (v.testBit (7 - k)))
          ++ [Event.ret (Prim.send v)] ∧
      clockRises w.scl (since w (C04_IIC_Send_Byte sl v w).trace) = 8 ∧
      (C04_IIC_Send_Byte sl v w).scl = false ∧
      dataWritesWhileClockLow w.scl (since w (C04_IIC_Send_Byte sl v w).trace) = true := by
  have h1 : since w (C04_IIC_Send_Byte sl v w).trace
      = [Event.call (Prim.send v), Event.sdaOut, Event.scl false]
          ++ (List.range 8).flatMap (fun k => sendPulse (v.testBit (7 - k)))
          ++ [Event.ret (Prim.send v)] := by
    rw [send_eq, since_run, sendEvents, Nat.mod_eq_of_lt hv, sendBits_msb_first v hv]
  refine ⟨h1, ?_, ?_, ?_⟩
  · rw [h1]
    cases w.scl <;> simp [List.range_succ, List.flatMap, sendPulse, clockRises]
  · rw [send_eq, sendEvents, run_append]
    rfl
  · rw [h1]
    simp [List.range_succ, List.flatMap, sendPulse, dataWritesWhileClockLow]

/-- Witness for C16: the byte 0xA5 sent to a slave that never answers. -/
theorem send_byte_msb_first_witness :
    0xA5 < 256 ∧
      since (idleWorld ()) (C04_IIC_Send_Byte absent 0xA5 (idleWorld ())).trace
        = [Event.call (Prim.send 0xA5), Event.sdaOut, Event.scl false]
          ++ (sendPulse true ++ sendPulse false ++ sendPulse true ++ sendPulse false
            ++ sendPulse false ++ sendPulse true ++ sendPulse false ++ sendPulse true)
          ++ [Event.ret (Prim.send 0xA5)] :=
  ⟨by decide,
   (send_byte_msb_first absent 0xA5 (idleWorld ()) (by decide)).1.trans (by decide)⟩

set_option maxRecDepth 100000 in
theorem assemble_bits (b0 b1 b2 b3 b4 b5 b6 b7 : Bool) :
    assemble 0 [b0, b1, b2, b3, b4, b5, b6, b7] < 256 ∧
      ∀ k, k < 8 → (assemble 0 [b0, b1, b2, b3, b4, b5, b6, b7]).testBit (7 - k)
        = [b0, b1, b2, b3, b4, b5, b6, b7].getD k false := by
  revert b0 b1 b2 b3 b4 b5 b6 b7
  decide

theorem recvBits_flatMap (bits : List Bool) : recvBits bits = bits.flatMap recvPulse := by
  induction bits with
  | nil => rfl
  | cons b bs ih => rw [recvBits, ih]; rfl

theorem samples_recvBits (bits : List Bool) : samples (recvBits bits) = bits := by
  induction bits with
  | nil => rfl
  | cons b bs ih => rw [recvBits, samples_append, ih]; rfl

theorem samples_recvEvents (bits : List Bool) (ack : Nat) :
    samples (recvEvents bits ack) = bits := by
  unfold recvEvents
  simp only [samples_append, samples_recvBits]
  split <;> simp [samples, nackEvents, ackEvents]

/-- C17: for every slave, world and `u8` argument `ack`, with `bits` the eight levels that
`C04_IIC_Read_Byte(ack)` samples (one per Clock high phase, in order): the result is a byte
whose bit `7 - k` is the `k`-th level sampled, most significant bit first; and after the
eighth sample the function runs `C04_IIC_NAck` when `ack` is 0 and `C04_IIC_Ack` otherwise. -/
theorem read_byte_msb_first (sl : Slave σ) (ack : Nat) (w : World σ) (hack : ack < 256) :
    (samples (since w (C04_IIC_Read_Byte sl ack w).2.trace)).length = 8 ∧
      (C04_IIC_Read_Byte sl ack w).1 < 256 ∧
      (∀ k, k < 8 → (C04_IIC_Read_Byte sl ack w).1.testBit (7 - k)
        = (samples (since w (C04_IIC_Read_Byte sl ack w).2.trace)).getD k false) ∧
      since w (C04_IIC_Read_Byte sl ack w).2.trace
        = [Event.call (Prim.recv ack), Event.sdaIn]
          ++ (samples (since w (C04_IIC_Read_Byte sl ack w).2.trace)).flatMap recvPulse
          ++ (if ack = 0 then nackEvents else ackEvents)
          ++ [Event.ret (Prim.recv ack)] := by
  obtain ⟨bits, hl, he, -⟩ := readByte_shape sl ack w
  have hs : samples (since w (C04_IIC_Read_Byte sl ack w).2.trace) = bits := by
    rw [he, since_run, samples_recvEvents]
  rw [hs, he, since_run]
  have hbits : ∃ b0 b1 b2 b3 b4 b5 b6 b7, bits = [b0, b1, b2, b3, b4, b5, b6, b7] := by
    match bits, hl with
    | [b0, b1, b2, b3, b4, b5, b6, b7], _ => exact ⟨b0, b1, b2, b3, b4, b5, b6, b7, rfl⟩
  obtain ⟨b0, b1, b2, b3, b4, b5, b6, b7, rfl⟩ := hbits
  refine ⟨rfl, (assemble_bits b0 b1 b2 b3 b4 b5 b6 b7).1,
    (assemble_bits b0 b1 b2 b3 b4 b5 b6 b7).2, ?_⟩
  rw [recvEvents, Nat.mod_eq_of_lt hack, recvBits_flatMap]

/-- Witness for C17: the levels 1,0,1,0,0,1,0,1 give the byte 0xA5. -/
theorem read_byte_msb_first_witness :
    (0 : Nat) < 256 ∧
      (C04_IIC_Read_Byte scripted 0
        (idleWorld [true, false, true, false, false, true, false, true])).1 = 0xA5 ∧
      (C04_IIC_Read_Byte scripted 0
        (idleWorld [true, false, true, false, false, true, false, true])).1 < 256 :=
  ⟨by decide, by decide,
   (read_byte_msb_first scripted 0
      (idleWorld [true, false, true, false, false, true, false, true]) (by decide)).2.1⟩

/-! ## Direction of the Data pin (C18) -/

theorem dirScan_append (strict : Bool) (s : Option (Dir × Option Event)) (a b : List Event) :
    dirScan strict s (a ++ b) = dirScan strict (dirScan strict s a) b := by
  simp [dirScan, List.foldl_append]

theorem mannered_append {strict : Bool} {a b : List Event} (ha : Mannered strict a)
    (hb : Mannered strict b) : Mannered strict (a ++ b) := by
  intro d prev
  obtain ⟨d1, p1, h1⟩ := ha d prev
  obtain ⟨d2, p2, h2⟩ := hb d1 p1
  exact ⟨d2, p2, by rw [dirScan_append, h1, h2]⟩

theorem mannered_around {strict : Bool} {d : Dir} {pre body post : List Event}
    (hpre : ∀ d0 prev, ∃ prev2, dirScan strict (some (d0, prev)) pre = some (d, prev2))
    (hbody : ManneredIn strict d body) (hpost : Mannered strict post) :
    Mannered strict (pre ++ body ++ post) := by
  intro d0 prev
  obtain ⟨p1, h1⟩ := hpre d0 prev
  obtain ⟨p2, h2⟩ := hbody p1
  obtain ⟨d3, p3, h3⟩ := hpost d p2
  exact ⟨d3, p3, by rw [dirScan_append, dirScan_append, h1, h2, h3]⟩

theorem manneredIn_replicate (strict : Bool) (n : Nat) (b : Bool) :
    ManneredIn strict Dir.input (List.replicate n (Event.readSda b)) := by
  induction n with
  | zero => intro prev; exact ⟨prev, rfl⟩
  | succ n ih =>
    intro prev
    obtain ⟨p2, h2⟩ := ih (some (Event.readSda b))
    exact ⟨p2, by rw [List.replicate_succ]; exact h2⟩

theorem manneredIn_sendBits (strict : Bool) (n txd : Nat) :
    ManneredIn strict Dir.output (sendBits n txd) := by
  induction n generalizing txd with
  | zero => intro prev; exact ⟨prev, rfl⟩
  | succ n ih =>
    intro prev
    obtain ⟨p2, h2⟩ := ih ((txd <<< 1) % 256) (some (Event.delayUs 2))
    exact ⟨p2, by rw [sendBits, dirScan_append]; exact h2⟩

theorem manneredIn_recvBits (strict : Bool) (bits : List Bool) :
    ManneredIn strict Dir.input (recvBits bits) := by
  induction bits with
  | nil => intro prev; exact ⟨prev, rfl⟩
  | cons b bs ih =>
    intro prev
    obtain ⟨p2, h2⟩ := ih (some (Event.delayUs 1))
    exact ⟨p2, by rw [recvBits, dirScan_append]; exact h2⟩

theorem mannered_startEvents (strict : Bool) : Mannered strict startEvents :=
  fun _ _ => ⟨_, _, rfl⟩

theorem mannered_stopEvents (strict : Bool) : Mannered strict stopEvents :=
  fun _ _ => ⟨_, _, rfl⟩

theorem mannered_ackEvents (strict : Bool) : Mannered strict ackEvents :=
  fun _ _ => ⟨_, _, rfl⟩

theorem mannered_nackEvents (strict : Bool) : Mannered strict nackEvents :=
  fun _ _ => ⟨_, _, rfl⟩

theorem mannered_sendEvents (strict : Bool) (txd : Nat) : Mannered strict (sendEvents txd) := by
  unfold sendEvents
  exact mannered_around (fun _ _ => ⟨_, rfl⟩) (manneredIn_sendBits strict 8 _)
    (fun _ _ => ⟨_, _, rfl⟩)

theorem mannered_recvEvents (strict : Bool) (bits : List Bool) (ack : Nat) :
    Mannered strict (recvEvents bits ack) := by
  unfold recvEvents
  rw [List.append_assoc]
  refine mannered_around (fun _ _ => ⟨_, rfl⟩) (manneredIn_recvBits strict bits) ?_
  refine mannered_append ?_ (fun _ _ => ⟨_, _, rfl⟩)
  split
  · exact mannered_nackEvents strict
  · exact mannered_ackEvents strict

theorem manneredIn_append {strict : Bool} {d : Dir} {a b : List Event}
    (ha : ManneredIn strict d a) (hb : ManneredIn strict d b) : ManneredIn strict d (a ++ b) := by
  intro prev
  obtain ⟨p1, h1⟩ := ha prev
  obtain ⟨p2, h2⟩ := hb p1
  exact ⟨p2, by rw [dirScan_append, h1, h2]⟩

theorem mannered_waitEvents (p : Poll) : Mannered false (waitEvents p) := by
  unfold waitEvents pollEvents
  cases p.ok
  · rw [← List.append_assoc, List.append_assoc]
    refine mannered_around (fun _ _ => ⟨_, rfl⟩) (manneredIn_replicate false p.highs true) ?_
    exact mannered_append (mannered_stopEvents false) (fun _ _ => ⟨_, _, rfl⟩)
  · refine mannered_around (fun _ _ => ⟨_, rfl⟩) ?_ (fun _ _ => ⟨_, _, rfl⟩)
    exact manneredIn_append (manneredIn_replicate false p.highs true) (fun _ => ⟨_, rfl⟩)

theorem mannered_readEvents (ee a : Nat) (q : Nat → Poll) (bits : List Bool) :
    Mannered false (readEvents ee a q bits) := by
  have hhead : Mannered false (readHead ee a q) := by
    unfold readHead
    split
    · exact mannered_append (mannered_append (mannered_append (mannered_sendEvents _ _)
        (mannered_waitEvents _)) (mannered_sendEvents _ _)) (mannered_waitEvents _)
    · exact mannered_sendEvents _ _
  unfold readEvents
  exact mannered_append (mannered_append (mannered_append (mannered_append (mannered_append
    (mannered_append (mannered_append (mannered_append (mannered_append (mannered_append
    (mannered_append (fun _ _ => ⟨_, _, rfl⟩) (mannered_startEvents _)) hhead)
    (mannered_waitEvents _)) (mannered_sendEvents _ _)) (mannered_waitEvents _))
    (mannered_startEvents _)) (mannered_sendEvents _ _)) (mannered_waitEvents _))
    (mannered_recvEvents _ _ _)) (mannered_stopEvents _)) (fun _ _ => ⟨_, _, rfl⟩)

theorem mannered_writeEvents (ee a d : Nat) (q : Nat → Poll) :
    Mannered false (writeEvents ee a d q) := by
  have hhead : Mannered false (writeHead ee a q) := by
    unfold writeHead
    split
    · exact mannered_append (mannered_append (mannered_sendEvents _ _)
        (mannered_waitEvents _)) (mannered_sendEvents _ _)
    · exact mannered_sendEvents _ _
  unfold writeEvents
  exact mannered_append (mannered_append (mannered_append (mannered_append (mannered_append
    (mannered_append (mannered_append (mannered_append (mannered_append
    (fun _ _ => ⟨_, _, rfl⟩) (mannered_startEvents _)) hhead)
    (mannered_waitEvents _)) (mannered_sendEvents _ _)) (mannered_waitEvents _))
    (mannered_sendEvents _ _)) (mannered_waitEvents _)) (mannered_stopEvents _))
    (fun _ _ => ⟨_, _, rfl⟩)

theorem Follows.refl (w : World σ) : Follows w w :=
  ⟨[], by simp, fun d prev => ⟨d, prev, rfl⟩⟩

theorem Follows.trans {u v w : World σ} (h1 : Follows u v) (h2 : Follows v w) :
    Follows u w := by
  obtain ⟨e1, t1, m1⟩ := h1
  obtain ⟨e2, t2, m2⟩ := h2
  exact ⟨e1 ++ e2, by rw [t2, t1, List.append_assoc], mannered_append m1 m2⟩

theorem follows_read (sl : Slave σ) (ee a : Nat) (w : World σ) :
    Follows w (AT24CXX_ReadOneByte sl ee a w).2 := by
  obtain ⟨q, bits, -, -, -, hr⟩ := read_shape sl ee a w
  exact ⟨_, by rw [hr, run_trace], mannered_readEvents _ _ _ _⟩

theorem follows_write (sl : Slave σ) (ee a d : Nat) (w : World σ) :
    Follows w (AT24CXX_WriteOneByte sl ee a d w) := by
  obtain ⟨q, -, hw⟩ := write_shape sl ee a d w
  exact ⟨_, by rw [hw, run_trace], mannered_writeEvents _ _ _ _⟩

theorem follows_writeLenLoop (sl : Slave σ) (ee a d : Nat) :
    ∀ (n t : Nat) (w : World σ), Follows w (writeLenLoop sl ee a d n t w) := by
  intro n
  induction n with
  | zero => intro t w; exact Follows.refl w
  | succ n ih => intro t w; exact (follows_write sl ee _ _ w).trans (ih _ _)

theorem follows_readLenLoop (sl : Slave σ) (ee a l : Nat) :
    ∀ (n t temp : Nat) (w : World σ), Follows w (readLenLoop sl ee a l n t temp w).2 := by
  intro n
  induction n with
  | zero => intro t temp w; exact Follows.refl w
  | succ n ih => intro t temp w; exact (follows_read sl ee _ w).trans (ih _ _ _)

theorem follows_readLoop (sl : Slave σ) (ee : Nat) :
    ∀ (n a p : Nat) (buf : List Nat) (w : World σ),
      Follows w (readLoop sl ee n a p buf w).2 := by
  intro n
  induction n with
  | zero => intro a p buf w; exact Follows.refl w
  | succ n ih => intro a p buf w; exact (follows_read sl ee _ w).trans (ih _ _ _ _)

theorem follows_writeLoop (sl : Slave σ) (ee : Nat) :
    ∀ (n a p : Nat) (buf : List Nat) (w : World σ),
      Follows w (writeLoop sl ee n a p buf w) := by
  intro n
  induction n with
  | zero => intro a p buf w; exact Follows.refl w
  | succ n ih => intro a p buf w; exact (follows_write sl ee _ _ w).trans (ih _ _ _ _)

theorem follows_check (sl : Slave σ) (ee : Nat) (w : World σ) :
    Follows w (AT24CXX_Check sl ee w).2 := by
  have h1 := follows_read sl ee 255 w
  have h2 := h1.trans (follows_write sl ee 255 0x55 _)
  have h3 := h2.trans (follows_read sl ee 255 _)
  unfold AT24CXX_Check
  dsimp only
  split
  · exact h1
  · split
    · exact h3
    · exact h3

theorem follows_exec (sl : Slave σ) (ee : Nat) (o : Op) (w : World σ) :
    Follows w (o.exec sl ee w) := by
  cases o with
  | readOne a => exact follows_read sl ee a w
  | writeOne a d => exact follows_write sl ee a d w
  | readLen a l => exact follows_readLenLoop sl ee _ _ _ _ _ w
  | writeLen a d l => exact follows_writeLenLoop sl ee _ _ _ _ w
  | read a buf n => exact follows_readLoop sl ee _ _ _ _ w
  | write a buf n => exact follows_writeLoop sl ee _ _ _ _ w
  | check => exact follows_check sl ee w

theorem follows_execAll (sl : Slave σ) (ee : Nat) (ops : List Op) :
    ∀ w : World σ, Follows w (execAll sl ee ops w) := by
  induction ops with
  | nil => intro w; exact Follows.refl w
  | cons o os ih => intro w; exact (follows_exec sl ee o w).trans (ih _)

theorem follows_prim (sl : Slave σ) (ee : Nat) (p : Prim) (w : World σ) :
    Follows w (p.exec sl ee w) := by
  cases p with
  | start => exact ⟨_, by rw [Prim.exec, start_eq, run_trace], mannered_startEvents _⟩
  | stop => exact ⟨_, by rw [Prim.exec, stop_eq, run_trace], mannered_stopEvents _⟩
  | waitAck =>
    obtain ⟨q, -, hq⟩ := waitAck_snd sl w
    exact ⟨_, by rw [Prim.exec, hq, run_trace], mannered_waitEvents _⟩
  | ack => exact ⟨_, by rw [Prim.exec, ack_eq, run_trace], mannered_ackEvents _⟩
  | nack => exact ⟨_, by rw [Prim.exec, nack_eq, run_trace], mannered_nackEvents _⟩
  | send t => exact ⟨_, by rw [Prim.exec, send_eq, run_trace], mannered_sendEvents _ _⟩
  | recv a =>
    obtain ⟨bits, -, -, -, hb⟩ := readByte_pair sl a w
    exact ⟨_, by rw [Prim.exec, hb, run_trace], mannered_recvEvents _ _ _⟩
  | readOne a => exact follows_read sl ee a w
  | writeOne a d => exact follows_write sl ee a d w

theorem strict_prim (sl : Slave σ) (ee : Nat) (p : Prim) (hp : p.noWait = true) (w : World σ) :
    Mannered true (since w (p.exec sl ee w).trace) := by
  cases p with
  | start => rw [Prim.exec, start_eq, since_run]; exact mannered_startEvents _
  | stop => rw [Prim.exec, stop_eq, since_run]; exact mannered_stopEvents _
  | ack => rw [Prim.exec, ack_eq, since_run]; exact mannered_ackEvents _
  | nack => rw [Prim.exec, nack_eq, since_run]; exact mannered_nackEvents _
  | send t => rw [Prim.exec, send_eq, since_run]; exact mannered_sendEvents _ _
  | recv a =>
    obtain ⟨bits, -, -, -, hb⟩ := readByte_pair sl a w
    rw [Prim.exec, hb, since_run]; exact mannered_recvEvents _ _ _
  | waitAck => simp [Prim.noWait] at hp
  | readOne a => simp [Prim.noWait] at hp
  | writeOne a d => simp [Prim.noWait] at hp

theorem since_of_follows {w v : World σ} (h : Follows w v) :
    Mannered false (since w v.trace) := by
  obtain ⟨evs, ht, hm⟩ := h
  rw [since, ht, List.drop_left]
  exact hm

/-- C18 (as stated, refuted): `C04_IIC_Wait_Ack` switches Data to input and then writes the
Data latch (`C04_IIC_SDA=1`), so its trace breaks the strict direction rule, already on the
idle bus with a slave that never answers. -/
theorem direction_rule_counterexample :
    dirScan true (some (Dir.output, none)) (C04_IIC_Wait_Ack absent (idleWorld ())).2.trace
      = none := by
  obtain ⟨p, hp, -⟩ := waitAck_shape absent (idleWorld ())
  rw [hp, run_trace]
  show dirScan true (some (Dir.output, none)) ([] ++ waitEvents p) = none
  rw [List.nil_append, waitEvents, List.append_assoc, dirScan_append]
  have h1 : dirScan true (some (Dir.output, none)) waitPrelude = none := rfl
  rw [h1]
  generalize pollEvents p.highs p.ok ++ [Event.ret Prim.waitAck] = l
  induction l with
  | nil => rfl
  | cons e es ih => exact ih

/-- C18 (amended): for every slave, every bus primitive and transaction run from any world,
and every sequence of public operations from the idle bus: each sample of Data happens in
input mode, and each write of the Data latch happens in output mode, except the write of
level high that directly follows `C04_SDA_IN()` (the release of Data at the start of
`C04_IIC_Wait_Ack`); the primitives that do not wait for an acknowledge obey the rule without
that exception. -/
theorem direction_rule_relaxed (sl : Slave σ) (ee : Nat) :
    (∀ (p : Prim) (w : World σ),
      (dirScan false (some (w.dir, none)) (since w (p.exec sl ee w).trace)).isSome = true) ∧
    (∀ (ops : List Op) (s : σ),
      (dirScan false (some (Dir.output, none))
        (execAll sl ee ops (idleWorld s)).trace).isSome = true) ∧
    (∀ (p : Prim) (w : World σ), p.noWait = true →
      (dirScan true (some (w.dir, none)) (since w (p.exec sl ee w).trace)).isSome = true) := by
  refine ⟨?_, ?_, ?_⟩
  · intro p w
    obtain ⟨d2, p2, h⟩ := since_of_follows (follows_prim sl ee p w) w.dir none
    rw [h]; rfl
  · intro ops s
    obtain ⟨d2, p2, h⟩ := since_of_follows (follows_execAll sl ee ops (idleWorld s))
      Dir.output none
    have e : since (idleWorld s) (execAll sl ee ops (idleWorld s)).trace
        = (execAll sl ee ops (idleWorld s)).trace := rfl
    rw [e] at h
    rw [h]; rfl
  · intro p w hp
    obtain ⟨d2, p2, h⟩ := strict_prim sl ee p hp w w.dir none
    rw [h]; rfl

/-- Witness for C18 (amended): sending a byte obeys the strict rule. -/
theorem direction_rule_relaxed_witness :
    (dirScan true (some (Dir.output, none))
      (since (idleWorld ()) ((Prim.send 0x5A).exec absent EE_TYPE (idleWorld ())).trace)).isSome
      = true :=
  (direction_rule_relaxed absent EE_TYPE).2.2 (Prim.send 0x5A) (idleWorld ()) rfl

/-! ## Data edges while Clock is high (C20) -/

theorem frameScan_append (s : Option (Pins × List Prim)) (a b : List Event) :
    frameScan s (a ++ b) = frameScan (frameScan s a) b := by
  simp [frameScan, List.foldl_append]

theorem tame_append {a b : List Event} (ha : Tame a) (hb : Tame b) : Tame (a ++ b) := by
  intro p st hp
  obtain ⟨p1, hp1, h1⟩ := ha p st hp
  obtain ⟨p2, hp2, h2⟩ := hb p1 st hp1
  exact ⟨p2, hp2, by rw [frameScan_append, h1, h2]⟩

theorem steady_cases {p : Pins} (h : p.Steady) :
    (∃ s d, p = ⟨false, s, d⟩) ∨ (∃ d, p = ⟨true, true, d⟩) := by
  obtain ⟨c, s, d⟩ := p
  rcases h with h | h
  · simp only at h; subst h; exact Or.inl ⟨s, d, rfl⟩
  · simp only at h; subst h
    cases c
    · exact Or.inl ⟨true, d, rfl⟩
    · exact Or.inr ⟨d, rfl⟩

theorem tame_startEvents : Tame startEvents := by
  intro p st hp
  rcases steady_cases hp with ⟨s, d, rfl⟩ | ⟨d, rfl⟩
  · cases s <;> cases d <;> exact ⟨⟨false, false, Dir.output⟩, Or.inl rfl, rfl⟩
  · cases d <;> exact ⟨⟨false, false, Dir.output⟩, Or.inl rfl, rfl⟩

theorem tame_stopEvents : Tame stopEvents := by
  intro p st hp
  rcases steady_cases hp with ⟨s, d, rfl⟩ | ⟨d, rfl⟩
  · cases s <;> cases d <;> exact ⟨⟨true, true, Dir.output⟩, Or.inr rfl, rfl⟩
  · cases d <;> exact ⟨⟨true, true, Dir.output⟩, Or.inr rfl, rfl⟩

theorem frame_sendBits (n : Nat) :
    ∀ (txd : Nat) (s : Bool) (st : List Prim), ∃ s2,
      frameScan (some (⟨false, s, Dir.output⟩, st)) (sendBits n txd)
        = some (⟨false, s2, Dir.output⟩, st) := by
  induction n with
  | zero => intro txd s st; exact ⟨s, rfl⟩
  | succ n ih =>
    intro txd s st
    obtain ⟨s2, h2⟩ := ih ((txd <<< 1) % 256) (((txd &&& 0x80) >>> 7) != 0) st
    exact ⟨s2, by rw [sendBits, frameScan_append]; exact h2⟩

theorem tame_sendEvents (txd : Nat) : Tame (sendEvents txd) := by
  intro p st hp
  have hpre : ∃ s, frameScan (some (p, st))
      [Event.call (Prim.send (txd % 256)), Event.sdaOut, Event.scl false]
      = some (⟨false, s, Dir.output⟩, Prim.send (txd % 256) :: st) := by
    rcases steady_cases hp with ⟨s, d, rfl⟩ | ⟨d, rfl⟩
    · cases s <;> cases d <;> exact ⟨_, rfl⟩
    · cases d <;> exact ⟨_, rfl⟩
  obtain ⟨s, hs⟩ := hpre
  obtain ⟨s2, h2⟩ := frame_sendBits 8 (txd % 256) s (Prim.send (txd % 256) :: st)
  refine ⟨⟨false, s2, Dir.output⟩, Or.inl rfl, ?_⟩
  rw [sendEvents, frameScan_append, frameScan_append, hs, h2]
  rfl

theorem frame_replicate (n : Nat) (b : Bool) (s : Option (Pins × List Prim)) :
    frameScan s (List.replicate n (Event.readSda b)) = s := by
  induction n with
  | zero => rfl
  | succ n ih =>
    rw [List.replicate_succ]
    cases s with
    | none => exact ih
    | some x => obtain ⟨p, st⟩ := x; exact ih

theorem tame_waitEvents (q : Poll) : Tame (waitEvents q) := by
  intro p st hp
  have hpre : frameScan (some (p, st)) waitPrelude
      = some (⟨true, true, Dir.input⟩, Prim.waitAck :: st) := by
    rcases steady_cases hp with ⟨s, d, rfl⟩ | ⟨d, rfl⟩
    · cases s <;> cases d <;> rfl
    · cases d <;> rfl
  rw [waitEvents, pollEvents, frameScan_append, frameScan_append, hpre, frameScan_append,
    frame_replicate]
  cases q.ok
  · exact ⟨⟨true, true, Dir.output⟩, Or.inr rfl, rfl⟩
  · exact ⟨⟨false, true, Dir.input⟩, Or.inl rfl, rfl⟩

theorem frame_recvBits (bits : List Bool) :
    ∀ (c s : Bool) (st : List Prim), ∃ c2,
      frameScan (some (⟨c, s, Dir.input⟩, st)) (recvBits bits)
        = some (⟨c2, s, Dir.input⟩, st) := by
  induction bits with
  | nil => intro c s st; exact ⟨c, rfl⟩
  | cons b bs ih =>
    intro c s st
    obtain ⟨c2, h2⟩ := ih true s st
    exact ⟨c2, by rw [recvBits, frameScan_append]; exact h2⟩

theorem tame_recvEvents (bits : List Bool) (ack : Nat) : Tame (recvEvents bits ack) := by
  intro p st hp
  obtain ⟨c, s, d⟩ := p
  have hpre : frameScan (some (⟨c, s, d⟩, st)) [Event.call (Prim.recv (ack % 256)), Event.sdaIn]
      = some (⟨c, s, Dir.input⟩, Prim.recv (ack % 256) :: st) := by
    rcases steady_cases hp with ⟨s1, d1, h⟩ | ⟨d1, h⟩
    · cases h; cases s <;> cases d <;> rfl
    · cases h; cases d <;> rfl
  obtain ⟨c2, h2⟩ := frame_recvBits bits c s (Prim.recv (ack % 256) :: st)
  rw [recvEvents, frameScan_append, frameScan_append, frameScan_append, hpre, h2]
  split
  · cases c2 <;> cases s <;> exact ⟨⟨false, true, Dir.output⟩, Or.inl rfl, rfl⟩
  · cases c2 <;> cases s <;> exact ⟨⟨false, false, Dir.output⟩, Or.inl rfl, rfl⟩

theorem tame_marker_call (f : Prim) (evs : List Event) (tail : List Event)
    (hev : Tame evs)
    (htail : ∀ (p : Pins) (st : List Prim), frameScan (some (p, f :: st)) tail = some (p, st)) :
    Tame ([Event.call f] ++ evs ++ tail) := by
  intro p st hp
  obtain ⟨p2, hp2, h2⟩ := hev p (f :: st) hp
  refine ⟨p2, hp2, ?_⟩
  rw [frameScan_append, frameScan_append]
  show frameScan (frameScan (some (p, f :: st)) evs) tail = _
  rw [h2, htail]

theorem tame_readEvents (ee a : Nat) (q : Nat → Poll) (bits : List Bool) :
    Tame (readEvents ee a q bits) := by
  have hhead : Tame (readHead ee a q) := by
    unfold readHead
    split
    · exact tame_append (tame_append (tame_append (tame_sendEvents _)
        (tame_waitEvents _)) (tame_sendEvents _)) (tame_waitEvents _)
    · exact tame_sendEvents _
  have hbody : Tame (startEvents ++ readHead ee a q ++ waitEvents (q 2)
      ++ sendEvents (a % 256) ++ waitEvents (q 3) ++ startEvents ++ sendEvents 0xA1
      ++ waitEvents (q 4) ++ recvEvents bits 0 ++ stopEvents) :=
    tame_append (tame_append (tame_append (tame_append (tame_append
      (tame_append (tame_append (tame_append (tame_append tame_startEvents hhead)
      (tame_waitEvents _)) (tame_sendEvents _)) (tame_waitEvents _))
      tame_startEvents) (tame_sendEvents _)) (tame_waitEvents _))
      (tame_recvEvents _ _)) tame_stopEvents
  have h := tame_marker_call (Prim.readOne a) _ [Event.ret (Prim.readOne a)] hbody
    (fun _ _ => rfl)
  have e : readEvents ee a q bits = [Event.call (Prim.readOne a)] ++ (startEvents
      ++ readHead ee a q ++ waitEvents (q 2)
      ++ sendEvents (a % 256) ++ waitEvents (q 3) ++ startEvents ++ sendEvents 0xA1
      ++ waitEvents (q 4) ++ recvEvents bits 0 ++ stopEvents)
      ++ [Event.ret (Prim.readOne a)] := by
    simp only [readEvents, List.append_assoc]
  rw [e]
  exact h

theorem tame_writeEvents (ee a d : Nat) (q : Nat → Poll) : Tame (writeEvents ee a d q) := by
  have hhead : Tame (writeHead ee a q) := by
    unfold writeHead
    split
    · exact tame_append (tame_append (tame_sendEvents _) (tame_waitEvents _))
        (tame_sendEvents _)
    · exact tame_sendEvents _
  have hbody : Tame (startEvents ++ writeHead ee a q ++ waitEvents (q 1)
      ++ sendEvents (a % 256) ++ waitEvents (q 2) ++ sendEvents d ++ waitEvents (q 3)
      ++ stopEvents) :=
    tame_append (tame_append (tame_append (tame_append (tame_append
      (tame_append (tame_append tame_startEvents hhead)
      (tame_waitEvents _)) (tame_sendEvents _)) (tame_waitEvents _))
      (tame_sendEvents _)) (tame_waitEvents _)) tame_stopEvents
  have h := tame_marker_call (Prim.writeOne a d) _
    [Event.delayMs 10, Event.ret (Prim.writeOne a d)] hbody (fun _ _ => rfl)
  have e : writeEvents ee a d q = [Event.call (Prim.writeOne a d)] ++ (startEvents
      ++ writeHead ee a q ++ waitEvents (q 1)
      ++ sendEvents (a % 256) ++ waitEvents (q 2) ++ sendEvents d ++ waitEvents (q 3)
      ++ stopEvents) ++ [Event.delayMs 10, Event.ret (Prim.writeOne a d)] := by
    simp only [writeEvents, List.append_assoc]
  rw [e]
  exact h

/-- C20: starting from an idle bus (both latches high, Data an output), for every slave,
capacity, address and value, in the events of `AT24CXX_ReadOneByte` and of
`AT24CXX_WriteOneByte` the level the master puts on Data changes while Clock is high only by
the write of 0 inside `C04_IIC_Start` and the write of 1 inside `C04_IIC_Stop`; every other
change of that level (data bits, acknowledge bits, direction switches) happens while Clock
is low. -/
theorem no_spurious_framing (sl : Slave σ) (ee addr v : Nat) (w : World σ)
    (hscl : w.scl = true) (hsda : w.sda = true) (hdir : w.dir = Dir.output) :
    (frameScan (some (pinsOf w, []))
        (since w (AT24CXX_ReadOneByte sl ee addr w).2.trace)).isSome = true ∧
      (frameScan (some (pinsOf w, []))
        (since w (AT24CXX_WriteOneByte sl ee addr v w).trace)).isSome = true := by
  obtain ⟨q, bits, -, -, -, hr⟩ := read_shape sl ee addr w
  obtain ⟨q2, -, hw⟩ := write_shape sl ee addr v w
  have hpins : pinsOf w = ⟨true, true, Dir.output⟩ := by
    simp only [pinsOf, hscl, hsda, hdir]
  rw [hr, hw, since_run, since_run, hpins]
  obtain ⟨p1, -, h1⟩ := tame_readEvents ee (addr % 65536) q bits ⟨true, true, Dir.output⟩ []
    (Or.inr rfl)
  obtain ⟨p2, -, h2⟩ := tame_writeEvents ee (addr % 65536) (v % 256) q2
    ⟨true, true, Dir.output⟩ [] (Or.inr rfl)
  rw [h1, h2]
  exact ⟨rfl, rfl⟩

/-- Witness for C20: a read and a write on the idle bus with a slave that never answers. -/
theorem no_spurious_framing_witness :
    (idleWorld ()).scl = true ∧ (idleWorld ()).sda = true ∧
      (idleWorld ()).dir = Dir.output ∧
      (frameScan (some (pinsOf (idleWorld ()), []))
        (since (idleWorld ()) (AT24CXX_WriteOneByte absent EE_TYPE 3 0x5A (idleWorld ())).trace)
        ).isSome = true :=
  ⟨rfl, rfl, rfl, (no_spurious_framing absent EE_TYPE 3 0x5A (idleWorld ()) rfl rfl rfl).2⟩

/-! ## Addresses past the end of the device (C6) -/

theorem run_wait_refused (ee n : Nat) (s : Bool) (dir mdir : Dir) (mreg : Bool)
    (cnt shift : Nat) (tr : List Event) (hi ptr : Nat) (mem : Nat → Nat) :
    run (at24 ee)
        (waitPrelude ++ (List.replicate n (Event.readSda true) ++ stopEvents)
          ++ [Event.ret Prim.waitAck])
        ⟨false, s, dir, tr, ⟨false, mdir, mreg, Mode.idle, cnt, false, shift, true, hi, ptr, mem⟩⟩ =
      settled (tr ++ (waitPrelude ++ (List.replicate n (Event.readSda true) ++ stopEvents)
        ++ [Event.ret Prim.waitAck])) hi ptr mem := by
  simp only [run_append, run_reads_at24]
  simp [run, applyEvent, waitPrelude, stopEvents, mark, emit, C04_SDA_IN, C04_SDA_OUT,
    C04_IIC_SDA, C04_IIC_SCL, delay_us, at24, Eeprom.react, Eeprom.onData, Eeprom.line,
    Eeprom.masterLine, Eeprom.onRise, Eeprom.onFall, settled]

theorem waitAck_refused (ee : Nat) (s : Bool) (dir mdir : Dir) (mreg : Bool)
    (cnt shift : Nat) (tr : List Event) (hi ptr : Nat) (mem : Nat → Nat) :
    C04_IIC_Wait_Ack (at24 ee)
        ⟨false, s, dir, tr, ⟨false, mdir, mreg, Mode.idle, cnt, false, shift, true, hi, ptr, mem⟩⟩ =
      (1, settled (tr ++ waitEvents timedOut) hi ptr mem) := by
  rw [waitAck_of_high]
  · have h := run_wait_refused ee 251 s dir mdir mreg cnt shift tr hi ptr mem
    simp only [waitEvents, pollEvents, timedOut, Bool.false_eq_true, if_false]
    rw [h]
  · intro i _
    rw [afterHighs_at24]
    simp [run, applyEvent, waitPrelude, mark, emit, C04_SDA_IN,
      C04_IIC_SDA, C04_IIC_SCL, delay_us, at24, Eeprom.react, Eeprom.onData, Eeprom.line,
      Eeprom.masterLine, Eeprom.onRise, Eeprom.onFall]

theorem stop_settled (ee : Nat) (tr : List Event) (hi ptr : Nat) (mem : Nat → Nat) :
    C04_IIC_Stop (at24 ee) (settled tr hi ptr mem) = settled (tr ++ stopEvents) hi ptr mem := by
  simp [settled, C04_IIC_Stop, mark, emit, C04_SDA_OUT, C04_IIC_SDA, C04_IIC_SCL, delay_us,
    at24, Eeprom.react, Eeprom.onData, Eeprom.line, Eeprom.masterLine, Eeprom.onRise,
    Eeprom.onFall, stopEvents]

theorem refused_facts (a : Nat) (ha : a ≤ AT24C16) :
    (0xA0 + ((a % 65536 / 256) <<< 1)) % 256 = 160 + a / 256 * 2 ∧ a / 256 ≤ 7 ∧
      a % 65536 = a := by
  have h16 : AT24C16 = 2047 := rfl
  rw [Nat.shiftLeft_eq]
  omega

theorem write_at24_refused (ee a v : Nat) (hee : ee ≤ AT24C16) (ha : a ≤ AT24C16)
    (hr : ee < a / 256 * 256) (tr : List Event) (hi ptr : Nat) (mem : Nat → Nat) :
    AT24CXX_WriteOneByte (at24 ee) ee a v (settled tr hi ptr mem) =
      settled (tr ++ writeEvents ee a (v % 256) (fun _ => timedOut)) hi ptr mem := by
  obtain ⟨h1, h2, h3⟩ := refused_facts a ha
  have hee2 : ¬ ee > AT24C16 := by omega
  have hv : v % 256 < 256 := Nat.mod_lt _ (by decide)
  have hlo : a % 256 < 256 := Nat.mod_lt _ (by decide)
  have hdev : 160 + a / 256 * 2 < 256 := by omega
  have hsend : ∀ w : World Eeprom, C04_IIC_Send_Byte (at24 ee) (0xA0 + ((a / 256) <<< 1)) w
      = C04_IIC_Send_Byte (at24 ee) (160 + a / 256 * 2) w := by
    intro w
    rw [h3] at h1
    simp only [C04_IIC_Send_Byte, h1, Nat.mod_eq_of_lt hdev]
  unfold AT24CXX_WriteOneByte
  simp only [h3, hee2, if_false, hsend]
  have hmark : mark (Event.call (Prim.writeOne a (v % 256))) (settled tr hi ptr mem)
      = settled (tr ++ [Event.call (Prim.writeOne a (v % 256))]) hi ptr mem := rfl
  rw [hmark, start_settled, send_rx ee _ hdev _ _ _ _ _ (Or.inl rfl)]
  have hb1 : (160 + a / 256 * 2) / 16 = 10 := by omega
  have hb2 : (160 + a / 256 * 2) / 2 % 8 = a / 256 := by omega
  have hno : ¬ a / 256 * 256 ≤ ee := by omega
  simp only [Eeprom.handleByte, hb1, hb2, hee2, if_false, hno, and_false]
  rw [waitAck_refused]
  simp only []
  rw [send_idle ee _ hlo, waitAck_released ee _ _ _ _ _ (Or.inr rfl)]
  simp only []
  rw [send_idle ee _ hv, waitAck_released ee _ _ _ _ _ (Or.inr rfl)]
  simp only []
  rw [stop_settled]
  simp [settled, delay_ms, mark, emit, at24, Eeprom.react, writeEvents, writeHead, hee2, h1, h3,
    Nat.shiftLeft_eq, sendEvents, Nat.mod_eq_of_lt hdev]

theorem read_at24_refused (ee a : Nat) (hee : ee ≤ AT24C16) (ha : a ≤ AT24C16)
    (hr : ee < a / 256 * 256) (tr : List Event) (hi ptr : Nat) (mem : Nat → Nat) :
    AT24CXX_ReadOneByte (at24 ee) ee a (settled tr hi ptr mem) =
      (mem ptr % 256,
       settled (tr ++ readEvents ee a
          (fun i => if i = 2 ∨ i = 3 then timedOut else acked) (bitsOf (mem ptr)))
         hi ((ptr + 1) % (ee + 1)) mem) := by
  obtain ⟨h1, h2, h3⟩ := refused_facts a ha
  have hee2 : ¬ ee > AT24C16 := by omega
  have hlo : a % 256 < 256 := Nat.mod_lt _ (by decide)
  have hdev : 160 + a / 256 * 2 < 256 := by omega
  have hsend : ∀ w : World Eeprom, C04_IIC_Send_Byte (at24 ee) (0xA0 + ((a / 256) <<< 1)) w
      = C04_IIC_Send_Byte (at24 ee) (160 + a / 256 * 2) w := by
    intro w
    rw [h3] at h1
    simp only [C04_IIC_Send_Byte, h1, Nat.mod_eq_of_lt hdev]
  unfold AT24CXX_ReadOneByte
  simp only [h3, hee2, if_false, hsend]
  have hmark : mark (Event.call (Prim.readOne a)) (settled tr hi ptr mem)
      = settled (tr ++ [Event.call (Prim.readOne a)]) hi ptr mem := rfl
  rw [hmark, start_settled, send_rx ee _ hdev _ _ _ _ _ (Or.inl rfl)]
  have hb1 : (160 + a / 256 * 2) / 16 = 10 := by omega
  have hb2 : (160 + a / 256 * 2) / 2 % 8 = a / 256 := by omega
  have hno : ¬ a / 256 * 256 ≤ ee := by omega
  simp only [Eeprom.handleByte, hb1, hb2, hee2, if_false, hno, and_false]
  rw [waitAck_refused]
  simp only []
  rw [send_idle ee _ hlo, waitAck_released ee _ _ _ _ _ (Or.inr rfl)]
  simp only []
  rw [start_settled, send_rx ee 0xA1 (by decide) _ _ _ _ _ (Or.inl rfl)]
  have hrd : ∀ (hi0 ptr0 : Nat) (r : Bool), Eeprom.handleByte ee
      ⟨false, Dir.output, r, Mode.dev, 8, false, 0xA1, true, hi0, ptr0, mem⟩
      = ⟨false, Dir.output, r, Mode.tx, 8, true, 0xA1, false, hi0, ptr0, mem⟩ := by
    intro hi0 ptr0 r
    simp [Eeprom.handleByte, Eeprom.acknowledge, hee2]
  rw [hrd, waitAck_acking_tx]
  simp only []
  rw [readByte_tx]
  simp only []
  rw [stop_after_read]
  simp [settled, mark, readEvents, readHead, hee2, h1, h3,
    Nat.shiftLeft_eq, sendEvents, Nat.mod_eq_of_lt hdev]

theorem len2_past_end (v : Nat) (hv : v < 65536) (tr : List Event) (hi ptr : Nat)
    (mem : Nat → Nat) :
    (AT24CXX_ReadLenByte (at24 EE_TYPE) EE_TYPE 255 2
      (AT24CXX_WriteLenByte (at24 EE_TYPE) EE_TYPE 255 v 2 (settled tr hi ptr mem))).1
      = mem 0 % 256 * 256 + v % 256 := by
  have h2 : v % 4294967296 = v := Nat.mod_eq_of_lt (by omega)
  simp only [AT24CXX_WriteLenByte, h2, Nat.reduceMod, writeLenLoop]
  rw [write_at24 EE_TYPE (255 + 0) _ (by decide) (by decide),
    write_at24_refused EE_TYPE (255 + (0 + 1)) _ (by decide) (by decide) (by decide)]
  simp only [AT24CXX_ReadLenByte, Nat.reduceMod, readLenLoop]
  rw [read_at24_refused EE_TYPE (255 + 2 - 0 - 1) (by decide) (by decide) (by decide)]
  simp only []
  rw [read_at24 EE_TYPE (255 + 2 - (0 + 1) - 1) (by decide) (by decide)]
  simp [Function.update, EE_TYPE, AT24C02, and_ff, Nat.shiftLeft_eq]
  omega

theorem len4_past_end (v : Nat) (hv : v < 4294967296) (tr : List Event) (hi ptr : Nat)
    (mem : Nat → Nat) :
    (AT24CXX_ReadLenByte (at24 EE_TYPE) EE_TYPE 253 4
      (AT24CXX_WriteLenByte (at24 EE_TYPE) EE_TYPE 253 v 4 (settled tr hi ptr mem))).1
      = mem 0 % 256 * 16777216 + v % 16777216 := by
  have h2 : v % 4294967296 = v := Nat.mod_eq_of_lt hv
  simp only [AT24CXX_WriteLenByte, h2, Nat.reduceMod, writeLenLoop]
  rw [write_at24 EE_TYPE (253 + 0) _ (by decide) (by decide),
    write_at24 EE_TYPE (253 + (0 + 1)) _ (by decide) (by decide),
    write_at24 EE_TYPE (253 + (0 + 1 + 1)) _ (by decide) (by decide),
    write_at24_refused EE_TYPE (253 + (0 + 1 + 1 + 1)) _ (by decide) (by decide) (by decide)]
  simp only [AT24CXX_ReadLenByte, Nat.reduceMod, readLenLoop]
  rw [read_at24_refused EE_TYPE (253 + 4 - 0 - 1) (by decide) (by decide) (by decide)]
  simp only []
  rw [read_at24 EE_TYPE (253 + 4 - (0 + 1) - 1) (by decide) (by decide)]
  simp only []
  rw [read_at24 EE_TYPE (253 + 4 - (0 + 1 + 1) - 1) (by decide) (by decide)]
  simp only []
  rw [read_at24 EE_TYPE (253 + 4 - (0 + 1 + 1 + 1) - 1) (by decide) (by decide)]
  simp [Function.update, EE_TYPE, AT24C02, and_ff, Nat.shiftLeft_eq, Nat.shiftRight_eq_div_pow]
  omega

/-- C6 (as stated, refuted): on the fault-free simulated device with the configured capacity
(cells 0..255), blank (every cell 0xFF) and on the idle bus, `AT24CXX_WriteLenByte(255, 0xBEEF,
2)` followed by `AT24CXX_ReadLenByte(255, 2)` returns 0xFFEF, and `AT24CXX_WriteLenByte(253,
0xDEADBEEF, 4)` followed by `AT24CXX_ReadLenByte(253, 4)` returns 0xFFADBEEF: the addresses
255 and 253 are in range, the last byte of the value goes to address 256, whose device byte
0xA2 the device does not acknowledge. -/
theorem len_round_trip_counterexample :
    255 ≤ EE_TYPE ∧ 0xBEEF < 65536 ∧
    (AT24CXX_ReadLenByte (at24 EE_TYPE) EE_TYPE 255 2
        (AT24CXX_WriteLenByte (at24 EE_TYPE) EE_TYPE 255 0xBEEF 2
          (idleWorld (Eeprom.idle (fun _ => 0xFF))))).1 = 0xFFEF ∧
    (AT24CXX_ReadLenByte (at24 EE_TYPE) EE_TYPE 253 4
        (AT24CXX_WriteLenByte (at24 EE_TYPE) EE_TYPE 253 0xDEADBEEF 4
          (idleWorld (Eeprom.idle (fun _ => 0xFF))))).1 = 0xFFADBEEF ∧
    (0xFFEF : Nat) ≠ 0xBEEF ∧ (0xFFADBEEF : Nat) ≠ 0xDEADBEEF :=
  ⟨by decide, by decide, len2_past_end 0xBEEF (by decide) [] 0 0 (fun _ => 0xFF),
   len4_past_end 0xDEADBEEF (by decide) [] 0 0 (fun _ => 0xFF), by decide, by decide⟩

/-! ## Starts and Stops, acknowledge timeouts set apart (C9) -/

theorem startStops_append (xs ys : List Event) :
    startStops (xs ++ ys) = startStops xs ++ startStops ys := by
  induction xs with
  | nil => rfl
  | cons e es ih =>
    cases e with
    | call p => cases p <;> simp [startStops, ih]
    | _ => simp [startStops, ih]

theorem startStops_replicate (n : Nat) (b : Bool) :
    startStops (List.replicate n (Event.readSda b)) = [] := by
  induction n with
  | zero => rfl
  | succ n ih => rw [List.replicate_succ]; exact ih

theorem startStops_sendBits (n txd : Nat) : startStops (sendBits n txd) = [] := by
  induction n generalizing txd with
  | zero => rfl
  | succ n ih => rw [sendBits, startStops_append, ih]; rfl

theorem startStops_sendEvents (txd : Nat) : startStops (sendEvents txd) = [] := by
  simp only [sendEvents, startStops_append, startStops_sendBits]
  rfl

theorem startStops_waitEvents (p : Poll) : startStops (waitEvents p) = p.stops := by
  simp only [waitEvents, pollEvents, startStops_append, startStops_replicate, Poll.stops]
  cases p.ok <;> rfl

theorem startStops_recvBits (bits : List Bool) : startStops (recvBits bits) = [] := by
  induction bits with
  | nil => rfl
  | cons b bs ih => rw [recvBits, startStops_append, ih]; rfl

theorem startStops_recvEvents (bits : List Bool) (ack : Nat) :
    startStops (recvEvents bits ack) = [] := by
  simp only [recvEvents, startStops_append, startStops_recvBits]
  split <;> rfl

theorem startStops_startEvents : startStops startEvents = [Prim.start] := rfl

theorem startStops_stopEvents : startStops stopEvents = [Prim.stop] := rfl

theorem startStops_writeEvents (ee a d : Nat) (q : Nat → Poll) :
    startStops (writeEvents ee a d q)
      = [Prim.start] ++ (if ee > AT24C16 then (q 0).stops else []) ++ (q 1).stops
          ++ (q 2).stops ++ (q 3).stops ++ [Prim.stop] := by
  have h1 : startStops [Event.call (Prim.writeOne a d)] = [] := rfl
  have h2 : startStops [Event.delayMs 10, Event.ret (Prim.writeOne a d)] = [] := rfl
  unfold writeEvents writeHead
  split <;>
    simp only [startStops_append, startStops_sendEvents, startStops_waitEvents,
      startStops_startEvents, startStops_stopEvents, h1, h2, List.nil_append, List.append_nil,
      List.append_assoc]

theorem startStops_readEvents (ee a : Nat) (q : Nat → Poll) (bits : List Bool) :
    startStops (readEvents ee a q bits)
      = [Prim.start] ++ (if ee > AT24C16 then (q 0).stops ++ (q 1).stops else [])
          ++ (q 2).stops ++ (q 3).stops ++ [Prim.start] ++ (q 4).stops ++ [Prim.stop] := by
  have h1 : startStops [Event.call (Prim.readOne a)] = [] := rfl
  have h2 : startStops [Event.ret (Prim.readOne a)] = [] := rfl
  unfold readEvents readHead
  split <;>
    simp only [startStops_append, startStops_sendEvents, startStops_waitEvents,
      startStops_recvEvents, startStops_startEvents, startStops_stopEvents, h1, h2,
      List.nil_append, List.append_nil, List.append_assoc]

theorem alternates_startStops (tr : List Event) :
    ∀ o, alternates o tr = alternates o ((startStops tr).map Event.call) := by
  induction tr with
  | nil => intro o; rfl
  | cons e es ih =>
    intro o
    cases e with
    | call p => cases p <;> simp [alternates, startStops, ih]
    | _ => simp [alternates, startStops, ih]

theorem startStops_waitAck (sl : Slave σ) (w : World σ) :
    startStops (since w (C04_IIC_Wait_Ack sl w).2.trace)
      = if (C04_IIC_Wait_Ack sl w).1 = 0 then [] else [Prim.stop] := by
  obtain ⟨⟨n, ok⟩, hp, -⟩ := waitAck_shape sl w
  rw [hp]
  simp only [since_run, startStops_waitEvents, Poll.stops, Poll.code]
  cases ok <;> simp

/-! ### The scan that passes over the Stops of acknowledge timeouts -/

theorem matchScan_append (limit : Nat) (s : Option (Nat × Bool)) (a b : List Event) :
    matchScan limit s (a ++ b) = matchScan limit (matchScan limit s a) b := by
  simp [matchScan, List.foldl_append]

theorem level_append {limit : Nat} {a b : List Event} (ha : Level limit a) (hb : Level limit b) :
    Level limit (a ++ b) := by
  intro n
  rw [matchScan_append, ha n, hb n]

theorem matchScan_replicate (limit : Nat) (s : Nat × Bool) (n : Nat) (b : Bool) :
    matchScan limit (some s) (List.replicate n (Event.readSda b)) = some s := by
  induction n with
  | zero => rfl
  | succ n ih => rw [List.replicate_succ]; exact ih

theorem matchScan_sendBits (limit : Nat) (s : Nat × Bool) (n txd : Nat) :
    matchScan limit (some s) (sendBits n txd) = some s := by
  induction n generalizing txd with
  | zero => rfl
  | succ n ih => rw [sendBits, matchScan_append]; exact ih _

theorem matchScan_recvBits (limit : Nat) (s : Nat × Bool) (bits : List Bool) :
    matchScan limit (some s) (recvBits bits) = some s := by
  induction bits with
  | nil => rfl
  | cons b bs ih => rw [recvBits, matchScan_append]; exact ih

theorem level_sendEvents (limit txd : Nat) : Level limit (sendEvents txd) := by
  intro n
  rw [sendEvents, matchScan_append, matchScan_append]
  have h1 : matchScan limit (some (n, false))
      [Event.call (Prim.send (txd % 256)), Event.sdaOut, Event.scl false] = some (n, false) := rfl
  rw [h1, matchScan_sendBits]
  rfl

theorem level_waitEvents (limit : Nat) (p : Poll) : Level limit (waitEvents p) := by
  intro n
  rw [waitEvents, pollEvents, matchScan_append, matchScan_append, matchScan_append]
  have h1 : matchScan limit (some (n, false)) waitPrelude = some (n, true) := rfl
  rw [h1, matchScan_replicate]
  cases p.ok <;> rfl

theorem level_recvEvents (limit : Nat) (bits : List Bool) (ack : Nat) :
    Level limit (recvEvents bits ack) := by
  intro n
  rw [recvEvents, matchScan_append, matchScan_append, matchScan_append]
  have h1 : matchScan limit (some (n, false)) [Event.call (Prim.recv (ack % 256)), Event.sdaIn]
      = some (n, false) := rfl
  rw [h1, matchScan_recvBits]
  split <;> rfl

theorem matchScan_start (limit n : Nat) (h : n < limit) :
    matchScan limit (some (n, false)) startEvents = some (n + 1, false) := by
  simp [matchScan, startEvents, matchStep, h]

theorem matchScan_stop (limit n : Nat) (h : 0 < n) :
    matchScan limit (some (n, false)) stopEvents = some (0, false) := by
  simp [matchScan, stopEvents, matchStep, h]

theorem level_readHead (limit ee a : Nat) (q : Nat → Poll) : Level limit (readHead ee a q) := by
  unfold readHead
  split
  · exact level_append (level_append (level_append (level_sendEvents _ _)
      (level_waitEvents _ _)) (level_sendEvents _ _)) (level_waitEvents _ _)
  · exact level_sendEvents _ _

theorem level_writeHead (limit ee a : Nat) (q : Nat → Poll) :
    Level limit (writeHead ee a q) := by
  unfold writeHead
  split
  · exact level_append (level_append (level_sendEvents _ _) (level_waitEvents _ _))
      (level_sendEvents _ _)
  · exact level_sendEvents _ _

theorem matchScan_writeEvents (limit : Nat) (hl : 1 ≤ limit) (ee a d : Nat) (q : Nat → Poll) :
    matchScan limit (some (0, false)) (writeEvents ee a d q) = some (0, false) := by
  have hmid : Level limit (writeHead ee a q ++ waitEvents (q 1) ++ sendEvents (a % 256)
      ++ waitEvents (q 2) ++ sendEvents d ++ waitEvents (q 3)) :=
    level_append (level_append (level_append (level_append (level_append
      (level_writeHead _ _ _ _) (level_waitEvents _ _)) (level_sendEvents _ _))
      (level_waitEvents _ _)) (level_sendEvents _ _)) (level_waitEvents _ _)
  have e : writeEvents ee a d q = [Event.call (Prim.writeOne a d)] ++ (startEvents ++
      ((writeHead ee a q ++ waitEvents (q 1) ++ sendEvents (a % 256)
      ++ waitEvents (q 2) ++ sendEvents d ++ waitEvents (q 3)) ++ (stopEvents ++
      [Event.delayMs 10, Event.ret (Prim.writeOne a d)]))) := by
    simp only [writeEvents, List.append_assoc]
  rw [e, matchScan_append, matchScan_append, matchScan_append, matchScan_append]
  have h0 : matchScan limit (some (0, false)) [Event.call (Prim.writeOne a d)]
      = some (0, false) := rfl
  rw [h0, matchScan_start limit 0 (by omega), hmid, matchScan_stop limit _ (by omega)]
  rfl

theorem matchScan_readEvents (limit : Nat) (hl : 2 ≤ limit) (ee a : Nat) (q : Nat → Poll)
    (bits : List Bool) :
    matchScan limit (some (0, false)) (readEvents ee a q bits) = some (0, false) := by
  have hmid1 : Level limit (readHead ee a q ++ waitEvents (q 2) ++ sendEvents (a % 256)
      ++ waitEvents (q 3)) :=
    level_append (level_append (level_append (level_readHead _ _ _ _)
      (level_waitEvents _ _)) (level_sendEvents _ _)) (level_waitEvents _ _)
  have hmid2 : Level limit (sendEvents 0xA1 ++ waitEvents (q 4) ++ recvEvents bits 0) :=
    level_append (level_append (level_sendEvents _ _) (level_waitEvents _ _))
      (level_recvEvents _ _ _)
  have e : readEvents ee a q bits = [Event.call (Prim.readOne a)] ++ (startEvents ++
      ((readHead ee a q ++ waitEvents (q 2) ++ sendEvents (a % 256) ++ waitEvents (q 3)) ++
      (startEvents ++ ((sendEvents 0xA1 ++ waitEvents (q 4) ++ recvEvents bits 0) ++
      (stopEvents ++ [Event.ret (Prim.readOne a)]))))) := by
    simp only [readEvents, List.append_assoc]
  rw [e, matchScan_append, matchScan_append, matchScan_append, matchScan_append,
    matchScan_append, matchScan_append]
  have h0 : matchScan limit (some (0, false)) [Event.call (Prim.readOne a)]
      = some (0, false) := rfl
  rw [h0, matchScan_start limit 0 (by omega), hmid1, matchScan_start limit 1 (by omega), hmid2,
    matchScan_stop limit _ (by omega)]
  rfl

theorem matched_write (limit : Nat) (hl : 1 ≤ limit) (sl : Slave σ) (ee a d : Nat)
    (w : World σ) (h : Matched limit w) : Matched limit (AT24CXX_WriteOneByte sl ee a d w) := by
  obtain ⟨q, -, hw⟩ := write_shape sl ee a d w
  unfold Matched at h ⊢
  rw [hw, run_trace, matchScan_append, h, matchScan_writeEvents limit hl]

theorem matched_read (limit : Nat) (hl : 2 ≤ limit) (sl : Slave σ) (ee a : Nat)
    (w : World σ) (h : Matched limit w) : Matched limit (AT24CXX_ReadOneByte sl ee a w).2 := by
  obtain ⟨q, bits, -, -, -, hr⟩ := read_shape sl ee a w
  unfold Matched at h ⊢
  rw [hr, run_trace, matchScan_append, h, matchScan_readEvents limit hl]

/-! ### Properties that every transaction preserves are preserved by every operation -/

theorem writeLenLoop_keeps (P : World σ → Prop) (sl : Slave σ) (ee : Nat)
    (hw : ∀ a d w, P w → P (AT24CXX_WriteOneByte sl ee a d w)) (a d : Nat) :
    ∀ (n t : Nat) (w : World σ), P w → P (writeLenLoop sl ee a d n t w) := by
  intro n
  induction n with
  | zero => intro t w h; exact h
  | succ n ih => intro t w h; exact ih _ _ (hw _ _ w h)

theorem readLenLoop_keeps (P : World σ → Prop) (sl : Slave σ) (ee : Nat)
    (hr : ∀ a w, P w → P (AT24CXX_ReadOneByte sl ee a w).2) (a l : Nat) :
    ∀ (n t temp : Nat) (w : World σ), P w → P (readLenLoop sl ee a l n t temp w).2 := by
  intro n
  induction n with
  | zero => intro t temp w h; exact h
  | succ n ih => intro t temp w h; exact ih _ _ _ (hr _ w h)

theorem readLoop_keeps (P : World σ → Prop) (sl : Slave σ) (ee : Nat)
    (hr : ∀ a w, P w → P (AT24CXX_ReadOneByte sl ee a w).2) :
    ∀ (n a p : Nat) (buf : List Nat) (w : World σ), P w → P (readLoop sl ee n a p buf w).2 := by
  intro n
  induction n with
  | zero => intro a p buf w h; exact h
  | succ n ih => intro a p buf w h; exact ih _ _ _ _ (hr _ w h)

theorem writeLoop_keeps (P : World σ → Prop) (sl : Slave σ) (ee : Nat)
    (hw : ∀ a d w, P w → P (AT24CXX_WriteOneByte sl ee a d w)) :
    ∀ (n a p : Nat) (buf : List Nat) (w : World σ), P w → P (writeLoop sl ee n a p buf w) := by
  intro n
  induction n with
  | zero => intro a p buf w h; exact h
  | succ n ih => intro a p buf w h; exact ih _ _ _ _ (hw _ _ w h)

theorem check_keeps (P : World σ → Prop) (sl : Slave σ) (ee : Nat)
    (hr : ∀ a w, P w → P (AT24CXX_ReadOneByte sl ee a w).2)
    (hw : ∀ a d w, P w → P (AT24CXX_WriteOneByte sl ee a d w))
    (w : World σ) (h : P w) : P (AT24CXX_Check sl ee w).2 := by
  have h1 := hr 255 w h
  have h2 := hw 255 0x55 _ h1
  have h3 := hr 255 _ h2
  unfold AT24CXX_Check
  dsimp only
  split
  · exact h1
  · split
    · exact h3
    · exact h3

theorem exec_keeps (P : World σ → Prop) (sl : Slave σ) (ee : Nat)
    (hr : ∀ a w, P w → P (AT24CXX_ReadOneByte sl ee a w).2)
    (hw : ∀ a d w, P w → P (AT24CXX_WriteOneByte sl ee a d w))
    (o : Op) (w : World σ) (h : P w) : P (o.exec sl ee w) := by
  cases o with
  | readOne a => exact hr a w h
  | writeOne a d => exact hw a d w h
  | readLen a l => exact readLenLoop_keeps P sl ee hr _ _ _ _ _ w h
  | writeLen a d l => exact writeLenLoop_keeps P sl ee hw _ _ _ _ w h
  | read a buf n => exact readLoop_keeps P sl ee hr _ _ _ _ w h
  | write a buf n => exact writeLoop_keeps P sl ee hw _ _ _ _ w h
  | check => exact check_keeps P sl ee hr hw w h

theorem exec_writes_keeps (P : World σ → Prop) (sl : Slave σ) (ee : Nat)
    (hw : ∀ a d w, P w → P (AT24CXX_WriteOneByte sl ee a d w))
    (o : Op) (ho : o.writesOnly = true) (w : World σ) (h : P w) : P (o.exec sl ee w) := by
  cases o with
  | writeOne a d => exact hw a d w h
  | writeLen a d l => exact writeLenLoop_keeps P sl ee hw _ _ _ _ w h
  | write a buf n => exact writeLoop_keeps P sl ee hw _ _ _ _ w h
  | readOne a => simp [Op.writesOnly] at ho
  | readLen a l => simp [Op.writesOnly] at ho
  | read a buf n => simp [Op.writesOnly] at ho
  | check => simp [Op.writesOnly] at ho

theorem execAll_keeps (P : World σ → Prop) (sl : Slave σ) (ee : Nat)
    (hr : ∀ a w, P w → P (AT24CXX_ReadOneByte sl ee a w).2)
    (hw : ∀ a d w, P w → P (AT24CXX_WriteOneByte sl ee a d w)) (ops : List Op) :
    ∀ w : World σ, P w → P (execAll sl ee ops w) := by
  induction ops with
  | nil => intro w h; exact h
  | cons o os ih => intro w h; exact ih _ (exec_keeps P sl ee hr hw o w h)

theorem execAll_writes_keeps (P : World σ → Prop) (sl : Slave σ) (ee : Nat)
    (hw : ∀ a d w, P w → P (AT24CXX_WriteOneByte sl ee a d w)) (ops : List Op) :
    (∀ o, o ∈ ops → o.writesOnly = true) → ∀ w : World σ, P w → P (execAll sl ee ops w) := by
  induction ops with
  | nil => intro _ w h; exact h
  | cons o os ih =>
    intro ho w h
    exact ih (fun x hx => ho x (List.mem_cons_of_mem _ hx)) _
      (exec_writes_keeps P sl ee hw o (ho o (List.mem_cons_self _ _)) w h)

/-! ### The strict scan: what holds when no acknowledge wait times out -/

theorem strictScan_append (limit : Nat) (s : Option Nat) (a b : List Event) :
    strictScan limit s (a ++ b) = strictScan limit (strictScan limit s a) b := by
  simp [strictScan, List.foldl_append]

theorem strictScan_none (limit : Nat) (tr : List Event) : strictScan limit none tr = none := by
  induction tr with
  | nil => rfl
  | cons e es ih => exact ih

theorem strictScan_startStops (limit : Nat) (tr : List Event) :
    ∀ s, strictScan limit s tr = strictScan limit s ((startStops tr).map Event.call) := by
  induction tr with
  | nil => intro s; rfl
  | cons e es ih =>
    intro s
    have hskip : ∀ x : Event, strictStep limit s x = s →
        startStops (x :: es) = startStops es →
        strictScan limit s (x :: es)
          = strictScan limit s ((startStops (x :: es)).map Event.call) := by
      intro x h1 h2
      rw [h2, ← ih s]
      show strictScan limit (strictStep limit s x) es = _
      rw [h1]
    cases s with
    | none => rw [strictScan_none, strictScan_none]
    | some n =>
      cases e with
      | call p =>
        cases p with
        | start => exact ih _
        | stop => exact ih _
        | _ => exact hskip _ rfl rfl
      | _ => exact hskip _ rfl rfl

theorem stops_acked : acked.stops = [] := rfl

theorem strictScan_writeAcked (limit : Nat) (hl : 1 ≤ limit) (ee a d : Nat) :
    strictScan limit (some 0) (writeEvents ee a d (fun _ => acked)) = some 0 := by
  rw [strictScan_startStops, startStops_writeEvents]
  simp only [stops_acked, ite_self, List.append_nil, List.nil_append]
  have h1 : 0 < limit := by omega
  simp [strictScan, strictStep, h1]

theorem strictScan_readAcked (limit : Nat) (hl : 2 ≤ limit) (ee a : Nat) (bits : List Bool) :
    strictScan limit (some 0) (readEvents ee a (fun _ => acked) bits) = some 0 := by
  rw [strictScan_startStops, startStops_readEvents]
  simp only [stops_acked, ite_self, List.append_nil, List.nil_append]
  have h1 : 0 < limit := by omega
  have h2 : 1 < limit := by omega
  simp [strictScan, strictStep, h1, h2]

theorem alternates_of_strict :
    ∀ (tr : List Event) (n : Nat), n ≤ 1 → strictScan 1 (some n) tr ≠ none →
      alternates (decide (n = 1)) tr = true := by
  intro tr
  induction tr with
  | nil => intro n _ _; rfl
  | cons e es ih =>
    intro n hn h
    have hskip : ∀ x : Event, strictStep 1 (some n) x = some n →
        alternates (decide (n = 1)) (x :: es) = alternates (decide (n = 1)) es →
        strictScan 1 (some n) (x :: es) ≠ none →
        alternates (decide (n = 1)) (x :: es) = true := by
      intro x h1 h2 h3
      rw [h2]
      apply ih n hn
      have : strictScan 1 (some n) (x :: es) = strictScan 1 (strictStep 1 (some n) x) es := rfl
      rw [this, h1] at h3
      exact h3
    cases e with
    | call p =>
      cases p with
      | start =>
        obtain rfl | rfl : n = 0 ∨ n = 1 := by omega
        · have := ih 1 (le_refl _) h
          simpa [alternates] using this
        · exact absurd (strictScan_none 1 es) h
      | stop =>
        obtain rfl | rfl : n = 0 ∨ n = 1 := by omega
        · exact absurd (strictScan_none 1 es) h
        · have := ih 0 (by omega) h
          simpa [alternates] using this
      | _ => exact hskip _ rfl rfl h
    | _ => exact hskip _ rfl rfl h

/-! ### The fault-free device with in-range addresses -/

theorem orderly_write (limit : Nat) (hl : 1 ≤ limit) (ee : Nat) (hee : ee ≤ AT24C16)
    (a v : Nat) (ha : a ≤ ee) (w : World Eeprom) (h : Orderly limit w) :
    Orderly limit (AT24CXX_WriteOneByte (at24 ee) ee a v w) := by
  obtain ⟨tr, hi, ptr, mem, rfl, hs⟩ := h
  rw [write_at24 ee a v hee ha]
  exact ⟨_, _, _, _, rfl, by rw [strictScan_append, hs, strictScan_writeAcked limit hl]⟩

theorem orderly_read (limit : Nat) (hl : 2 ≤ limit) (ee : Nat) (hee : ee ≤ AT24C16)
    (a : Nat) (ha : a ≤ ee) (w : World Eeprom) (h : Orderly limit w) :
    Orderly limit (AT24CXX_ReadOneByte (at24 ee) ee a w).2 := by
  obtain ⟨tr, hi, ptr, mem, rfl, hs⟩ := h
  rw [read_at24 ee a hee ha]
  exact ⟨_, _, _, _, rfl, by rw [strictScan_append, hs, strictScan_readAcked limit hl]⟩

theorem orderly_writeLenLoop (limit : Nat) (hl : 1 ≤ limit) (ee : Nat) (hee : ee ≤ AT24C16)
    (a d : Nat) :
    ∀ (n t : Nat) (w : World Eeprom), a + t + n ≤ ee + 1 → Orderly limit w →
      Orderly limit (writeLenLoop (at24 ee) ee a d n t w) := by
  intro n
  induction n with
  | zero => intro t w _ h; exact h
  | succ n ih =>
    intro t w ha h
    exact ih (t + 1) _ (by omega) (orderly_write limit hl ee hee _ _ (by omega) w h)

theorem orderly_readLenLoop (limit : Nat) (hl : 2 ≤ limit) (ee : Nat) (hee : ee ≤ AT24C16)
    (a l : Nat) (ha : a + l ≤ ee + 1) :
    ∀ (n t temp : Nat) (w : World Eeprom), Orderly limit w →
      Orderly limit (readLenLoop (at24 ee) ee a l n t temp w).2 := by
  intro n
  induction n with
  | zero => intro t temp w h; exact h
  | succ n ih =>
    intro t temp w h
    exact ih _ _ _ (orderly_read limit hl ee hee _ (by omega) w h)

theorem orderly_readLoop (limit : Nat) (hl : 2 ≤ limit) (ee : Nat) (hee : ee ≤ AT24C16) :
    ∀ (n a p : Nat) (buf : List Nat) (w : World Eeprom), a + n ≤ ee + 1 → Orderly limit w →
      Orderly limit (readLoop (at24 ee) ee n a p buf w).2 := by
  intro n
  induction n with
  | zero => intro a p buf w _ h; exact h
  | succ n ih =>
    intro a p buf w ha h
    have hm : (a + 1) % 65536 ≤ a + 1 := Nat.mod_le _ _
    exact ih _ _ _ _ (by omega) (orderly_read limit hl ee hee a (by omega) w h)

theorem orderly_writeLoop (limit : Nat) (hl : 1 ≤ limit) (ee : Nat) (hee : ee ≤ AT24C16) :
    ∀ (n a p : Nat) (buf : List Nat) (w : World Eeprom), a + n ≤ ee + 1 → Orderly limit w →
      Orderly limit (writeLoop (at24 ee) ee n a p buf w) := by
  intro n
  induction n with
  | zero => intro a p buf w _ h; exact h
  | succ n ih =>
    intro a p buf w ha h
    have hm : (a + 1) % 65536 ≤ a + 1 := Nat.mod_le _ _
    exact ih _ _ _ _ (by omega) (orderly_write limit hl ee hee a _ (by omega) w h)

theorem orderly_check (limit : Nat) (hl : 2 ≤ limit) (ee : Nat) (hee : ee ≤ AT24C16)
    (ha : 255 ≤ ee) (w : World Eeprom) (h : Orderly limit w) :
    Orderly limit (AT24CXX_Check (at24 ee) ee w).2 := by
  have h1 := orderly_read limit hl ee hee 255 ha w h
  have h2 := orderly_write limit (by omega) ee hee 255 0x55 ha _ h1
  have h3 := orderly_read limit hl ee hee 255 ha _ h2
  unfold AT24CXX_Check
  dsimp only
  split
  · exact h1
  · split
    · exact h3
    · exact h3

theorem orderly_exec (ee : Nat) (hee : ee ≤ AT24C16) (o : Op) (ho : o.inRange ee = true)
    (w : World Eeprom) (h : Orderly 2 w) : Orderly 2 (o.exec (at24 ee) ee w) := by
  cases o with
  | readOne a =>
    exact orderly_read 2 (le_refl _) ee hee a (by simpa [Op.inRange] using ho) w h
  | writeOne a d =>
    exact orderly_write 2 (by decide) ee hee a d (by simpa [Op.inRange] using ho) w h
  | readLen a l =>
    have h1 : a + l ≤ ee + 1 := by simpa [Op.inRange] using ho
    have h2 : a % 65536 ≤ a := Nat.mod_le _ _
    have h3 : l % 256 ≤ l := Nat.mod_le _ _
    exact orderly_readLenLoop 2 (le_refl _) ee hee _ _ (by omega) _ _ _ w h
  | writeLen a d l =>
    have h1 : a + l ≤ ee + 1 := by simpa [Op.inRange] using ho
    have h2 : a % 65536 ≤ a := Nat.mod_le _ _
    have h3 : l % 256 ≤ l := Nat.mod_le _ _
    exact orderly_writeLenLoop 2 (by decide) ee hee _ _ _ _ w (by omega) h
  | read a buf n =>
    have h1 : a + n ≤ ee + 1 := by simpa [Op.inRange] using ho
    have h2 : a % 65536 ≤ a := Nat.mod_le _ _
    have h3 : n % 65536 ≤ n := Nat.mod_le _ _
    exact orderly_readLoop 2 (le_refl _) ee hee _ _ _ _ w (by omega) h
  | write a buf n =>
    have h1 : a + n ≤ ee + 1 := by simpa [Op.inRange] using ho
    have h2 : a % 65536 ≤ a := Nat.mod_le _ _
    have h3 : n % 65536 ≤ n := Nat.mod_le _ _
    exact orderly_writeLoop 2 (by decide) ee hee _ _ _ _ w (by omega) h
  | check =>
    exact orderly_check 2 (le_refl _) ee hee (by simpa [Op.inRange] using ho) w h

theorem orderly_exec_writes (ee : Nat) (hee : ee ≤ AT24C16) (o : Op)
    (ho : o.inRange ee = true) (hw : o.writesOnly = true)
    (w : World Eeprom) (h : Orderly 1 w) : Orderly 1 (o.exec (at24 ee) ee w) := by
  cases o with
  | writeOne a d =>
    exact orderly_write 1 (le_refl _) ee hee a d (by simpa [Op.inRange] using ho) w h
  | writeLen a d l =>
    have h1 : a + l ≤ ee + 1 := by simpa [Op.inRange] using ho
    have h2 : a % 65536 ≤ a := Nat.mod_le _ _
    have h3 : l % 256 ≤ l := Nat.mod_le _ _
    exact orderly_writeLenLoop 1 (le_refl _) ee hee _ _ _ _ w (by omega) h
  | write a buf n =>
    have h1 : a + n ≤ ee + 1 := by simpa [Op.inRange] using ho
    have h2 : a % 65536 ≤ a := Nat.mod_le _ _
    have h3 : n % 65536 ≤ n := Nat.mod_le _ _
    exact orderly_writeLoop 1 (le_refl _) ee hee _ _ _ _ w (by omega) h
  | readOne a => simp [Op.writesOnly] at hw
  | readLen a l => simp [Op.writesOnly] at hw
  | read a buf n => simp [Op.writesOnly] at hw
  | check => simp [Op.writesOnly] at hw

theorem orderly_execAll (ee : Nat) (hee : ee ≤ AT24C16) (ops : List Op) :
    (∀ o, o ∈ ops → o.inRange ee = true) →
      ∀ w : World Eeprom, Orderly 2 w → Orderly 2 (execAll (at24 ee) ee ops w) := by
  induction ops with
  | nil => intro _ w h; exact h
  | cons o os ih =>
    intro ho w h
    exact ih (fun x hx => ho x (List.mem_cons_of_mem _ hx)) _
      (orderly_exec ee hee o (ho o (List.mem_cons_self _ _)) w h)

theorem orderly_execAll_writes (ee : Nat) (hee : ee ≤ AT24C16) (ops : List Op) :
    (∀ o, o ∈ ops → o.inRange ee = true) → (∀ o, o ∈ ops → o.writesOnly = true) →
      ∀ w : World Eeprom, Orderly 1 w → Orderly 1 (execAll (at24 ee) ee ops w) := by
  induction ops with
  | nil => intro _ _ w h; exact h
  | cons o os ih =>
    intro ho hw w h
    exact ih (fun x hx => ho x (List.mem_cons_of_mem _ hx))
      (fun x hx => hw x (List.mem_cons_of_mem _ hx)) _
      (orderly_exec_writes ee hee o (ho o (List.mem_cons_self _ _))
        (hw o (List.mem_cons_self _ _)) w h)

theorem strict_of_orderly (limit : Nat) (w : World Eeprom) (h : Orderly limit w) :
    strictScan limit (some 0) w.trace = some 0 := by
  obtain ⟨tr, hi, ptr, mem, rfl, hs⟩ := h
  exact hs

theorem orderly_idle (limit : Nat) (mem : Nat → Nat) :
    Orderly limit (idleWorld (Eeprom.idle mem)) :=
  ⟨[], 0, 0, mem, rfl, rfl⟩

set_option maxRecDepth 100000 in
/-- C9 (as stated, refuted), twice.  One `AT24CXX_ReadOneByte` on the fault-free device, from
the idle bus, calls `C04_IIC_Start` twice with no `C04_IIC_Stop` in between (the repeated
Start): its Starts and Stops are Start, Start, Stop.  One `AT24CXX_WriteOneByte` to a slave
that never answers, from the idle bus, calls `C04_IIC_Stop` four times after its one Start
(three acknowledge waits time out, each with a Stop of its own, then the final Stop): the
Start is not matched by exactly one Stop, although no two Starts lack a Stop in between.  In
both traces Starts and Stops do not alternate. -/
theorem sequencing_counterexample :
    (startStops
        (execAll (at24 EE_TYPE) EE_TYPE [Op.readOne 0]
          (idleWorld (Eeprom.idle (fun _ => 0)))).trace = [Prim.start, Prim.start, Prim.stop] ∧
      alternates false
        (execAll (at24 EE_TYPE) EE_TYPE [Op.readOne 0]
          (idleWorld (Eeprom.idle (fun _ => 0)))).trace = false ∧
      seqScan 1 (some 0)
        (execAll (at24 EE_TYPE) EE_TYPE [Op.readOne 0]
          (idleWorld (Eeprom.idle (fun _ => 0)))).trace = none) ∧
    (startStops (execAll absent EE_TYPE [Op.writeOne 0 0] (idleWorld ())).trace
        = [Prim.start, Prim.stop, Prim.stop, Prim.stop, Prim.stop] ∧
      alternates false (execAll absent EE_TYPE [Op.writeOne 0 0] (idleWorld ())).trace = false ∧
      strictScan 2 (some 0) (execAll absent EE_TYPE [Op.writeOne 0 0] (idleWorld ())).trace
        = none ∧
      seqScan 1 (some 0) (execAll absent EE_TYPE [Op.writeOne 0 0] (idleWorld ())).trace
        = some 0) := by
  have h : (execAll (at24 EE_TYPE) EE_TYPE [Op.readOne 0]
      (idleWorld (Eeprom.idle (fun _ => 0)))).trace
      = readEvents EE_TYPE 0 (fun _ => acked) (bitsOf 0) := by
    show (AT24CXX_ReadOneByte (at24 EE_TYPE) EE_TYPE 0 (settled [] 0 0 (fun _ => 0))).2.trace = _
    rw [read_at24 EE_TYPE 0 (by decide) (by decide)]
    rfl
  have ha : startStops (execAll (at24 EE_TYPE) EE_TYPE [Op.readOne 0]
      (idleWorld (Eeprom.idle (fun _ => 0)))).trace = [Prim.start, Prim.start, Prim.stop] := by
    rw [h, startStops_readEvents]
    rfl
  have g : (execAll absent EE_TYPE [Op.writeOne 0 0] (idleWorld ())).trace
      = writeEvents EE_TYPE 0 0 (fun _ => timedOut) := by
    show (AT24CXX_WriteOneByte absent EE_TYPE 0 0 (idleWorld ())).trace = _
    rw [write_unresponsive absent (fun _ => rfl), run_trace]
    rfl
  have hb : startStops (execAll absent EE_TYPE [Op.writeOne 0 0] (idleWorld ())).trace
      = [Prim.start, Prim.stop, Prim.stop, Prim.stop, Prim.stop] := by
    rw [g, startStops_writeEvents]
    rfl
  refine ⟨⟨ha, ?_, ?_⟩, ⟨hb, ?_, ?_, ?_⟩⟩
  · rw [alternates_startStops, ha]
    rfl
  · rw [h]
    decide
  · rw [alternates_startStops, hb]
    rfl
  · rw [strictScan_startStops, hb]
    rfl
  · exact closed_execAll_writes absent EE_TYPE [Op.writeOne 0 0] (by decide) (idleWorld ()) rfl

/-- C9 (amended): for every slave and every sequence of public operations run from the idle
bus.  (1) At most two calls of `C04_IIC_Start` (the Start and the repeated Start of
`AT24CXX_ReadOneByte`) occur without a call of `C04_IIC_Stop` in between, and after the last
operation no Start is left open.  (2) With the Stops called inside `C04_IIC_Wait_Ack` set
apart, every Stop finds one or two Starts open and closes them, and no Start is left open: no
Start is followed by a second Stop of this kind.  (3) When the sequence consists of writing
operations only, two Starts never occur without a Stop in between, and with the Stops inside
`C04_IIC_Wait_Ack` set apart Starts and Stops alternate strictly.  (4) `C04_IIC_Wait_Ack`
calls `C04_IIC_Stop` once
when it returns 1 (timeout) and never when it returns 0.  (5) On the fault-free simulated
device with one-byte addressing and in-range addresses, where no wait times out, every Stop
closes one or two open Starts, and in sequences of writing operations every Start is matched
by exactly one Stop before the next Start. -/
theorem sequencing_amended (sl : Slave σ) (ee : Nat) (ops : List Op) (s : σ) :
    seqScan 2 (some 0) (execAll sl ee ops (idleWorld s)).trace = some 0 ∧
    matchScan 2 (some (0, false)) (execAll sl ee ops (idleWorld s)).trace = some (0, false) ∧
    ((∀ o, o ∈ ops → o.writesOnly = true) →
      seqScan 1 (some 0) (execAll sl ee ops (idleWorld s)).trace = some 0 ∧
      matchScan 1 (some (0, false)) (execAll sl ee ops (idleWorld s)).trace
        = some (0, false)) ∧
    (∀ w : World σ, startStops (since w (C04_IIC_Wait_Ack sl w).2.trace)
      = if (C04_IIC_Wait_Ack sl w).1 = 0 then [] else [Prim.stop]) ∧
    (ee ≤ AT24C16 → (∀ o, o ∈ ops → o.inRange ee = true) → ∀ mem : Nat → Nat,
      strictScan 2 (some 0)
        (execAll (at24 ee) ee ops (idleWorld (Eeprom.idle mem))).trace = some 0 ∧
      ((∀ o, o ∈ ops → o.writesOnly = true) →
        strictScan 1 (some 0)
          (execAll (at24 ee) ee ops (idleWorld (Eeprom.idle mem))).trace = some 0 ∧
        alternates false
          (execAll (at24 ee) ee ops (idleWorld (Eeprom.idle mem))).trace = true)) := by
  refine ⟨closed_execAll sl ee ops (idleWorld s) rfl, ?_, ?_, startStops_waitAck sl, ?_⟩
  · exact execAll_keeps (Matched 2) sl ee (matched_read 2 (le_refl _) sl ee)
      (matched_write 2 (by decide) sl ee) ops (idleWorld s) rfl
  · intro h
    exact ⟨closed_execAll_writes sl ee ops h (idleWorld s) rfl,
      execAll_writes_keeps (Matched 1) sl ee (matched_write 1 (le_refl _) sl ee) ops h
        (idleWorld s) rfl⟩
  · intro hee hin mem
    refine ⟨strict_of_orderly 2 _ (orderly_execAll ee hee ops hin _ (orderly_idle 2 mem)), ?_⟩
    intro hw
    have h1 := strict_of_orderly 1 _
      (orderly_execAll_writes ee hee ops hin hw _ (orderly_idle 1 mem))
    refine ⟨h1, ?_⟩
    have h2 := alternates_of_strict
      (execAll (at24 ee) ee ops (idleWorld (Eeprom.idle mem))).trace 0 (by decide)
      (by rw [h1]; exact Option.some_ne_none _)
    simpa using h2

/-- Witness for C9 (amended): three writing operations on a slave that never answers, and on
the fault-free device a sequence of in-range operations and a sequence of in-range writing
operations. -/
theorem sequencing_amended_witness :
    (seqScan 1 (some 0)
        (execAll absent EE_TYPE [Op.writeOne 3 7, Op.writeLen 8 513 2, Op.write 0 [1, 2] 2]
          (idleWorld ())).trace = some 0 ∧
      matchScan 1 (some (0, false))
        (execAll absent EE_TYPE [Op.writeOne 3 7, Op.writeLen 8 513 2, Op.write 0 [1, 2] 2]
          (idleWorld ())).trace = some (0, false)) ∧
    strictScan 2 (some 0)
      (execAll (at24 EE_TYPE) EE_TYPE [Op.writeLen 0 0xBEEF 2, Op.readLen 0 2, Op.check]
        (idleWorld (Eeprom.idle (fun _ => 0xFF)))).trace = some 0 ∧
    alternates false
      (execAll (at24 EE_TYPE) EE_TYPE [Op.writeOne 255 7, Op.write 0 [1, 2] 2]
        (idleWorld (Eeprom.idle (fun _ => 0xFF)))).trace = true :=
  ⟨(sequencing_amended absent EE_TYPE
      [Op.writeOne 3 7, Op.writeLen 8 513 2, Op.write 0 [1, 2] 2] ()).2.2.1 (by decide),
   ((sequencing_amended absent EE_TYPE [Op.writeLen 0 0xBEEF 2, Op.readLen 0 2, Op.check]
      ()).2.2.2.2 (by decide) (by decide) (fun _ => 0xFF)).1,
   (((sequencing_amended absent EE_TYPE [Op.writeOne 255 7, Op.write 0 [1, 2] 2]
      ()).2.2.2.2 (by decide) (by decide) (fun _ => 0xFF)).2 (by decide)).2⟩

end AT24
